import Mathlib

/-!
# Slic3r toolpath tree and line kernel: a shallow embedding

Embedding of `src/libslic3r/Line.cpp`, `src/libslic3r/ExtrusionEntityCollection.hpp` and, of
`src/libslic3r/PrintConfig.cpp`, the functions `normalize`, `validate` (spiral vase) and
`handle_legacy`.

Conventions of the embedding.

* `coord_t` is an integer type; coordinates are modelled by `ℤ` (integer arithmetic on
  coordinates does not overflow: slicer coordinates stay far below the range of the
  machine type).
* The code computes in `double`. The functions of `Line.cpp` are given as the code
  computes them, every operation rounded on its own to IEEE 754 binary64 (round to
  nearest, ties to even, no fused multiply-add: `binary64`, and `binary64Sqrt` for the
  square root; the names of these functions end in `Rounded`), and a `double` is the
  rational number it stands for. For the claims that speak of exact arithmetic,
  `intersection`, `intersection_infinite` and `distance_to_squared` are also given with
  doubles read as exact rationals, every operation being the exact one. Angles are real
  numbers, and `PI` is the number `π`.
* `.cast<coord_t>()` on a `double` is the C++ conversion, truncation toward zero; it is
  undefined behaviour when the truncated value is outside the range of `coord_t`, whose
  largest value `COORD_MAX` is a parameter where a function can leave the range.
* An output parameter `Point*` is modelled by passing the value it held before the
  call and returning the value it holds afterwards.
* A collection is a value; a method that changes its object returns the collection after
  the call, and a source taken by rvalue reference is returned as it is left. A call that
  may fail ends in an `Outcome`: a value, a reported error, or undefined behaviour.
* Methods that the header only declares are modelled from the spec, and say so.
-/

namespace Slic3r

/-! ## Points and vectors -/

/-- A 2D point on the fixed integer grid (`Point`, coordinates of type `coord_t`). -/
structure Point where
  x : ℤ
  y : ℤ
deriving DecidableEq, Repr

/-- A 2D vector of doubles (`Vec2d`), doubles read as exact rationals. -/
structure Vec2d where
  x : ℚ
  y : ℚ
deriving DecidableEq

/-- Componentwise difference of two points, `p - q`. -/
def Point.sub (p q : Point) : Point := ⟨p.x - q.x, p.y - q.y⟩

instance : Sub Point := ⟨Point.sub⟩

/-- Conversion `.cast<double>()` of a point. -/
def Point.castDouble (p : Point) : Vec2d := ⟨(p.x : ℚ), (p.y : ℚ)⟩

/-- Conversion of one `double` to `coord_t`: truncation toward zero. -/
def castCoord (q : ℚ) : ℤ := if 0 ≤ q then ⌊q⌋ else ⌈q⌉

/-- Conversion `.cast<coord_t>()` of a vector, componentwise. -/
def Vec2d.castCoord (v : Vec2d) : Point := ⟨Slic3r.castCoord v.x, Slic3r.castCoord v.y⟩

/-- Vector sum. -/
def Vec2d.add (u v : Vec2d) : Vec2d := ⟨u.x + v.x, u.y + v.y⟩

/-- Vector difference. -/
def Vec2d.sub (u v : Vec2d) : Vec2d := ⟨u.x - v.x, u.y - v.y⟩

/-- Scalar multiple `t * v`. -/
def Vec2d.smul (t : ℚ) (v : Vec2d) : Vec2d := ⟨t * v.x, t * v.y⟩

/-- Dot product (`dot` of Eigen). -/
def Vec2d.dot (u v : Vec2d) : ℚ := u.x * v.x + u.y * v.y

/-- Squared Euclidean norm (`squaredNorm` of Eigen). -/
def Vec2d.squaredNorm (v : Vec2d) : ℚ := v.x * v.x + v.y * v.y

/-- Euclidean norm (`norm` of Eigen), a real number. -/
noncomputable def Vec2d.norm (v : Vec2d) : ℝ := Real.sqrt ((v.squaredNorm : ℚ) : ℝ)

/-- Modelled from the spec: `cross2` is declared in `Point.hpp`, which is not among the
sources; it is the 2D cross product that `Line.cpp` solves its linear systems with. -/
def cross2 (v1 v2 : Vec2d) : ℚ := v1.x * v2.y - v1.y * v2.x

/-- A 2D segment with endpoints `a` and `b` on the integer grid. -/
structure Line where
  a : Point
  b : Point
deriving DecidableEq, Repr

/-! ## Line kernel (`Line.cpp`)

The constant `EPSILON` is declared in `libslic3r.h`, which is not among the sources; the
functions that test against it take it as their first argument. -/

/-- The function `Line::intersection_infinite(other, point)` with doubles read as exact
rationals: the returned pair is the boolean result and the value of `*point` after the
call. The function as the code computes it is `Line.intersection_infiniteRounded`. -/
def Line.intersection_infinite (EPSILON : ℚ) (this other : Line) (point : Point) :
    Bool × Point :=
  let a1 := this.a.castDouble
  let v12 := (other.a - this.a).castDouble
  let v1 := (this.b - this.a).castDouble
  let v2 := (other.b - other.a).castDouble
  let denom := cross2 v1 v2
  if |denom| < EPSILON then (false, point)
  else
    let t1 := cross2 v12 v2 / denom
    (true, (a1.add (Vec2d.smul t1 v1)).castCoord)

/-- The function `Line::distance_to_squared(point, a, b)` with doubles read as exact
rationals. The function as the code computes it is `Line.distance_to_squaredRounded`. -/
def Line.distance_to_squared (point a b : Point) : ℚ :=
  let v := (b - a).castDouble
  let va := (point - a).castDouble
  let l2 := v.squaredNorm
  if l2 = 0 then va.squaredNorm
  else
    let t := va.dot v / l2
    if t < 0 then va.squaredNorm
    else if t > 1 then (point - b).castDouble.squaredNorm
    else ((Vec2d.smul t v).sub va).squaredNorm

/-- The function `Line::intersection(l2, intersection)` with doubles read as exact
rationals: the returned pair is the boolean result and the value of `*intersection` after
the call. The function as the code computes it is `Line.intersectionRounded binary64`. -/
def Line.intersection (EPSILON : ℚ) (l1 l2 : Line) (intersection : Point) : Bool × Point :=
  let v1 := (l1.b - l1.a).castDouble
  let v2 := (l2.b - l2.a).castDouble
  let v12 := (l1.a - l2.a).castDouble
  let denom := cross2 v1 v2
  let nume_a := cross2 v2 v12
  let nume_b := cross2 v1 v12
  if |denom| < EPSILON then (false, intersection)
  else
    let t1 := nume_a / denom
    let t2 := nume_b / denom
    if 0 ≤ t1 ∧ t1 ≤ 1 ∧ 0 ≤ t2 ∧ t2 ≤ 1 then
      (true, (l1.a.castDouble.add (Vec2d.smul t1 v1)).castCoord)
    else (false, intersection)

/-! ### Conversion of a real number to the grid -/

/-- Truncation toward zero of a real number: what the conversion to `coord_t` makes of an
exact coordinate. -/
noncomputable def castCoordReal (x : ℝ) : ℤ := if 0 ≤ x then ⌊x⌋ else ⌈x⌉

/-! ### Angles (`Line.cpp`)

The constant `PI` is declared in `libslic3r.h`, which is not among the sources; it is read
as the real number `π`. -/

/-- Modelled from the spec: `length()` is declared in `Line.hpp`, which is not among the
sources; it is the Euclidean length of the segment. This is the exact length;
`Line.lengthRounded` is the value computed in doubles. -/
noncomputable def Line.length (l : Line) : ℝ := (l.b - l.a).castDouble.norm

/-- Modelled from the spec: `atan2_()` is declared in `Line.hpp`, which is not among the
sources; it is the angle of the bearing of the segment, `atan2(b.y - a.y, b.x - a.x)` of
the C library: the angle in `(-π, π]` of the vector `b - a`, and 0 for the zero vector. -/
noncomputable def Line.atan2_ (l : Line) : ℝ :=
  Complex.arg ⟨((l.b.x - l.a.x : ℤ) : ℝ), ((l.b.y - l.a.y : ℤ) : ℝ)⟩

/-- The function `Line::orientation()`. -/
noncomputable def Line.orientation (l : Line) : ℝ :=
  let angle := l.atan2_
  if angle < 0 then 2 * Real.pi + angle else angle

/-- The real point `(X, Y)` lies on the closed segment `l`: it is `a + t (b - a)` for some
`t` in `[0, 1]`. -/
def Line.contains (l : Line) (X Y : ℝ) : Prop :=
  ∃ t : ℝ, 0 ≤ t ∧ t ≤ 1 ∧ X = l.a.x + t * (l.b.x - l.a.x) ∧ Y = l.a.y + t * (l.b.y - l.a.y)

/-- The cross product of the direction vectors of two segments (an integer). -/
def Line.dirCross (l1 l2 : Line) : ℤ :=
  (l1.b.x - l1.a.x) * (l2.b.y - l2.a.y) - (l1.b.y - l1.a.y) * (l2.b.x - l2.a.x)

/-- The parameter along `l1` of the common point of the lines through `l1` and `l2`
(meaningful when `dirCross` is not zero). -/
def Line.param1 (l1 l2 : Line) : ℚ :=
  (((l2.b.x - l2.a.x) * (l1.a.y - l2.a.y) - (l2.b.y - l2.a.y) * (l1.a.x - l2.a.x) : ℤ) : ℚ)
    / (l1.dirCross l2 : ℚ)

/-- The parameter along `l2` of the common point of the lines through `l1` and `l2`
(meaningful when `dirCross` is not zero). -/
def Line.param2 (l1 l2 : Line) : ℚ :=
  (((l1.b.x - l1.a.x) * (l1.a.y - l2.a.y) - (l1.b.y - l1.a.y) * (l1.a.x - l2.a.x) : ℤ) : ℚ)
    / (l1.dirCross l2 : ℚ)

/-- Squared Euclidean distance between the grid point `p` and the real point `(X, Y)`. -/
def Point.distSqTo (p : Point) (X Y : ℝ) : ℝ := ((p.x : ℝ) - X) ^ 2 + ((p.y : ℝ) - Y) ^ 2

/-- Squared Euclidean distance between two grid points. -/
def Point.distSq (p q : Point) : ℤ := (p.x - q.x) ^ 2 + (p.y - q.y) ^ 2

/-- The dot product `(p - a) . (b - a)` (an integer). -/
def dotAt (p a b : Point) : ℤ :=
  (p.x - a.x) * (b.x - a.x) + (p.y - a.y) * (b.y - a.y)

/-- The projection parameter of `p` on the line through `a` and `b`,
`(p - a) . (b - a) / |b - a|^2` (meaningful when `a` and `b` differ). -/
def projParam (p a b : Point) : ℚ :=
  ((dotAt p a b : ℤ) : ℚ) / ((b.distSq a : ℤ) : ℚ)

/-- The cross product `cross(b - a, p - a)` (an integer). -/
def crossAt (p a b : Point) : ℤ :=
  (b.x - a.x) * (p.y - a.y) - (b.y - a.y) * (p.x - a.x)

/-- The point of parameter `t` on the line through `a` and `b`, `a + t (b - a)`, and its
squared distance to `p`. -/
def distSqAt (p a b : Point) (t : ℝ) : ℝ :=
  p.distSqTo ((a.x : ℝ) + t * ((b.x : ℝ) - a.x)) ((a.y : ℝ) + t * ((b.y : ℝ) - a.y))

/-! ### Outcomes of a call -/

/-- How a call ends: with a value, with a reported error (an exception is thrown), or with
undefined behaviour (the code makes no check and reports nothing). -/
inductive Outcome (α : Type) where
  | value (a : α)
  | error (what : String)
  | undefined

/-- An endpoint query that found no point ran into `front()` or `back()` of an empty
vector, which is undefined behaviour. -/
def Outcome.ofOption {α : Type} : Option α → Outcome α
  | some a => .value a
  | none => .undefined

/-! ### Rounded arithmetic

The operations on doubles round their result to the nearest binary64 value. The rounding
is a function on the rationals, and the functions of `Line.cpp` are given with it. -/

/-- The quotient `N / D` rounded to the nearest integer, ties to the even one. -/
def roundHalfEven (N D : ℕ) : ℕ :=
  let m := N / D
  let r := N % D
  if 2 * r < D then m else if D < 2 * r then m + 1 else if m % 2 = 0 then m else m + 1

/-- The loop of `log2Floor`: the number of halvings of `n` that leave at least 1, at most
`steps` of them. -/
def log2Steps : ℕ → ℕ → ℕ
  | 0, _ => 0
  | steps + 1, n => if 2 ≤ n then log2Steps steps (n / 2) + 1 else 0

/-- The floor of the binary logarithm of a positive natural number. -/
def log2Floor (n : ℕ) : ℕ := log2Steps n n

/-- Rounding of the positive rational `n / d` to a 53-bit significand: with `L` the floor
of the binary logarithm of `n / d`, the value is brought to `[2^52, 2^53)` by the factor
`2^(52 - L)`, rounded to an integer and scaled back. -/
def binary64Pos (n d : ℕ) : ℚ :=
  let E : ℤ := (log2Floor n : ℤ) - (log2Floor d : ℤ)
  let L : ℤ := if d * 2 ^ E.toNat ≤ n * 2 ^ (-E).toNat then E else E - 1
  let e : ℤ := L - 52
  (roundHalfEven (n * 2 ^ (-e).toNat) (d * 2 ^ e.toNat) : ℚ) * 2 ^ e.toNat / 2 ^ (-e).toNat

/-- Rounding of a rational to the nearest IEEE 754 binary64 value (round to nearest, ties
to even; 53-bit significand). The exponent range is not bounded, which makes no difference
for magnitudes between `2^-1022` and `2^1024`. -/
def binary64 (q : ℚ) : ℚ :=
  if q = 0 then 0
  else if 0 < q then binary64Pos q.num.natAbs q.den
  else -binary64Pos q.num.natAbs q.den

/-- The function `Line::intersection` with every `double` operation followed by the
rounding `fl` (conversions from `coord_t` included); `fl = id` is exact arithmetic. -/
def Line.intersectionRounded (fl : ℚ → ℚ) (EPSILON : ℚ) (l1 l2 : Line) (intersection : Point) :
    Bool × Point :=
  let v1 : Vec2d := ⟨fl (l1.b - l1.a).x, fl (l1.b - l1.a).y⟩
  let v2 : Vec2d := ⟨fl (l2.b - l2.a).x, fl (l2.b - l2.a).y⟩
  let v12 : Vec2d := ⟨fl (l1.a - l2.a).x, fl (l1.a - l2.a).y⟩
  let denom := fl (fl (v1.x * v2.y) - fl (v1.y * v2.x))
  let nume_a := fl (fl (v2.x * v12.y) - fl (v2.y * v12.x))
  let nume_b := fl (fl (v1.x * v12.y) - fl (v1.y * v12.x))
  if |denom| < EPSILON then (false, intersection)
  else
    let t1 := fl (nume_a / denom)
    let t2 := fl (nume_b / denom)
    if 0 ≤ t1 ∧ t1 ≤ 1 ∧ 0 ≤ t2 ∧ t2 ≤ 1 then
      (true, ⟨castCoord (fl (fl l1.a.x + fl (t1 * v1.x))),
              castCoord (fl (fl l1.a.y + fl (t1 * v1.y)))⟩)
    else (false, intersection)

/-- Every coordinate of the two endpoints is below `B` in magnitude. -/
def Line.within (l : Line) (B : ℤ) : Prop :=
  |l.a.x| < B ∧ |l.a.y| < B ∧ |l.b.x| < B ∧ |l.b.y| < B

instance (l : Line) (B : ℤ) : Decidable (l.within B) := by
  unfold Line.within
  infer_instance

/-- Both coordinates of the point are below `B` in magnitude. -/
def Point.within (p : Point) (B : ℤ) : Prop := |p.x| < B ∧ |p.y| < B

instance (p : Point) (B : ℤ) : Decidable (p.within B) := by
  unfold Point.within
  infer_instance

deriving instance DecidableEq for Outcome

/-- Conversion of one `double` to `coord_t` with the range of the type: the truncation
toward zero when it lies in `[-COORD_MAX - 1, COORD_MAX]`; the conversion of a value whose
truncation is outside the range of the type is undefined behaviour (`none`). The type
`coord_t` is declared in `libslic3r.h`, which is not among the sources; its largest value
is a parameter. -/
def castCoordChecked (COORD_MAX : ℤ) (q : ℚ) : Option ℤ :=
  if -COORD_MAX - 1 ≤ castCoord q ∧ castCoord q ≤ COORD_MAX then some (castCoord q) else none

/-- The point with two converted coordinates: undefined behaviour when one of the two
conversions is. -/
def Outcome.ofCoords (x y : Option ℤ) : Outcome Point :=
  match x, y with
  | some x, some y => .value ⟨x, y⟩
  | _, _ => .undefined

/-- The outcome of a call whose value is passed through `f`. -/
def Outcome.map {α β : Type} (f : α → β) : Outcome α → Outcome β
  | .value a => .value (f a)
  | .error what => .error what
  | .undefined => .undefined

/-- The function `Line::intersection_infinite(other, point)` with every `double` operation
followed by the rounding `fl` (conversions from `coord_t` included) and the conversion of
the point checked against the range of `coord_t`. -/
def Line.intersection_infiniteRounded (fl : ℚ → ℚ) (EPSILON : ℚ) (COORD_MAX : ℤ)
    (this other : Line) (point : Point) : Outcome (Bool × Point) :=
  let a1 : Vec2d := ⟨fl this.a.x, fl this.a.y⟩
  let v12 : Vec2d := ⟨fl (other.a - this.a).x, fl (other.a - this.a).y⟩
  let v1 : Vec2d := ⟨fl (this.b - this.a).x, fl (this.b - this.a).y⟩
  let v2 : Vec2d := ⟨fl (other.b - other.a).x, fl (other.b - other.a).y⟩
  let denom := fl (fl (v1.x * v2.y) - fl (v1.y * v2.x))
  if |denom| < EPSILON then .value (false, point)
  else
    let t1 := fl (fl (fl (v12.x * v2.y) - fl (v12.y * v2.x)) / denom)
    (Outcome.ofCoords (castCoordChecked COORD_MAX (fl (a1.x + fl (t1 * v1.x))))
      (castCoordChecked COORD_MAX (fl (a1.y + fl (t1 * v1.y))))).map (fun p => (true, p))

/-- The loop of `sqrtFloor`: the bits of the square root from bit `i` downward, `r` being
the part found so far. -/
def sqrtBits (N : ℕ) : ℕ → ℕ → ℕ
  | 0, r => if (r + 1) ^ 2 ≤ N then r + 1 else r
  | i + 1, r => sqrtBits N i (if (r + 2 ^ (i + 1)) ^ 2 ≤ N then r + 2 ^ (i + 1) else r)

/-- The floor of the square root of a natural number. -/
def sqrtFloor (N : ℕ) : ℕ := sqrtBits N (log2Floor N / 2) 0

/-- The square root of a `double` as IEEE 754 requires of `sqrt`: the real square root
rounded to the nearest binary64 value, ties to even (53-bit significand, exponent range
not bounded). With `L` the binary exponent of the root, the square of the root is brought
to `[2^104, 2^106)` by the factor `4^(52 - L)`, its root is rounded to an integer by
comparing squares, and the integer is scaled back. The root of 0 is 0; a negative argument,
which gives no number, occurs in no call of the embedding and is mapped to 0. -/
def binary64Sqrt (q : ℚ) : ℚ :=
  if 0 < q then
    let n := q.num.natAbs
    let d := q.den
    let E : ℤ := (log2Floor n : ℤ) - (log2Floor d : ℤ)
    let L2 : ℤ := if d * 2 ^ E.toNat ≤ n * 2 ^ (-E).toNat then E else E - 1
    let L : ℤ := L2 / 2
    let e : ℤ := L - 52
    let N := n * 4 ^ (-e).toNat
    let D := d * 4 ^ e.toNat
    let m0 := sqrtFloor (N / D)
    let m :=
      if 4 * N < (2 * m0 + 1) ^ 2 * D then m0
      else if (2 * m0 + 1) ^ 2 * D < 4 * N then m0 + 1
      else if m0 % 2 = 0 then m0 else m0 + 1
    (m : ℚ) * 2 ^ e.toNat / 2 ^ (-e).toNat
  else 0

/-! ### The distances and the interpolation as computed in doubles

The functions below follow `Line.cpp` with every operation on doubles rounded to binary64
(`binary64`, and `binary64Sqrt` for the square root of `norm()`), the conversion of a
coordinate to `double` included. -/

/-- Conversion `.cast<double>()` of a point, each coordinate rounded to binary64. -/
def Point.castDoubleRounded (p : Point) : Vec2d := ⟨binary64 p.x, binary64 p.y⟩

/-- Squared norm of a vector of doubles (`squaredNorm` of Eigen), each operation rounded. -/
def Vec2d.squaredNormRounded (v : Vec2d) : ℚ :=
  binary64 (binary64 (v.x * v.x) + binary64 (v.y * v.y))

/-- Norm of a vector of doubles (`norm` of Eigen): the rounded square root of the rounded
squared norm. -/
def Vec2d.normRounded (v : Vec2d) : ℚ := binary64Sqrt v.squaredNormRounded

/-- Dot product of two vectors of doubles (`dot` of Eigen), each operation rounded. -/
def Vec2d.dotRounded (u v : Vec2d) : ℚ :=
  binary64 (binary64 (u.x * v.x) + binary64 (u.y * v.y))

/-- The cross product `cross2` on doubles, each operation rounded. -/
def cross2Rounded (v1 v2 : Vec2d) : ℚ :=
  binary64 (binary64 (v1.x * v2.y) - binary64 (v1.y * v2.x))

/-- The function `Line::distance_to_squared(point, a, b)` as computed in doubles. -/
def Line.distance_to_squaredRounded (point a b : Point) : ℚ :=
  let v := (b - a).castDoubleRounded
  let va := (point - a).castDoubleRounded
  let l2 := v.squaredNormRounded
  if l2 = 0 then va.squaredNormRounded
  else
    let t := binary64 (va.dotRounded v / l2)
    if t < 0 then va.squaredNormRounded
    else if t > 1 then (point - b).castDoubleRounded.squaredNormRounded
    else
      (Vec2d.mk (binary64 (binary64 (t * v.x) - va.x))
        (binary64 (binary64 (t * v.y) - va.y))).squaredNormRounded

/-- The function `Line::perp_distance_to(point)` as computed in doubles. -/
def Line.perp_distance_toRounded (line : Line) (point : Point) : ℚ :=
  let v := (line.b - line.a).castDoubleRounded
  let va := (point - line.a).castDoubleRounded
  if line.a = line.b then va.normRounded
  else binary64 (|cross2Rounded v va| / v.normRounded)

/-- Modelled from the spec: `length()` is declared in `Line.hpp`, which is not among the
sources; it is the Euclidean length of the segment, computed in doubles as the norm of the
vector `b - a`, the way `perp_distance_to` computes `v.norm()`. -/
def Line.lengthRounded (l : Line) : ℚ := (l.b - l.a).castDoubleRounded.normRounded

/-- The function `Line::point_at(distance)` as computed in doubles. The assignment of a
`double` to a coordinate converts it to `coord_t`; when the truncated value lies outside
the range of `coord_t` the conversion, and with it the call, is undefined behaviour. -/
def Line.point_atRounded (COORD_MAX : ℤ) (l : Line) (distance : ℚ) : Outcome Point :=
  let len := l.lengthRounded
  let x : Option ℤ :=
    if l.a.x ≠ l.b.x then
      castCoordChecked COORD_MAX (binary64 (binary64 l.a.x
        + binary64 (binary64 (binary64 ((l.b.x - l.a.x : ℤ) : ℚ) * distance) / len)))
    else some l.a.x
  let y : Option ℤ :=
    if l.a.y ≠ l.b.y then
      castCoordChecked COORD_MAX (binary64 (binary64 l.a.y
        + binary64 (binary64 (binary64 ((l.b.y - l.a.y : ℤ) : ℚ) * distance) / len)))
    else some l.a.y
  Outcome.ofCoords x y

/-! ## The entity tree (`ExtrusionEntityCollection.hpp`) -/

/-- Modelled from the spec: the enumeration `ExtrusionRole` is declared in
`ExtrusionEntity.hpp`, which is not among the sources. The source names `erNone` and
`erMixed`; the spec lists the tags perimeter, infill, support, bridge and leaves the list
open, which `erOther` stands for. -/
inductive ExtrusionRole where
  | erNone
  | erPerimeter
  | erInfill
  | erSupport
  | erBridge
  | erOther (tag : ℕ)
  | erMixed
deriving DecidableEq, Repr

/-- Modelled from the spec: the leaf entity is declared in `ExtrusionEntity.hpp`, which is
not among the sources. A leaf is an ordered polyline, an extrusion width, a height, a role
and the derived flow; `reversible` is what its `can_reverse()` reports (a closed loop is
not reversible). -/
structure ExtrusionPath where
  polyline : List Point
  role : ExtrusionRole
  width : ℚ
  height : ℚ
  mm3_per_mm : ℚ
  reversible : Bool
deriving DecidableEq

/-- An entity of the tree: a leaf, or a collection with the three data members of
`ExtrusionEntityCollection` (`entities`, `orig_indices`, `no_sort`). -/
inductive ExtrusionEntity where
  | path (p : ExtrusionPath)
  | collection (entities : List ExtrusionEntity) (orig_indices : List ℕ) (no_sort : Bool)

/-- The class `ExtrusionEntityCollection`: owned children, index table, ordering lock. -/
structure ExtrusionEntityCollection where
  entities : List ExtrusionEntity
  orig_indices : List ℕ
  no_sort : Bool

/-- A collection seen as an entity of the tree. -/
def ExtrusionEntityCollection.toEntity (c : ExtrusionEntityCollection) : ExtrusionEntity :=
  .collection c.entities c.orig_indices c.no_sort

/-- One iteration of the loop of `role()`:
`out = (out == erNone || out == er) ? er : erMixed`. -/
def roleStep (out er : ExtrusionRole) : ExtrusionRole :=
  if out = .erNone ∨ out = er then er else .erMixed

mutual
/-- The virtual `role()`: a collection runs the loop of the header from `erNone`; a leaf
(whose class is not among the sources) reports the role it was built with. -/
def ExtrusionEntity.role : ExtrusionEntity → ExtrusionRole
  | .path p => p.role
  | .collection es _ _ => roleLoop es .erNone
/-- The loop of `ExtrusionEntityCollection::role()` over the children, `out` being the
value accumulated so far. -/
def roleLoop : List ExtrusionEntity → ExtrusionRole → ExtrusionRole
  | [], out => out
  | ee :: rest, out => roleLoop rest (roleStep out ee.role)
end

/-- The method `ExtrusionEntityCollection::role()`. -/
def ExtrusionEntityCollection.role (c : ExtrusionEntityCollection) : ExtrusionRole :=
  roleLoop c.entities .erNone

/-- The virtual `can_reverse()`: `!no_sort` for a collection, as in the header; a leaf
(whose class is not among the sources) gives its own answer. -/
def ExtrusionEntity.can_reverse : ExtrusionEntity → Bool
  | .path p => p.reversible
  | .collection _ _ no_sort => !no_sort

/-- The virtual `first_point()`: a collection delegates to its first child, as in the
header; a leaf (whose class is not among the sources) reports the first point of its
polyline. `none` when there is no point to return (empty polyline, empty collection). -/
def ExtrusionEntity.first_point : ExtrusionEntity → Option Point
  | .path p => p.polyline.head?
  | .collection [] _ _ => none
  | .collection (e :: _) _ _ => e.first_point

mutual
/-- The virtual `last_point()`: a collection delegates to its last child, as in the
header; a leaf (whose class is not among the sources) reports the last point of its
polyline. `none` when there is no point to return (empty polyline, empty collection). -/
def ExtrusionEntity.last_point : ExtrusionEntity → Option Point
  | .path p => p.polyline.getLast?
  | .collection es _ _ => lastPointOf es
/-- The `last_point()` of the last entity of a list. -/
def lastPointOf : List ExtrusionEntity → Option Point
  | [] => none
  | [e] => e.last_point
  | _ :: e :: rest => lastPointOf (e :: rest)
end

mutual
/-- Modelled from the spec: `reverse()` is defined in `ExtrusionEntityCollection.cpp` and
`ExtrusionEntity.cpp`, which are not among the sources. A leaf reverses its polyline; a
collection reverses the order of its direct children and the direction of each reversible
child; a collection with `no_sort` is left as it is. -/
def ExtrusionEntity.reverse : ExtrusionEntity → ExtrusionEntity
  | .path p => .path { p with polyline := p.polyline.reverse }
  | .collection es oi no_sort =>
    if no_sort then .collection es oi no_sort
    else .collection (reverseChildren es).reverse oi no_sort
/-- Each reversible child reversed, the others untouched, order kept. -/
def reverseChildren : List ExtrusionEntity → List ExtrusionEntity
  | [] => []
  | e :: rest => (if e.can_reverse then e.reverse else e) :: reverseChildren rest
end

/-! ### Path chaining

The bodies of `chained_path` and `chained_path_from` are in
`ExtrusionEntityCollection.cpp`, which is not among the sources: the header only declares
them. The definitions of this section follow the spec's description of the engine. -/

/-- Modelled from the spec: the body of `chained_path_from` is not among the sources. The
way into child `e` from the position `cur`: the squared distance to the nearer admissible
endpoint and whether that endpoint is `last_point` (the child is then reversed). The
endpoint is `first_point`, or the nearer of `first_point` and `last_point` when the child
may reverse (`can_reverse()` and not `no_reverse`); `none` when the child has no endpoint
to report. -/
def chainEntry (cur : Point) (no_reverse : Bool) (e : ExtrusionEntity) : Option (ℤ × Bool) :=
  match e.first_point with
  | none => none
  | some f =>
    if e.can_reverse && !no_reverse then
      match e.last_point with
      | none => none
      | some l =>
        if cur.distSq l < cur.distSq f then some (cur.distSq l, true)
        else some (cur.distSq f, false)
    else some (cur.distSq f, false)

/-- Modelled from the spec: the body of `chained_path_from` is not among the sources. The
ways into all the remaining children, in their order; `none` when one of them has no
endpoint to report. -/
def chainEntries (cur : Point) (no_reverse : Bool) :
    List (ℕ × ExtrusionEntity) → Option (List (ℤ × Bool))
  | [] => some []
  | ie :: rest =>
    match chainEntry cur no_reverse ie.2, chainEntries cur no_reverse rest with
    | some c, some cs => some (c :: cs)
    | _, _ => none

/-- Modelled from the spec: the body of `chained_path_from` is not among the sources. The
position and value of the globally minimal distance of a list of candidates; among equal
distances the first one (the lowest original index) wins. -/
def nearest : List (ℤ × Bool) → Option (ℕ × ℤ × Bool)
  | [] => none
  | c :: rest =>
    match nearest rest with
    | none => some (0, c)
    | some (k, d) => if c.1 ≤ d.1 then some (0, c) else some (k + 1, d)

/-- Modelled from the spec: the body of `chained_path_from` is not among the sources. The
greedy loop over the remaining children (each with its original index), from the current
position `cur`: select the child of minimal distance, reverse it when its `last_point` was
the nearer endpoint, append it, move to its exit endpoint, remove it from the remaining
ones, repeat until none remains. The first argument bounds the number of iterations. -/
def chainLoop : ℕ → Point → Bool → List (ℕ × ExtrusionEntity) →
    Option (List (ℕ × ExtrusionEntity))
  | _, _, _, [] => some []
  | 0, _, _, _ :: _ => none
  | fuel + 1, cur, no_reverse, r :: rs =>
    match chainEntries cur no_reverse (r :: rs) with
    | none => none
    | some entries =>
      match nearest entries with
      | none => none
      | some (k, _, rev) =>
        match (r :: rs).get? k with
        | none => none
        | some (i, e) =>
          let placed := if rev then e.reverse else e
          match placed.last_point with
          | none => none
          | some next =>
            match chainLoop fuel next no_reverse ((r :: rs).eraseIdx k) with
            | none => none
            | some out => some ((i, placed) :: out)

/-- Modelled from the spec: the body of `chained_path_from` is not among the sources. The
children that take part in the chaining, each with its original index: all of them for
the wildcard role `erMixed`, otherwise those whose role is the one asked for. -/
def ExtrusionEntityCollection.chainCandidates (c : ExtrusionEntityCollection)
    (role : ExtrusionRole) : List (ℕ × ExtrusionEntity) :=
  c.entities.enum.filter (fun ie => decide (role = .erMixed ∨ ie.2.role = role))

/-- Modelled from the spec: the body of `chained_path_from` is not among the sources.
`chained_path_from(start_near, no_reverse, role)`: a collection with `no_sort` returns its
children unchanged (identity ordering); otherwise the children matching the role filter
are chained greedily from `start_near`. The result carries the index table in
`orig_indices`; `none` is a failed endpoint query on a child. -/
def ExtrusionEntityCollection.chained_path_from (c : ExtrusionEntityCollection)
    (start_near : Point) (no_reverse : Bool) (role : ExtrusionRole) :
    Option ExtrusionEntityCollection :=
  if c.no_sort then some ⟨c.entities, List.range c.entities.length, c.no_sort⟩
  else
    match chainLoop (c.chainCandidates role).length start_near no_reverse
        (c.chainCandidates role) with
    | none => none
    | some placed => some ⟨placed.map Prod.snd, placed.map Prod.fst, c.no_sort⟩

/-- Modelled from the spec: the body of `chained_path` is not among the sources.
`chained_path(no_reverse, role)`: as `chained_path_from`, the current position being
seeded with the first endpoint of the first remaining child. -/
def ExtrusionEntityCollection.chained_path (c : ExtrusionEntityCollection)
    (no_reverse : Bool) (role : ExtrusionRole) : Option ExtrusionEntityCollection :=
  if c.no_sort then some ⟨c.entities, List.range c.entities.length, c.no_sort⟩
  else
    match c.chainCandidates role with
    | [] => some ⟨[], [], c.no_sort⟩
    | ie :: _ =>
      match ie.2.first_point with
      | none => none
      | some start_near => c.chained_path_from start_near no_reverse role

/-- The entity can report its endpoints, as it stands and after `reverse()`: the endpoint
queries of the chaining engine on it succeed. -/
def ExtrusionEntity.hasEndpoints (e : ExtrusionEntity) : Prop :=
  e.first_point.isSome = true ∧ e.last_point.isSome = true ∧
    e.reverse.last_point.isSome = true

/-! ### Construction, growth and queries of a collection (`ExtrusionEntityCollection.hpp`) -/

/-- Modelled from the spec: `clone()` is declared in the header and defined in files that
are not among the sources. It is a deep copy owned by the caller; a value is its own deep
copy. -/
def ExtrusionEntity.clone (e : ExtrusionEntity) : ExtrusionEntity := e

/-- The default constructor `ExtrusionEntityCollection(): no_sort(false)`. -/
def ExtrusionEntityCollection.ctor : ExtrusionEntityCollection := ⟨[], [], false⟩

/-- The overload `append(const ExtrusionEntity &entity)`:
`entities.push_back(entity.clone())`. -/
def ExtrusionEntityCollection.append_entity (c : ExtrusionEntityCollection)
    (entity : ExtrusionEntity) : ExtrusionEntityCollection :=
  { c with entities := c.entities ++ [entity.clone] }

/-- The overload `append(const ExtrusionEntitiesPtr &entities)`: the loop pushes a clone of
each source element. The source is a vector other than the collection's own. -/
def ExtrusionEntityCollection.append_entities (c : ExtrusionEntityCollection)
    (entities : List ExtrusionEntity) : ExtrusionEntityCollection :=
  { c with entities := entities.foldl (fun acc ptr => acc ++ [ptr.clone]) c.entities }

/-- The overload `append(ExtrusionEntitiesPtr &&src)`: an empty collection takes the
source vector over (which leaves the source empty); otherwise the elements are moved to
the back and the source is cleared. The result is the collection and the source after the
call. -/
def ExtrusionEntityCollection.append_entities_move (c : ExtrusionEntityCollection)
    (src : List ExtrusionEntity) : ExtrusionEntityCollection × List ExtrusionEntity :=
  if c.entities.isEmpty then ({ c with entities := src }, [])
  else ({ c with entities := src.foldl (fun acc ptr => acc ++ [ptr]) c.entities }, [])

/-- The overload `append(const ExtrusionPaths &paths)`: the loop pushes a clone of each
path. -/
def ExtrusionEntityCollection.append_paths (c : ExtrusionEntityCollection)
    (paths : List ExtrusionPath) : ExtrusionEntityCollection :=
  { c with entities :=
      paths.foldl (fun acc p => acc ++ [(ExtrusionEntity.path p).clone]) c.entities }

/-- Modelled from the spec: the move constructor of the leaf class is not among the
sources. What is left of a path that was moved from: its polyline was taken away, the
scalar members stay. -/
def ExtrusionPath.movedFrom (path : ExtrusionPath) : ExtrusionPath :=
  { path with polyline := [] }

/-- The overload `append(ExtrusionPaths &&paths)`: the loop pushes
`new ExtrusionPath(std::move(path))` for each path; nothing removes an element from
`paths`. The result is the collection and the source vector after the call. -/
def ExtrusionEntityCollection.append_paths_move (c : ExtrusionEntityCollection)
    (paths : List ExtrusionPath) : ExtrusionEntityCollection × List ExtrusionPath :=
  ({ c with entities := paths.foldl (fun acc p => acc ++ [ExtrusionEntity.path p]) c.entities },
    paths.map ExtrusionPath.movedFrom)

/-- The copy constructor: `orig_indices(other.orig_indices), no_sort(other.no_sort)`, then
`this->append(other.entities)`. -/
def ExtrusionEntityCollection.ctorCopy (other : ExtrusionEntityCollection) :
    ExtrusionEntityCollection :=
  (ExtrusionEntityCollection.mk [] other.orig_indices other.no_sort).append_entities
    other.entities

/-- The move constructor and the move assignment: the three members are taken from
`other`. -/
def ExtrusionEntityCollection.ctorMove (other : ExtrusionEntityCollection) :
    ExtrusionEntityCollection :=
  ⟨other.entities, other.orig_indices, other.no_sort⟩

/-- The method `empty()`. -/
def ExtrusionEntityCollection.empty (c : ExtrusionEntityCollection) : Bool :=
  c.entities.isEmpty

/-- The method `ExtrusionEntityCollection::first_point()`:
`entities.front()->first_point()`, with no check that there is a child. -/
def ExtrusionEntityCollection.first_point (c : ExtrusionEntityCollection) : Outcome Point :=
  match c.entities with
  | [] => .undefined
  | e :: _ => Outcome.ofOption e.first_point

/-- The method `ExtrusionEntityCollection::last_point()`:
`entities.back()->last_point()`, with no check that there is a child. -/
def ExtrusionEntityCollection.last_point (c : ExtrusionEntityCollection) : Outcome Point :=
  match c.entities.getLast? with
  | none => .undefined
  | some e => Outcome.ofOption e.last_point

/-- The method `as_polyline()` of a collection: it throws before it could return. -/
def ExtrusionEntityCollection.as_polyline (_c : ExtrusionEntityCollection) :
    Outcome (List Point) :=
  .error "Calling as_polyline() on a ExtrusionEntityCollection"

/-- The method `length()` of a collection: it throws before it could return. -/
def ExtrusionEntityCollection.length (_c : ExtrusionEntityCollection) : Outcome ℚ :=
  .error "Calling length() on a ExtrusionEntityCollection"

/-! ### Replacing, removing, clearing, swapping, reversing

These methods are declared in the header and defined in `ExtrusionEntityCollection.cpp`,
which is not among the sources. -/

/-- Modelled from the spec: the body of `replace` is not among the sources. An index out
of range is a reported error and nothing is changed; otherwise a clone of `entity` takes
position `i`, with no effect on the index table. The result is how the call ended and the
collection after it. -/
def ExtrusionEntityCollection.replace (c : ExtrusionEntityCollection) (i : ℕ)
    (entity : ExtrusionEntity) : Outcome Unit × ExtrusionEntityCollection :=
  if i < c.entities.length then
    (.value (), { c with entities := c.entities.set i entity.clone })
  else (.error "index out of range", c)

/-- Modelled from the spec: the body of `remove` is not among the sources. An index out of
range is a reported error and nothing is changed; otherwise child `i` is dropped, and the
corresponding entry of the index table with it. The result is how the call ended and the
collection after it. -/
def ExtrusionEntityCollection.remove (c : ExtrusionEntityCollection) (i : ℕ) :
    Outcome Unit × ExtrusionEntityCollection :=
  if i < c.entities.length then
    (.value (), { c with entities := c.entities.eraseIdx i,
                         orig_indices := c.orig_indices.eraseIdx i })
  else (.error "index out of range", c)

/-- Modelled from the spec: the body of `clear` is not among the sources. All children are
destroyed and the collection is emptied; the index table, which the spec keeps at the
length of `entities`, is emptied with them. -/
def ExtrusionEntityCollection.clear (c : ExtrusionEntityCollection) :
    ExtrusionEntityCollection :=
  { c with entities := [], orig_indices := [] }

/-- Modelled from the spec: the body of `swap` is not among the sources. The full state
(entities, `orig_indices`, `no_sort`) of the two collections is exchanged. -/
def ExtrusionEntityCollection.swap (c other : ExtrusionEntityCollection) :
    ExtrusionEntityCollection × ExtrusionEntityCollection :=
  (other, c)

/-- Modelled from the spec: the body of `reverse` is not among the sources. The method on
a collection: the order of the direct children is reversed and each reversible child is
reversed; a collection with `no_sort` is left as it is. -/
def ExtrusionEntityCollection.reverse (c : ExtrusionEntityCollection) :
    ExtrusionEntityCollection :=
  if c.no_sort then c
  else { c with entities := (reverseChildren c.entities).reverse }

/-! ### Visitors -/

mutual
/-- The visit of one entity by `CountEntities`, `leaf_number` being the count so far: a
leaf ends in `default_use`, which adds one (header); a collection ends in
`use(collection)`, whose body is not among the sources and which, by the spec, recurses
into each child. -/
def CountEntities.visit : ExtrusionEntity → ℕ → ℕ
  | .path _, leaf_number => leaf_number + 1
  | .collection es _ _, leaf_number => CountEntities.visitAll es leaf_number
/-- The visits of the children of a collection, one after the other. -/
def CountEntities.visitAll : List ExtrusionEntity → ℕ → ℕ
  | [], leaf_number => leaf_number
  | e :: rest, leaf_number => CountEntities.visitAll rest (CountEntities.visit e leaf_number)
end

/-- The method `CountEntities::count(coll)`: `coll.visit(*this); return leaf_number;`, the
counter starting at 0. -/
def CountEntities.count (coll : ExtrusionEntity) : ℕ := CountEntities.visit coll 0

/-- Modelled from the spec: the body of `items_count` is not among the sources. It is the
recursive leaf count, a collection not counting itself. -/
def ExtrusionEntityCollection.items_count (c : ExtrusionEntityCollection) : ℕ :=
  CountEntities.count c.toEntity

mutual
/-- The visit of one entity by `FlatenEntities`, `to_fill` being the result so far: a leaf
ends in `default_use`, which appends a clone (header); a collection ends in
`use(collection)`, whose body is not among the sources and which, by the spec, appends a
collection with `no_sort` as one unit when `preserve_ordering` is set and recurses into
the children otherwise. -/
def FlatenEntities.visit (preserve_ordering : Bool) :
    ExtrusionEntity → ExtrusionEntityCollection → ExtrusionEntityCollection
  | .path p, to_fill => to_fill.append_entity (.path p)
  | .collection es oi no_sort, to_fill =>
    if preserve_ordering && no_sort then to_fill.append_entity (.collection es oi no_sort)
    else FlatenEntities.visitAll preserve_ordering es to_fill
/-- The visits of the children of a collection, one after the other. -/
def FlatenEntities.visitAll (preserve_ordering : Bool) :
    List ExtrusionEntity → ExtrusionEntityCollection → ExtrusionEntityCollection
  | [], to_fill => to_fill
  | e :: rest, to_fill =>
    FlatenEntities.visitAll preserve_ordering rest
      (FlatenEntities.visit preserve_ordering e to_fill)
end

/-- Modelled from the spec: the body of `flatten` is not among the sources. A
`FlatenEntities(preserve_ordering)` visitor, whose `to_fill` starts as a default
collection, visits the children of the collection; `to_fill` is the result. -/
def ExtrusionEntityCollection.flatten (c : ExtrusionEntityCollection)
    (preserve_ordering : Bool) : ExtrusionEntityCollection :=
  FlatenEntities.visitAll preserve_ordering c.entities ExtrusionEntityCollection.ctor

/-! ### Vocabulary of the claims on the tree -/

/-- The entity is a collection. -/
def ExtrusionEntity.is_collection : ExtrusionEntity → Bool
  | .path _ => false
  | .collection _ _ _ => true

mutual
/-- The leaves of an entity in depth-first, left-to-right order. -/
def ExtrusionEntity.leaves : ExtrusionEntity → List ExtrusionEntity
  | .path p => [.path p]
  | .collection es _ _ => leavesOf es
/-- The leaves of a list of entities in depth-first, left-to-right order. -/
def leavesOf : List ExtrusionEntity → List ExtrusionEntity
  | [] => []
  | e :: rest => e.leaves ++ leavesOf rest
end

mutual
/-- The units of an entity under `preserve_ordering = true`, depth first and left to
right: a leaf is a unit, a collection with `no_sort` is one unit as it stands, a sortable
collection gives the units of its children. -/
def ExtrusionEntity.units : ExtrusionEntity → List ExtrusionEntity
  | .path p => [.path p]
  | .collection es oi no_sort =>
    if no_sort then [.collection es oi no_sort] else unitsOf es
/-- The units of a list of entities. -/
def unitsOf : List ExtrusionEntity → List ExtrusionEntity
  | [] => []
  | e :: rest => e.units ++ unitsOf rest
end

/-- The entities that a flattening with `preserve_ordering = true` comes to visit below the
children `es` of a collection: the children themselves and, step by step, the children of
every visited sortable collection. What stands inside a collection with `no_sort` is not
visited. -/
inductive Visited (es : List ExtrusionEntity) : ExtrusionEntity → Prop where
  | child (x : ExtrusionEntity) : x ∈ es → Visited es x
  | inside (sub : List ExtrusionEntity) (oi : List ℕ) (x : ExtrusionEntity) :
      Visited es (.collection sub oi false) → x ∈ sub → Visited es x

/-- The entity is a unit of the flattening with `preserve_ordering = true`: a leaf or a
collection with `no_sort`. -/
def ExtrusionEntity.isUnit : ExtrusionEntity → Bool
  | .path _ => true
  | .collection _ _ no_sort => no_sort

/-- The admissible endpoints of a child for the chaining: its `first_point`, and also its
`last_point` when the child can reverse and `no_reverse` is false. -/
def admissibleEndpoints (no_reverse : Bool) (e : ExtrusionEntity) : List Point :=
  e.first_point.toList ++
    (if e.can_reverse && !no_reverse then e.last_point.toList else [])

/-- The greedy chain of the claims: from the position `cur`, the remaining children `rem`
(each with its original index) are placed as `out`. Every step places a remaining child
`e` one of whose admissible endpoints, `q`, is at minimal distance from `cur` among all
admissible endpoints of all remaining children, with the lowest original index among the
children that reach this distance; the child is placed as it is (entered by its first
point) or reversed (entered by its last point); the next position is the exit endpoint of
the placed child, and the chain goes on with the other children. -/
inductive GreedyChain (no_reverse : Bool) :
    Point → List (ℕ × ExtrusionEntity) → List (ℕ × ExtrusionEntity) → Prop where
  | done (cur : Point) : GreedyChain no_reverse cur [] []
  | step (cur next q : Point) (rem out : List (ℕ × ExtrusionEntity)) (k i : ℕ)
      (e placed : ExtrusionEntity) :
      rem.get? k = some (i, e) →
      q ∈ admissibleEndpoints no_reverse e →
      (∀ (j : ℕ) (e' : ExtrusionEntity) (q' : Point), (j, e') ∈ rem →
        q' ∈ admissibleEndpoints no_reverse e' →
        cur.distSq q ≤ cur.distSq q' ∧ (cur.distSq q' = cur.distSq q → i ≤ j)) →
      ((placed = e ∧ e.first_point = some q) ∨
        (placed = e.reverse ∧ e.last_point = some q)) →
      placed.last_point = some next →
      GreedyChain no_reverse next (rem.eraseIdx k) out →
      GreedyChain no_reverse cur rem ((i, placed) :: out)

/-! ## Print configuration (`PrintConfig.cpp`)

The classes `ConfigBase`, `DynamicConfig` and `ConfigOption` are declared in `Config.hpp`,
which is not among the sources. A `DynamicPrintConfig` is a map from option keys to option
values; an option is created from its definition in `print_config_def`, so an option that
is present under a key has the type its definition gives it (`this->add(key, coInt)` makes
a `ConfigOptionInt`, and so on). The embedding keeps the keys that `normalize` and the
spiral-vase checks of `validate` read or write, each with the type of its definition:
`none` is an absent key, `some v` a present option of value `v`. -/

/-- The part of a `DynamicPrintConfig` that `normalize` and the spiral-vase checks touch;
`others` holds every remaining key with its serialized value. -/
structure DynamicPrintConfig where
  extruder : Option ℤ
  infill_extruder : Option ℤ
  perimeter_extruder : Option ℤ
  solid_infill_extruder : Option ℤ
  spiral_vase : Option Bool
  retract_layer_change : Option (List Bool)
  perimeters : Option ℤ
  top_solid_layers : Option ℤ
  fill_density : Option ℚ
  support_material : Option Bool
  support_material_enforce_layers : Option ℤ
  exact_last_layer_height : Option Bool
  ensure_vertical_shell_thickness : Option Bool
  infill_dense : Option Bool
  extra_perimeters : Option Bool
  others : String → Option String

/-- The first block of `DynamicPrintConfig::normalize()`: the option `extruder` is erased,
and a non-zero value of it becomes the value of `infill_extruder` and of
`perimeter_extruder` where these are absent. -/
def DynamicPrintConfig.normalize_extruder (c : DynamicPrintConfig) : DynamicPrintConfig :=
  match c.extruder with
  | some extruder =>
    let c := { c with extruder := none }
    if extruder ≠ 0 then
      let c :=
        if c.infill_extruder.isNone then { c with infill_extruder := some extruder } else c
      let c :=
        if c.perimeter_extruder.isNone then { c with perimeter_extruder := some extruder }
        else c
      c
    else c
  | none => c

/-- The second block of `DynamicPrintConfig::normalize()`: an absent `solid_infill_extruder`
takes the value of a present `infill_extruder`. -/
def DynamicPrintConfig.normalize_solid_infill (c : DynamicPrintConfig) :
    DynamicPrintConfig :=
  match c.solid_infill_extruder, c.infill_extruder with
  | none, some e => { c with solid_infill_extruder := some e }
  | _, _ => c

/-- The third block of `DynamicPrintConfig::normalize()`, on spiral vase. An access
`opt<T>(key, true)` creates an absent option with the default of its definition
(`retract_layer_change` defaults to one `false`); `opt<T>(key)` without the flag returns a
null pointer for an absent key, and writing through it is undefined behaviour. -/
def DynamicPrintConfig.normalize_spiral_vase (c : DynamicPrintConfig) :
    Outcome DynamicPrintConfig :=
  if c.spiral_vase = some true then
    let opt := (c.retract_layer_change.getD [false]).map (fun _ => false)
    let c := { c with retract_layer_change := some opt }
    let c := { c with perimeters := some 1 }
    let c := { c with top_solid_layers := some 0 }
    let c := { c with fill_density := some 0 }
    let c := { c with support_material := some false }
    match c.support_material_enforce_layers with
    | none => .undefined
    | some _ =>
      let c := { c with support_material_enforce_layers := some 0 }
      let c := { c with exact_last_layer_height := some false }
      let c := { c with ensure_vertical_shell_thickness := some false }
      let c := { c with infill_dense := some false }
      let c := { c with extra_perimeters := some false }
      .value c
  else .value c

/-- The function `DynamicPrintConfig::normalize()`: its three blocks in sequence. -/
def DynamicPrintConfig.normalize (c : DynamicPrintConfig) : Outcome DynamicPrintConfig :=
  c.normalize_extruder.normalize_solid_infill.normalize_spiral_vase

/-- The options of a `FullPrintConfig` that the spiral-vase checks of `validate` read. -/
structure FullPrintConfig where
  spiral_vase : Bool
  perimeters : ℤ
  fill_density : ℚ
  top_solid_layers : ℤ
  support_material : Bool
  support_material_enforce_layers : ℤ
  infill_dense : Bool
  extra_perimeters : Bool
deriving DecidableEq

/-- A default-constructed `FullPrintConfig`: every option has the default value of its
definition in `PrintConfigDef::init_fff_params`. -/
def FullPrintConfig.defaults : FullPrintConfig :=
  { spiral_vase := false, perimeters := 3, fill_density := 18, top_solid_layers := 3,
    support_material := false, support_material_enforce_layers := 0, infill_dense := false,
    extra_perimeters := true }

/-- The call `fpc.apply(other, true)` of `DynamicPrintConfig::validate`: every option that
is present in `other` is copied over the one of `fpc`. -/
def FullPrintConfig.apply (fpc : FullPrintConfig) (other : DynamicPrintConfig) :
    FullPrintConfig :=
  { spiral_vase := other.spiral_vase.getD fpc.spiral_vase
    perimeters := other.perimeters.getD fpc.perimeters
    fill_density := other.fill_density.getD fpc.fill_density
    top_solid_layers := other.top_solid_layers.getD fpc.top_solid_layers
    support_material := other.support_material.getD fpc.support_material
    support_material_enforce_layers :=
      other.support_material_enforce_layers.getD fpc.support_material_enforce_layers
    infill_dense := other.infill_dense.getD fpc.infill_dense
    extra_perimeters := other.extra_perimeters.getD fpc.extra_perimeters }

/-- The block `--spiral-vase` of `FullPrintConfig::validate()`: the error message that the
block returns, or `none` when control passes to the checks that follow it. -/
def FullPrintConfig.validate_spiral_vase (this : FullPrintConfig) : Option String :=
  if this.spiral_vase then
    if this.perimeters > 1 then
      some "Can't make more than one perimeter when spiral vase mode is enabled"
    else if this.perimeters < 1 then
      some "Can't make less than one perimeter when spiral vase mode is enabled"
    else if this.fill_density > 0 then
      some ("Spiral vase mode can only print hollow objects, " ++
        "so you need to set Fill density to 0")
    else if this.top_solid_layers > 0 then
      some "Spiral vase mode is not compatible with top solid layers"
    else if this.support_material ∨ this.support_material_enforce_layers > 0 then
      some "Spiral vase mode is not compatible with support material"
    else if this.infill_dense then
      some ("Spiral vase mode can only print hollow objects and have no top surface, " ++
        "so you don't need any dense infill")
    else if this.extra_perimeters then
      some "Can't make more than one perimeter when spiral vase mode is enabled"
    else none
  else none

/-- The spiral-vase checks of `DynamicPrintConfig::validate()` on a FFF configuration: a
default `FullPrintConfig` takes the options of the configuration and is validated. -/
def DynamicPrintConfig.validate_spiral_vase (c : DynamicPrintConfig) : Option String :=
  (FullPrintConfig.defaults.apply c).validate_spiral_vase

/-- A configuration for the examples: spiral vase is on, three perimeters, 20% infill, and
`support_material_enforce_layers` is present. -/
def spiralVaseSample : DynamicPrintConfig :=
  { extruder := some 2, infill_extruder := none, perimeter_extruder := some 1,
    solid_infill_extruder := none, spiral_vase := some true,
    retract_layer_change := some [true, false], perimeters := some 3,
    top_solid_layers := none, fill_density := some 20, support_material := some true,
    support_material_enforce_layers := some 4, exact_last_layer_height := none,
    ensure_vertical_shell_thickness := none, infill_dense := some true,
    extra_perimeters := none, others := fun _ => none }

/-! ### Legacy option keys (`PrintConfigDef::handle_legacy`)

The table `print_config_def` is filled by the registration code of `PrintConfig.cpp`; the
function only asks it whether a key is defined, and the embedding takes that test as a
parameter, together with the library conversions between strings and numbers and the macro
`HAS_PRESSURE_EQUALIZER`. -/

/-- What `handle_legacy` takes from outside. -/
structure LegacyContext where
  /-- The test `print_config_def.has(key)`. -/
  has : String → Bool
  /-- The conversion `boost::lexical_cast<float>(value)`; `none` when it throws
  `bad_lexical_cast`. -/
  lexical_cast_float : String → Option ℚ
  /-- The conversion `boost::lexical_cast<std::string>(v)` of a `float`. -/
  lexical_cast_string : ℚ → String
  /-- The two coordinates of a `ConfigOptionPoint` after `deserialize(value)`. -/
  deserialize_point : String → ℚ × ℚ
  /-- The text that `operator<<` writes for a `double`. -/
  stream_double : ℚ → String
  /-- Whether the macro `HAS_PRESSURE_EQUALIZER` is defined. -/
  HAS_PRESSURE_EQUALIZER : Bool

/-- The loop of `replace_first` on lists of characters. -/
def replaceFirstChars (search format : List Char) : List Char → List Char
  | [] => if search = [] then format else []
  | c :: cs =>
    if search.isPrefixOf (c :: cs) then format ++ (c :: cs).drop search.length
    else c :: replaceFirstChars search format cs

/-- The function `boost::replace_first(input, search, format)`: the first occurrence of
`search` in `input` is replaced by `format`. -/
def replace_first (input search format : String) : String :=
  ⟨replaceFirstChars search.data format.data input.data⟩

/-- The static set `ignore` of `handle_legacy`: the obsolete configuration keys. -/
def ignore (HAS_PRESSURE_EQUALIZER : Bool) : List String :=
  ["duplicate_x", "duplicate_y", "gcode_arcs", "multiply_x", "multiply_y",
    "support_material_tool", "acceleration", "adjust_overhang_flow",
    "standby_temperature", "scale", "rotate", "duplicate", "duplicate_grid",
    "start_perimeters_at_concave_points", "start_perimeters_at_non_overhang",
    "randomize_start", "seal_position", "vibration_limit", "bed_size",
    "print_center", "g0", "threads", "pressure_advance", "wipe_tower_per_color_wipe"]
  ++ (if HAS_PRESSURE_EQUALIZER then []
      else ["max_volumetric_extrusion_rate_slope_positive",
        "max_volumetric_extrusion_rate_slope_negative"])

/-- The first part of `PrintConfigDef::handle_legacy`, the chain of tests on legacy
options: the key and the value after it. -/
def handle_legacy_options (ctx : LegacyContext) (opt_key value : String) : String × String :=
  if opt_key = "extrusion_width_ratio" ∨ opt_key = "bottom_layer_speed_ratio"
      ∨ opt_key = "first_layer_height_ratio" then
    let opt_key := replace_first opt_key "_ratio" ""
    let opt_key := if opt_key = "bottom_layer_speed" then "first_layer_speed" else opt_key
    match ctx.lexical_cast_float value with
    | some v => (opt_key, if v ≠ 0 then ctx.lexical_cast_string (v * 100) ++ "%" else value)
    | none => (opt_key, "0")
  else if opt_key = "gcode_flavor" ∧ value = "makerbot" then (opt_key, "makerware")
  else if opt_key = "fill_density" ∧ '%' ∉ value.data then
    match ctx.lexical_cast_float value with
    | some v => (opt_key, ctx.lexical_cast_string (v * 100) ++ "%")
    | none => (opt_key, value)
  else if opt_key = "randomize_start" ∧ value = "1" then ("seam_position", "random")
  else if opt_key = "bed_size" ∧ value ≠ "" then
    let p := ctx.deserialize_point value
    ("bed_shape", "0x0," ++ ctx.stream_double p.1 ++ "x0," ++ ctx.stream_double p.1 ++ "x"
      ++ ctx.stream_double p.2 ++ ",0x" ++ ctx.stream_double p.2)
  else if (opt_key = "perimeter_acceleration" ∧ value = "25")
      ∨ (opt_key = "infill_acceleration" ∧ value = "50") then (opt_key, "0")
  else if opt_key = "support_material_pattern" ∧ value = "pillars" then
    (opt_key, "rectilinear")
  else if opt_key = "octoprint_host" then ("print_host", value)
  else if opt_key = "octoprint_cafile" then ("printhost_cafile", value)
  else if opt_key = "octoprint_apikey" then ("printhost_apikey", value)
  else (opt_key, value)

/-- The function `PrintConfigDef::handle_legacy(opt_key, value)`: the key and the value
after the call. -/
def PrintConfigDef.handle_legacy (ctx : LegacyContext) (opt_key value : String) :
    String × String :=
  let kv := handle_legacy_options ctx opt_key value
  if kv.1 ∈ ignore ctx.HAS_PRESSURE_EQUALIZER then ("", kv.2)
  else if ¬ ctx.has kv.1 then ("", kv.2)
  else kv

/-- A context for the examples: the defined keys are `bed_shape`, `first_layer_speed`,
`seam_position` and `perimeters`; numbers are not printed. -/
def legacySample : LegacyContext :=
  { has := fun k => k ∈ ["bed_shape", "first_layer_speed", "seam_position", "perimeters"]
    lexical_cast_float := fun _ => none
    lexical_cast_string := fun _ => ""
    deserialize_point := fun _ => (0, 0)
    stream_double := fun _ => "0"
    HAS_PRESSURE_EQUALIZER := false }

/-! # Theorems -/

/-! ## Role aggregation -/

theorem roleStep_mixed (er : ExtrusionRole) : roleStep .erMixed er = .erMixed := by
  unfold roleStep
  by_cases h : ExtrusionRole.erMixed = er
  · simp [← h]
  · simp [h]

theorem roleLoop_mixed (es : List ExtrusionEntity) : roleLoop es .erMixed = .erMixed := by
  induction es with
  | nil => simp [roleLoop]
  | cons e rest ih => simp [roleLoop, roleStep_mixed, ih]

/-- From an accumulated role `r` other than `erNone`, the loop keeps `r` as long as the
children report `r` and ends in `erMixed` otherwise. -/
theorem roleLoop_from (r : ExtrusionRole) (hr : r ≠ .erNone) (es : List ExtrusionEntity) :
    ((∀ e ∈ es, e.role = r) → roleLoop es r = r) ∧
    ((∃ e ∈ es, e.role ≠ r) → roleLoop es r = .erMixed) := by
  induction es with
  | nil => simp [roleLoop]
  | cons e rest ih =>
    by_cases he : e.role = r
    · have hs : roleStep r e.role = r := by simp [roleStep, he]
      constructor
      · intro h
        simp only [roleLoop, hs]
        exact ih.1 (fun x hx => h x (List.mem_cons_of_mem _ hx))
      · rintro ⟨x, hx, hxr⟩
        simp only [roleLoop, hs]
        rcases List.mem_cons.mp hx with rfl | hx'
        · exact absurd he hxr
        · exact ih.2 ⟨x, hx', hxr⟩
    · have hs : roleStep r e.role = .erMixed := by
        have : ¬ r = e.role := fun h => he h.symm
        simp [roleStep, hr, this]
      constructor
      · intro h
        exact absurd (h e (List.mem_cons_self _ _)) he
      · intro _
        simp only [roleLoop, hs, roleLoop_mixed]

/-- What `role()` returns: `erNone` without children; the common role when all children
report the same one; `erMixed` when the first child reports a role other than `erNone`
and some child reports another role than the first. -/
theorem role_of_children (c : ExtrusionEntityCollection) :
    (c.entities = [] → c.role = .erNone) ∧
    (∀ r : ExtrusionRole, c.entities ≠ [] → (∀ e ∈ c.entities, e.role = r) → c.role = r) ∧
    (∀ (e0 : ExtrusionEntity) (rest : List ExtrusionEntity), c.entities = e0 :: rest →
      e0.role ≠ .erNone → (∃ e ∈ rest, e.role ≠ e0.role) → c.role = .erMixed) := by
  refine ⟨?_, ?_, ?_⟩
  · intro h
    simp [ExtrusionEntityCollection.role, h, roleLoop]
  · intro r hne hall
    unfold ExtrusionEntityCollection.role
    cases hes : c.entities with
    | nil => exact absurd hes hne
    | cons e0 rest =>
      rw [hes] at hall
      have h0 : e0.role = r := hall e0 (List.mem_cons_self _ _)
      have hs : roleStep .erNone e0.role = r := by simp [roleStep, h0]
      simp only [roleLoop, hs]
      by_cases hr : r = .erNone
      · subst hr
        clear hs h0 hes hne
        induction rest with
        | nil => simp [roleLoop]
        | cons e1 rest ih =>
          have h1 : e1.role = .erNone := hall e1 (by simp)
          have hs1 : roleStep .erNone e1.role = .erNone := by simp [roleStep, h1]
          simp only [roleLoop, hs1]
          apply ih
          intro e he
          rcases List.mem_cons.mp he with rfl | he'
          · exact hall _ (List.mem_cons_self _ _)
          · exact hall e (by simp [he'])
      · exact (roleLoop_from r hr rest).1 (fun e he => hall e (List.mem_cons_of_mem _ he))
  · intro e0 rest hes h0 hex
    unfold ExtrusionEntityCollection.role
    have hs : roleStep .erNone e0.role = e0.role := by simp [roleStep]
    rw [hes]
    simp only [roleLoop, hs]
    exact (roleLoop_from e0.role h0 rest).2 hex

/-- C1: evaluation of `role()` on a collection whose first child is an empty collection.
The two children report `erNone` and `erPerimeter`, so they do not report the same role,
yet the collection reports `erPerimeter`; with the same children in the other order it
reports `erMixed`. -/
theorem role_leading_none_child :
    (ExtrusionEntity.collection [] [] false).role = .erNone ∧
    (ExtrusionEntity.path ⟨[], .erPerimeter, 0, 0, 0, true⟩).role = .erPerimeter ∧
    (ExtrusionEntityCollection.mk
      [.collection [] [] false, .path ⟨[], .erPerimeter, 0, 0, 0, true⟩] [] false).role
        = .erPerimeter ∧
    (ExtrusionEntityCollection.mk
      [.path ⟨[], .erPerimeter, 0, 0, 0, true⟩, .collection [] [] false] [] false).role
        = .erMixed := by
  decide

/-! ## Lemmas on the line kernel -/

theorem abs_intCast_lt_iff (EPSILON : ℚ) (hpos : 0 < EPSILON) (hle : EPSILON ≤ 1) (n : ℤ) :
    |(n : ℚ)| < EPSILON ↔ n = 0 := by
  constructor
  · intro h
    have h1 : |(n : ℚ)| < 1 := lt_of_lt_of_le h hle
    have h2 : |n| < 1 := by exact_mod_cast h1
    exact Int.abs_lt_one_iff.mp h2
  · rintro rfl
    simpa using hpos

theorem cross2_dirs (l1 l2 : Line) :
    cross2 (l1.b - l1.a).castDouble (l2.b - l2.a).castDouble = ((l1.dirCross l2 : ℤ) : ℚ) := by
  show cross2 (Point.sub l1.b l1.a).castDouble (Point.sub l2.b l2.a).castDouble = _
  simp only [cross2, Point.sub, Point.castDouble, Line.dirCross]
  push_cast
  ring

/-- Unfolding of `intersection` in terms of the integer cross product and the two
parameters. -/
theorem intersection_eq (EPSILON : ℚ) (hpos : 0 < EPSILON) (hle : EPSILON ≤ 1)
    (l1 l2 : Line) (out : Point) :
    l1.intersection EPSILON l2 out =
      if l1.dirCross l2 = 0 then (false, out)
      else if 0 ≤ l1.param1 l2 ∧ l1.param1 l2 ≤ 1 ∧ 0 ≤ l1.param2 l2 ∧ l1.param2 l2 ≤ 1 then
        (true, ⟨castCoord (l1.a.x + l1.param1 l2 * ((l1.b.x - l1.a.x : ℤ) : ℚ)),
                castCoord (l1.a.y + l1.param1 l2 * ((l1.b.y - l1.a.y : ℤ) : ℚ))⟩)
      else (false, out) := by
  have hd := cross2_dirs l1 l2
  have h1 : cross2 (l2.b - l2.a).castDouble (l1.a - l2.a).castDouble
      / cross2 (l1.b - l1.a).castDouble (l2.b - l2.a).castDouble = l1.param1 l2 := by
    rw [hd]
    show cross2 (Point.sub l2.b l2.a).castDouble (Point.sub l1.a l2.a).castDouble / _ = _
    simp only [cross2, Point.sub, Point.castDouble, Line.param1]
    push_cast
    ring
  have h2 : cross2 (l1.b - l1.a).castDouble (l1.a - l2.a).castDouble
      / cross2 (l1.b - l1.a).castDouble (l2.b - l2.a).castDouble = l1.param2 l2 := by
    rw [hd]
    show cross2 (Point.sub l1.b l1.a).castDouble (Point.sub l1.a l2.a).castDouble / _ = _
    simp only [cross2, Point.sub, Point.castDouble, Line.param2]
    push_cast
    ring
  unfold Line.intersection
  simp only [h1, h2]
  rw [hd]
  by_cases h0 : l1.dirCross l2 = 0
  · simp [h0, hpos]
  · have hne : ¬ |((l1.dirCross l2 : ℤ) : ℚ)| < EPSILON := by
      rw [abs_intCast_lt_iff EPSILON hpos hle]; exact h0
    simp only [hne, h0, if_false]
    congr 1

/-- With a zero cross product `intersection` reports nothing and keeps the output point. -/
theorem intersection_parallel_eq (EPSILON : ℚ) (hpos : 0 < EPSILON) (l1 l2 : Line)
    (out : Point) (hpar : l1.dirCross l2 = 0) :
    l1.intersection EPSILON l2 out = (false, out) := by
  have hd := cross2_dirs l1 l2
  unfold Line.intersection
  simp only [hd, hpar, Int.cast_zero, abs_zero, hpos, if_true]

theorem castCoord_intCast (n : ℤ) : castCoord (n : ℚ) = n := by
  unfold castCoord
  split <;> simp

theorem castCoord_abs_sub_lt (q : ℚ) : |((castCoord q : ℤ) : ℚ) - q| < 1 := by
  unfold castCoord
  split
  · rw [abs_lt]
    constructor
    · have := Int.lt_floor_add_one q
      linarith
    · have := Int.floor_le q
      linarith
  · rw [abs_lt]
    constructor
    · have := Int.le_ceil q
      linarith
    · have := Int.ceil_lt_add_one q
      linarith

/-- A common point of the two lines has the parameters `param1` and `param2`. -/
theorem common_point_params (l1 l2 : Line) (hD : l1.dirCross l2 ≠ 0) (s t : ℝ)
    (hx : (l1.a.x : ℝ) + s * (l1.b.x - l1.a.x) = l2.a.x + t * (l2.b.x - l2.a.x))
    (hy : (l1.a.y : ℝ) + s * (l1.b.y - l1.a.y) = l2.a.y + t * (l2.b.y - l2.a.y)) :
    s = ((l1.param1 l2 : ℚ) : ℝ) ∧ t = ((l1.param2 l2 : ℚ) : ℝ) := by
  have hD' : ((l1.dirCross l2 : ℤ) : ℝ) ≠ 0 := by exact_mod_cast hD
  have hDe : ((l1.dirCross l2 : ℤ) : ℝ) =
      ((l1.b.x : ℝ) - l1.a.x) * (l2.b.y - l2.a.y) - (l1.b.y - l1.a.y) * (l2.b.x - l2.a.x) := by
    simp only [Line.dirCross]; push_cast; ring
  constructor
  · simp only [Line.param1]
    push_cast
    rw [eq_div_iff hD', hDe]
    linear_combination ((l2.b.y : ℝ) - l2.a.y) * hx - ((l2.b.x : ℝ) - l2.a.x) * hy
  · simp only [Line.param2]
    push_cast
    rw [eq_div_iff hD', hDe]
    linear_combination ((l1.b.y : ℝ) - l1.a.y) * hx - ((l1.b.x : ℝ) - l1.a.x) * hy

/-- The point with parameters `param1` on `l1` and `param2` on `l2` is the same point. -/
theorem params_common_point (l1 l2 : Line) (hD : l1.dirCross l2 ≠ 0) :
    (l1.a.x : ℚ) + l1.param1 l2 * ((l1.b.x - l1.a.x : ℤ) : ℚ)
        = l2.a.x + l1.param2 l2 * ((l2.b.x - l2.a.x : ℤ) : ℚ) ∧
    (l1.a.y : ℚ) + l1.param1 l2 * ((l1.b.y - l1.a.y : ℤ) : ℚ)
        = l2.a.y + l1.param2 l2 * ((l2.b.y - l2.a.y : ℤ) : ℚ) := by
  have hD' : ((l1.dirCross l2 : ℤ) : ℚ) ≠ 0 := by exact_mod_cast hD
  have hDe : ((l1.dirCross l2 : ℤ) : ℚ) =
      ((l1.b.x : ℚ) - l1.a.x) * (l2.b.y - l2.a.y) - (l1.b.y - l1.a.y) * (l2.b.x - l2.a.x) := by
    simp only [Line.dirCross]; push_cast; ring
  simp only [Line.param1, Line.param2]
  push_cast
  constructor
  · field_simp
    rw [hDe]
    ring
  · field_simp
    rw [hDe]
    ring

/-- With a non-zero cross product, the two closed segments have a common point exactly when
both parameters lie in `[0, 1]`. -/
theorem common_point_iff (l1 l2 : Line) (hD : l1.dirCross l2 ≠ 0) :
    (∃ X Y : ℝ, l1.contains X Y ∧ l2.contains X Y) ↔
      (0 ≤ l1.param1 l2 ∧ l1.param1 l2 ≤ 1 ∧ 0 ≤ l1.param2 l2 ∧ l1.param2 l2 ≤ 1) := by
  constructor
  · rintro ⟨X, Y, ⟨s, hs0, hs1, hsx, hsy⟩, ⟨t, ht0, ht1, htx, hty⟩⟩
    obtain ⟨h1, h2⟩ := common_point_params l1 l2 hD s t (by rw [← hsx, htx]) (by rw [← hsy, hty])
    rw [h1] at hs0 hs1
    rw [h2] at ht0 ht1
    exact ⟨by exact_mod_cast hs0, by exact_mod_cast hs1, by exact_mod_cast ht0,
      by exact_mod_cast ht1⟩
  · rintro ⟨h1, h2, h3, h4⟩
    obtain ⟨hx, hy⟩ := params_common_point l1 l2 hD
    refine ⟨(l1.a.x : ℝ) + ((l1.param1 l2 : ℚ) : ℝ) * (l1.b.x - l1.a.x),
      (l1.a.y : ℝ) + ((l1.param1 l2 : ℚ) : ℝ) * (l1.b.y - l1.a.y),
      ⟨((l1.param1 l2 : ℚ) : ℝ), by exact_mod_cast h1, by exact_mod_cast h2, rfl, rfl⟩,
      ⟨((l1.param2 l2 : ℚ) : ℝ), by exact_mod_cast h3, by exact_mod_cast h4, ?_, ?_⟩⟩
    · have := congrArg (fun q : ℚ => (q : ℝ)) hx
      simp only at this
      push_cast at this
      exact this
    · have := congrArg (fun q : ℚ => (q : ℝ)) hy
      simp only at this
      push_cast at this
      exact this

/-! ## Claims on `Line::intersection` and `Line::intersection_infinite` -/

theorem distSq_eq_zero_iff (a b : Point) : b.distSq a = 0 ↔ a = b := by
  constructor
  · intro h
    simp only [Point.distSq] at h
    have hx : b.x - a.x = 0 := by nlinarith [sq_nonneg (b.x - a.x), sq_nonneg (b.y - a.y)]
    have hy : b.y - a.y = 0 := by nlinarith [sq_nonneg (b.x - a.x), sq_nonneg (b.y - a.y)]
    cases a; cases b
    simp only [Point.mk.injEq] at *
    omega
  · rintro rfl
    simp [Point.distSq]

theorem distSq_nonneg (a b : Point) : 0 ≤ b.distSq a := by
  simp only [Point.distSq]
  positivity

/-- Unfolding of `distance_to_squared` in integer terms. -/
theorem distance_to_squared_eq (p a b : Point) :
    Line.distance_to_squared p a b =
      if b.distSq a = 0 then ((p.distSq a : ℤ) : ℚ)
      else if projParam p a b < 0 then ((p.distSq a : ℤ) : ℚ)
      else if 1 < projParam p a b then ((p.distSq b : ℤ) : ℚ)
      else (projParam p a b * ((b.x - a.x : ℤ) : ℚ) - ((p.x - a.x : ℤ) : ℚ)) ^ 2
        + (projParam p a b * ((b.y - a.y : ℤ) : ℚ) - ((p.y - a.y : ℤ) : ℚ)) ^ 2 := by
  have hl2 : (b - a).castDouble.squaredNorm = ((b.distSq a : ℤ) : ℚ) := by
    show (Point.sub b a).castDouble.squaredNorm = _
    simp only [Vec2d.squaredNorm, Point.sub, Point.castDouble, Point.distSq]
    push_cast; ring
  have hva : (p - a).castDouble.squaredNorm = ((p.distSq a : ℤ) : ℚ) := by
    show (Point.sub p a).castDouble.squaredNorm = _
    simp only [Vec2d.squaredNorm, Point.sub, Point.castDouble, Point.distSq]
    push_cast; ring
  have hvb : (p - b).castDouble.squaredNorm = ((p.distSq b : ℤ) : ℚ) := by
    show (Point.sub p b).castDouble.squaredNorm = _
    simp only [Vec2d.squaredNorm, Point.sub, Point.castDouble, Point.distSq]
    push_cast; ring
  have ht : (p - a).castDouble.dot (b - a).castDouble / ((b.distSq a : ℤ) : ℚ)
      = projParam p a b := by
    show (Point.sub p a).castDouble.dot (Point.sub b a).castDouble / _ = _
    simp only [Vec2d.dot, Point.sub, Point.castDouble, projParam, dotAt]
    push_cast; ring
  have hlast : ((Vec2d.smul (projParam p a b) (b - a).castDouble).sub
      (p - a).castDouble).squaredNorm =
      (projParam p a b * ((b.x - a.x : ℤ) : ℚ) - ((p.x - a.x : ℤ) : ℚ)) ^ 2
        + (projParam p a b * ((b.y - a.y : ℤ) : ℚ) - ((p.y - a.y : ℤ) : ℚ)) ^ 2 := by
    show ((Vec2d.smul (projParam p a b) (Point.sub b a).castDouble).sub
      (Point.sub p a).castDouble).squaredNorm = _
    simp only [Vec2d.squaredNorm, Vec2d.sub, Vec2d.smul, Point.sub, Point.castDouble]
    ring
  unfold Line.distance_to_squared
  simp only [hl2, hva, hvb, ht, hlast, gt_iff_lt, Int.cast_eq_zero]

theorem projParam_neg_iff (p a b : Point) (hab : 0 < b.distSq a) :
    projParam p a b < 0 ↔ dotAt p a b < 0 := by
  have hL : (0 : ℚ) < ((b.distSq a : ℤ) : ℚ) := by exact_mod_cast hab
  unfold projParam
  rw [div_lt_iff₀ hL, zero_mul]
  exact_mod_cast Iff.rfl

theorem one_lt_projParam_iff (p a b : Point) (hab : 0 < b.distSq a) :
    1 < projParam p a b ↔ b.distSq a < dotAt p a b := by
  have hL : (0 : ℚ) < ((b.distSq a : ℤ) : ℚ) := by exact_mod_cast hab
  unfold projParam
  rw [lt_div_iff₀ hL, one_mul]
  exact_mod_cast Iff.rfl

theorem projParam_mul (p a b : Point) (hab : 0 < b.distSq a) :
    ((projParam p a b : ℚ) : ℝ) * ((b.distSq a : ℤ) : ℝ) = ((dotAt p a b : ℤ) : ℝ) := by
  have hL : ((b.distSq a : ℤ) : ℝ) ≠ 0 := by
    have : (0 : ℝ) < ((b.distSq a : ℤ) : ℝ) := by exact_mod_cast hab
    exact ne_of_gt this
  unfold projParam
  push_cast
  field_simp

/-- The squared distance from `p` to the point of parameter `t`, expanded. -/
theorem distSqAt_expand (p a b : Point) (t : ℝ) :
    distSqAt p a b t = ((p.distSq a : ℤ) : ℝ) - 2 * t * ((dotAt p a b : ℤ) : ℝ)
      + t ^ 2 * ((b.distSq a : ℤ) : ℝ) := by
  simp only [distSqAt, Point.distSqTo, Point.distSq, dotAt]
  push_cast
  ring

theorem distSq_as_distSqAt_one (p a b : Point) :
    ((p.distSq b : ℤ) : ℝ) = distSqAt p a b 1 := by
  simp only [distSqAt, Point.distSqTo, Point.distSq]
  push_cast
  ring

/-! ## Claims on `Line::distance_to_squared` -/

/-- With doubles read as exact rationals, for every point `p` and endpoints `a`, `b` (also
when `a = b`), `distance_to_squared(p, a, b)` is the minimum over `t` in `[0, 1]` of the
squared distance from `p` to `a + t (b - a)`: it is attained at some `t` of `[0, 1]` and is
at most the value at every real `t` of `[0, 1]`; on a segment of zero length it is
`|p - a|^2`. -/
theorem distance_to_squared_is_min (p a b : Point) :
    (∃ t : ℚ, 0 ≤ t ∧ t ≤ 1 ∧
      ((Line.distance_to_squared p a b : ℚ) : ℝ) = distSqAt p a b ((t : ℚ) : ℝ)) ∧
    (∀ t : ℝ, 0 ≤ t → t ≤ 1 →
      ((Line.distance_to_squared p a b : ℚ) : ℝ) ≤ distSqAt p a b t) ∧
    Line.distance_to_squared p a a = ((p.distSq a : ℤ) : ℚ) := by
  refine ⟨?_, ?_, ?_⟩
  · rw [distance_to_squared_eq]
    by_cases h0 : b.distSq a = 0
    · refine ⟨0, le_refl _, zero_le_one, ?_⟩
      simp only [h0, if_true, distSqAt_expand]
      push_cast
      ring
    have hpos : 0 < b.distSq a := lt_of_le_of_ne (distSq_nonneg a b) (Ne.symm h0)
    by_cases h1 : projParam p a b < 0
    · refine ⟨0, le_refl _, zero_le_one, ?_⟩
      simp only [h0, h1, if_true, if_false, distSqAt_expand]
      push_cast
      ring
    by_cases h2 : 1 < projParam p a b
    · refine ⟨1, zero_le_one, le_refl _, ?_⟩
      simp only [h0, h1, h2, if_true, if_false, Rat.cast_intCast, Rat.cast_one]
      exact distSq_as_distSqAt_one p a b
    · refine ⟨projParam p a b, not_lt.mp h1, not_lt.mp h2, ?_⟩
      simp only [h0, h1, h2, if_false]
      simp only [distSqAt, Point.distSqTo]
      push_cast
      ring
  · intro t ht0 ht1
    rw [distance_to_squared_eq, distSqAt_expand]
    have hL0 : (0 : ℝ) ≤ ((b.distSq a : ℤ) : ℝ) := by exact_mod_cast distSq_nonneg a b
    by_cases h0 : b.distSq a = 0
    · have hab : a = b := (distSq_eq_zero_iff a b).mp h0
      subst hab
      simp only [h0, if_true, dotAt]
      push_cast
      simp
    have hpos : 0 < b.distSq a := lt_of_le_of_ne (distSq_nonneg a b) (Ne.symm h0)
    by_cases h1 : projParam p a b < 0
    · simp only [h0, h1, if_true, if_false, Rat.cast_intCast]
      have hd : ((dotAt p a b : ℤ) : ℝ) < 0 := by
        exact_mod_cast (projParam_neg_iff p a b hpos).mp h1
      nlinarith [mul_nonneg ht0 (le_of_lt (neg_pos.mpr hd)), mul_nonneg (sq_nonneg t) hL0]
    by_cases h2 : 1 < projParam p a b
    · simp only [h0, h1, h2, if_true, if_false, Rat.cast_intCast]
      rw [distSq_as_distSqAt_one p a b, distSqAt_expand]
      have hd : ((b.distSq a : ℤ) : ℝ) < ((dotAt p a b : ℤ) : ℝ) := by
        exact_mod_cast (one_lt_projParam_iff p a b hpos).mp h2
      have h1t : 0 ≤ 1 - t := by linarith
      nlinarith [mul_nonneg h1t (le_of_lt (sub_pos.mpr hd)), mul_nonneg (mul_nonneg h1t h1t) hL0]
    · simp only [h0, h1, h2, if_false]
      have hT := projParam_mul p a b hpos
      have hsq := mul_nonneg hL0 (sq_nonneg (t - ((projParam p a b : ℚ) : ℝ)))
      have key : ((p.distSq a : ℤ) : ℝ) - 2 * t * ((dotAt p a b : ℤ) : ℝ)
          + t ^ 2 * ((b.distSq a : ℤ) : ℝ)
          - (((projParam p a b * ((b.x - a.x : ℤ) : ℚ) - ((p.x - a.x : ℤ) : ℚ)) ^ 2
            + (projParam p a b * ((b.y - a.y : ℤ) : ℚ) - ((p.y - a.y : ℤ) : ℚ)) ^ 2 : ℚ) : ℝ)
          = ((b.distSq a : ℤ) : ℝ) * (t - ((projParam p a b : ℚ) : ℝ)) ^ 2 := by
        have e1 : ((dotAt p a b : ℤ) : ℝ) = ((p.x : ℝ) - a.x) * ((b.x : ℝ) - a.x)
            + ((p.y : ℝ) - a.y) * ((b.y : ℝ) - a.y) := by
          simp only [dotAt]; push_cast; ring
        have e2 : ((b.distSq a : ℤ) : ℝ) = ((b.x : ℝ) - a.x) ^ 2 + ((b.y : ℝ) - a.y) ^ 2 := by
          simp only [Point.distSq]; push_cast; ring
        have e3 : ((p.distSq a : ℤ) : ℝ) = ((p.x : ℝ) - a.x) ^ 2 + ((p.y : ℝ) - a.y) ^ 2 := by
          simp only [Point.distSq]; push_cast; ring
        rw [e1, e2] at hT
        rw [e1, e2, e3]
        push_cast
        linear_combination (2 * (t - ((projParam p a b : ℚ) : ℝ))) * hT
      linarith
  · rw [distance_to_squared_eq]
    have h0 : a.distSq a = 0 := (distSq_eq_zero_iff a a).mpr rfl
    simp [h0]

theorem distSq_pos_of_ne (a b : Point) (hab : a ≠ b) : 0 < b.distSq a :=
  lt_of_le_of_ne (distSq_nonneg a b) (fun h => hab ((distSq_eq_zero_iff a b).mp h.symm))

/-- The identity of Lagrange: `|p - a|^2 |b - a|^2 = ((p - a) . (b - a))^2 + cross^2`. -/
theorem lagrange_identity (p a b : Point) :
    p.distSq a * b.distSq a = dotAt p a b ^ 2 + crossAt p a b ^ 2 := by
  simp only [Point.distSq, dotAt, crossAt]
  ring

theorem norm_sub_castDouble (p a : Point) :
    (p - a).castDouble.norm = Real.sqrt ((p.distSq a : ℤ) : ℝ) := by
  show (Point.sub p a).castDouble.norm = _
  simp only [Vec2d.norm, Vec2d.squaredNorm, Point.sub, Point.castDouble, Point.distSq]
  congr 1
  push_cast
  ring

/-- Exact arithmetic is the rounded function with the identity as rounding. -/
theorem intersectionRounded_id (EPSILON : ℚ) (l1 l2 : Line) (out : Point) :
    l1.intersectionRounded id EPSILON l2 out = l1.intersection EPSILON l2 out := rfl

/-- The rounding on known values: one tenth is `0x3FB999999999999A`, one third is
`0x3FD5555555555555`, small integers are exact, and the ties `2^53 + 1` and `2^53 + 3` go
to the even significands `2^53` and `2^53 + 4`. -/
theorem binary64_samples :
    binary64 (1 / 10) = 3602879701896397 / 36028797018963968 ∧
    binary64 (1 / 3) = 6004799503160661 / 18014398509481984 ∧
    binary64 (-1 / 3) = -6004799503160661 / 18014398509481984 ∧
    binary64 49 = 49 ∧ binary64 (-98) = -98 ∧ binary64 0 = 0 ∧
    binary64 9007199254740993 = 9007199254740992 ∧
    binary64 9007199254740995 = 9007199254740996 := by
  decide!

/-! ## Path chaining -/

theorem perm_cons_eraseIdx {α : Type} : ∀ (l : List α) (k : ℕ) (a : α),
    l.get? k = some a → l.Perm (a :: l.eraseIdx k)
  | [], _, _, h => by simp at h
  | x :: xs, 0, a, h => by
    simp only [List.get?_cons_zero, Option.some.injEq] at h
    subst h
    simp
  | x :: xs, k + 1, a, h => by
    simp only [List.get?_cons_succ] at h
    have ih := perm_cons_eraseIdx xs k a h
    simp only [List.eraseIdx_cons_succ]
    exact (List.Perm.cons x ih).trans (List.Perm.swap a x _)

theorem chainEntries_length (cur : Point) (nr : Bool) :
    ∀ (rem : List (ℕ × ExtrusionEntity)) (cs : List (ℤ × Bool)),
      chainEntries cur nr rem = some cs → cs.length = rem.length
  | [], cs, h => by
    simp only [chainEntries, Option.some.injEq] at h
    subst h
    rfl
  | ie :: rest, cs, h => by
    simp only [chainEntries] at h
    split at h
    · rename_i c cs' _ h2
      simp only [Option.some.injEq] at h
      subst h
      simp [chainEntries_length cur nr rest cs' h2]
    · exact absurd h (by simp)

theorem nearest_get : ∀ (cs : List (ℤ × Bool)) (k : ℕ) (d : ℤ × Bool),
    nearest cs = some (k, d) → cs.get? k = some d
  | [], _, _, h => by simp [nearest] at h
  | c :: rest, k, d, h => by
    simp only [nearest] at h
    split at h
    · simp only [Option.some.injEq, Prod.mk.injEq] at h
      obtain ⟨rfl, rfl⟩ := h
      rfl
    · rename_i k' d' hn
      split at h
      · simp only [Option.some.injEq, Prod.mk.injEq] at h
        obtain ⟨rfl, rfl⟩ := h
        rfl
      · simp only [Option.some.injEq, Prod.mk.injEq] at h
        obtain ⟨rfl, rfl⟩ := h
        simpa using nearest_get rest k' d' hn

theorem nearest_isSome : ∀ (cs : List (ℤ × Bool)), cs ≠ [] → ∃ kd, nearest cs = some kd
  | [], h => absurd rfl h
  | c :: rest, _ => by
    simp only [nearest]
    split
    · exact ⟨_, rfl⟩
    · split
      · exact ⟨_, rfl⟩
      · exact ⟨_, rfl⟩

/-- What the greedy loop returns: the placed children carry the original indices of the
remaining ones, each exactly once, and each placed child is the child of that index,
as it was or reversed. -/
theorem chainLoop_spec : ∀ (fuel : ℕ) (cur : Point) (nr : Bool)
    (rem out : List (ℕ × ExtrusionEntity)), chainLoop fuel cur nr rem = some out →
    (out.map Prod.fst).Perm (rem.map Prod.fst) ∧
    (∀ ie ∈ out, ∃ e, (ie.1, e) ∈ rem ∧ (ie.2 = e ∨ ie.2 = e.reverse))
  | 0, _, _, [], out, h => by
    simp only [chainLoop, Option.some.injEq] at h
    subst h
    simp
  | 0, _, _, _ :: _, out, h => by simp [chainLoop] at h
  | fuel + 1, _, _, [], out, h => by
    simp only [chainLoop, Option.some.injEq] at h
    subst h
    simp
  | fuel + 1, cur, nr, r :: rs, out, h => by
    simp only [chainLoop] at h
    split at h
    · exact absurd h (by simp)
    rename_i entries _
    split at h
    · exact absurd h (by simp)
    rename_i k d rev _
    split at h
    · exact absurd h (by simp)
    rename_i i e hget
    split at h
    · exact absurd h (by simp)
    rename_i next _
    split at h
    · exact absurd h (by simp)
    rename_i out' hrec
    simp only [Option.some.injEq] at h
    subst h
    obtain ⟨ih1, ih2⟩ := chainLoop_spec fuel next nr ((r :: rs).eraseIdx k) out' hrec
    have hperm := perm_cons_eraseIdx (r :: rs) k (i, e) hget
    have hmem : (i, e) ∈ r :: rs := hperm.mem_iff.mpr (List.mem_cons_self _ _)
    constructor
    · have h1 : (((i, e) :: (r :: rs).eraseIdx k).map Prod.fst).Perm ((r :: rs).map Prod.fst) :=
        (hperm.map Prod.fst).symm
      simp only [List.map_cons] at h1 ⊢
      exact (List.Perm.cons i ih1).trans h1
    · intro ie hie
      rcases List.mem_cons.mp hie with rfl | hie'
      · refine ⟨e, hmem, ?_⟩
        by_cases hr : rev = true
        · right; simp [hr]
        · left; simp [hr]
      · obtain ⟨e', he', hor⟩ := ih2 ie hie'
        exact ⟨e', List.mem_of_mem_eraseIdx he', hor⟩

theorem chainEntry_isSome (cur : Point) (nr : Bool) (e : ExtrusionEntity)
    (h : e.hasEndpoints) : ∃ c, chainEntry cur nr e = some c := by
  obtain ⟨h1, h2, _⟩ := h
  obtain ⟨f, hf⟩ := Option.isSome_iff_exists.mp h1
  obtain ⟨l, hl⟩ := Option.isSome_iff_exists.mp h2
  simp only [chainEntry, hf, hl]
  split
  · split
    · exact ⟨_, rfl⟩
    · exact ⟨_, rfl⟩
  · exact ⟨_, rfl⟩

theorem chainEntries_isSome (cur : Point) (nr : Bool) :
    ∀ (rem : List (ℕ × ExtrusionEntity)), (∀ ie ∈ rem, ie.2.hasEndpoints) →
      ∃ cs, chainEntries cur nr rem = some cs
  | [], _ => ⟨[], rfl⟩
  | ie :: rest, h => by
    obtain ⟨c, hc⟩ := chainEntry_isSome cur nr ie.2 (h ie (List.mem_cons_self _ _))
    obtain ⟨cs, hcs⟩ := chainEntries_isSome cur nr rest
      (fun x hx => h x (List.mem_cons_of_mem _ hx))
    exact ⟨c :: cs, by simp [chainEntries, hc, hcs]⟩

/-- The greedy loop returns a result when it may iterate once per remaining child and
every remaining child can report its endpoints. -/
theorem chainLoop_total : ∀ (fuel : ℕ) (cur : Point) (nr : Bool)
    (rem : List (ℕ × ExtrusionEntity)), rem.length ≤ fuel →
    (∀ ie ∈ rem, ie.2.hasEndpoints) → ∃ out, chainLoop fuel cur nr rem = some out
  | 0, _, _, [], _, _ => ⟨[], by simp [chainLoop]⟩
  | 0, _, _, _ :: _, hlen, _ => by simp at hlen
  | fuel + 1, _, _, [], _, _ => ⟨[], by simp [chainLoop]⟩
  | fuel + 1, cur, nr, r :: rs, hlen, hall => by
    obtain ⟨cs, hcs⟩ := chainEntries_isSome cur nr (r :: rs) hall
    have hlenc := chainEntries_length cur nr (r :: rs) cs hcs
    have hne : cs ≠ [] := by
      intro h0
      rw [h0] at hlenc
      simp at hlenc
    obtain ⟨⟨k, d, rev⟩, hn⟩ := nearest_isSome cs hne
    have hk := nearest_get cs k (d, rev) hn
    have hklt : k < (r :: rs).length := by
      rw [← hlenc]
      by_contra hcon
      rw [List.get?_eq_none.mpr (not_lt.mp hcon)] at hk
      exact absurd hk (by simp)
    obtain ⟨⟨i, e⟩, hget⟩ : ∃ x, (r :: rs).get? k = some x :=
      ⟨(r :: rs).get ⟨k, hklt⟩, List.get?_eq_get hklt⟩
    have hmem : (i, e) ∈ r :: rs :=
      (perm_cons_eraseIdx (r :: rs) k (i, e) hget).mem_iff.mpr (List.mem_cons_self _ _)
    obtain ⟨_, he2, he3⟩ := hall (i, e) hmem
    have hnext : ∃ next, (if rev = true then e.reverse else e).last_point = some next := by
      by_cases hr : rev = true
      · simpa [hr] using Option.isSome_iff_exists.mp he3
      · simpa [hr] using Option.isSome_iff_exists.mp he2
    obtain ⟨next, hex⟩ := hnext
    have hlen' : ((r :: rs).eraseIdx k).length ≤ fuel := by
      rw [List.length_eraseIdx_of_lt hklt]
      simp only [List.length_cons] at hlen ⊢
      omega
    obtain ⟨out', hout⟩ := chainLoop_total fuel next nr ((r :: rs).eraseIdx k) hlen'
      (fun x hx => hall x (List.mem_of_mem_eraseIdx hx))
    refine ⟨(i, if rev = true then e.reverse else e) :: out', ?_⟩
    simp only [chainLoop, hcs, hn, hget, hex, hout]

theorem chainCandidates_mem (c : ExtrusionEntityCollection) (role : ExtrusionRole)
    (i : ℕ) (e : ExtrusionEntity) (h : (i, e) ∈ c.chainCandidates role) :
    c.entities[i]? = some e := by
  unfold ExtrusionEntityCollection.chainCandidates at h
  exact List.mk_mem_enum_iff_getElem?.mp (List.mem_filter.mp h).1

theorem chainCandidates_mixed (c : ExtrusionEntityCollection) :
    c.chainCandidates .erMixed = c.entities.enum := by
  unfold ExtrusionEntityCollection.chainCandidates
  simp

theorem chainCandidates_nodup (c : ExtrusionEntityCollection) (role : ExtrusionRole) :
    ((c.chainCandidates role).map Prod.fst).Nodup := by
  unfold ExtrusionEntityCollection.chainCandidates
  have hsub : ((c.entities.enum.filter
      (fun ie => decide (role = .erMixed ∨ ie.2.role = role))).map Prod.fst).Sublist
      (c.entities.enum.map Prod.fst) := List.Sublist.map _ (List.filter_sublist _)
  rw [List.enum_map_fst] at hsub
  exact hsub.nodup (List.nodup_range _)

/-- The index correlation of a result `r` computed from the collection `c`. -/
theorem correlated_of_placed (c : ExtrusionEntityCollection) (role : ExtrusionRole)
    (placed : List (ℕ × ExtrusionEntity))
    (hperm : (placed.map Prod.fst).Perm ((c.chainCandidates role).map Prod.fst))
    (hmem : ∀ ie ∈ placed, ∃ e, (ie.1, e) ∈ c.chainCandidates role ∧
      (ie.2 = e ∨ ie.2 = e.reverse)) :
    (placed.map Prod.fst).length = (placed.map Prod.snd).length ∧
    (∀ k : ℕ, k < (placed.map Prod.snd).length → ∃ (i : ℕ) (e : ExtrusionEntity),
      (placed.map Prod.fst)[k]? = some i ∧ c.entities[i]? = some e ∧
      ((placed.map Prod.snd)[k]? = some e ∨ (placed.map Prod.snd)[k]? = some e.reverse)) ∧
    (placed.map Prod.fst).Nodup ∧
    (role = .erMixed → (placed.map Prod.fst).Perm (List.range c.entities.length)) := by
  refine ⟨by simp, ?_, ?_, ?_⟩
  · intro k hk
    simp only [List.length_map] at hk
    have hin : placed[k] ∈ placed := List.getElem_mem hk
    obtain ⟨e, he, hor⟩ := hmem _ hin
    refine ⟨placed[k].1, e, ?_, chainCandidates_mem c role _ e he, ?_⟩
    · simp [List.getElem?_eq_getElem hk]
    · rcases hor with h | h
      · left; simp [List.getElem?_eq_getElem hk, h]
      · right; simp [List.getElem?_eq_getElem hk, h]
  · exact hperm.nodup_iff.mpr (chainCandidates_nodup c role)
  · intro hrole
    subst hrole
    rw [chainCandidates_mixed, List.enum_map_fst] at hperm
    exact hperm

/-- The index correlation of the identity ordering. -/
theorem correlated_identity (es : List ExtrusionEntity) :
    (List.range es.length).length = es.length ∧
    (∀ k : ℕ, k < es.length → ∃ (i : ℕ) (e : ExtrusionEntity),
      (List.range es.length)[k]? = some i ∧ es[i]? = some e ∧
      (es[k]? = some e ∨ es[k]? = some e.reverse)) ∧
    (List.range es.length).Nodup ∧
    (List.range es.length).Perm (List.range es.length) := by
  refine ⟨by simp, ?_, List.nodup_range _, List.Perm.refl _⟩
  intro k hk
  refine ⟨k, es[k], ?_, ?_, Or.inl ?_⟩
  · simp [List.getElem?_range hk]
  · exact List.getElem?_eq_getElem hk
  · exact List.getElem?_eq_getElem hk

/-- What `chained_path_from` returns, by cases on `no_sort`. -/
theorem chained_path_from_cases (c : ExtrusionEntityCollection) (start_near : Point)
    (no_reverse : Bool) (role : ExtrusionRole) (r : ExtrusionEntityCollection)
    (h : c.chained_path_from start_near no_reverse role = some r) :
    (c.no_sort = true ∧ r = ⟨c.entities, List.range c.entities.length, c.no_sort⟩) ∨
    (c.no_sort = false ∧ ∃ placed : List (ℕ × ExtrusionEntity), r = ⟨placed.map Prod.snd, placed.map Prod.fst, c.no_sort⟩ ∧
      (placed.map Prod.fst).Perm ((c.chainCandidates role).map Prod.fst) ∧
      (∀ ie ∈ placed, ∃ e, (ie.1, e) ∈ c.chainCandidates role ∧
        (ie.2 = e ∨ ie.2 = e.reverse))) := by
  unfold ExtrusionEntityCollection.chained_path_from at h
  by_cases hns : c.no_sort = true
  · left
    rw [if_pos hns] at h
    simp only [Option.some.injEq] at h
    exact ⟨hns, h.symm⟩
  · right
    rw [if_neg hns] at h
    split at h
    · exact absurd h (by simp)
    rename_i placed hloop
    simp only [Option.some.injEq] at h
    obtain ⟨h1, h2⟩ := chainLoop_spec _ start_near no_reverse _ placed hloop
    exact ⟨by simpa using hns, placed, h.symm, h1, h2⟩

/-- What `chained_path` returns, by cases on `no_sort`. -/
theorem chained_path_cases (c : ExtrusionEntityCollection)
    (no_reverse : Bool) (role : ExtrusionRole) (r : ExtrusionEntityCollection)
    (h : c.chained_path no_reverse role = some r) :
    (c.no_sort = true ∧ r = ⟨c.entities, List.range c.entities.length, c.no_sort⟩) ∨
    (c.no_sort = false ∧ ∃ placed : List (ℕ × ExtrusionEntity), r = ⟨placed.map Prod.snd, placed.map Prod.fst, c.no_sort⟩ ∧
      (placed.map Prod.fst).Perm ((c.chainCandidates role).map Prod.fst) ∧
      (∀ ie ∈ placed, ∃ e, (ie.1, e) ∈ c.chainCandidates role ∧
        (ie.2 = e ∨ ie.2 = e.reverse))) := by
  unfold ExtrusionEntityCollection.chained_path at h
  by_cases hns : c.no_sort = true
  · left
    rw [if_pos hns] at h
    simp only [Option.some.injEq] at h
    exact ⟨hns, h.symm⟩
  · rw [if_neg hns] at h
    cases hcand : c.chainCandidates role with
    | nil =>
      right
      rw [hcand] at h
      simp only [Option.some.injEq] at h
      exact ⟨by simpa using hns, [], by simpa using h.symm, by simp, by simp⟩
    | cons ie rest =>
      rw [hcand] at h
      simp only at h
      cases hfp : ie.2.first_point with
      | none =>
        rw [hfp] at h
        exact absurd h (by simp)
      | some s =>
        rw [hfp] at h
        rw [← hcand]
        exact chained_path_from_cases c s no_reverse role r h

theorem chained_path_from_total (c : ExtrusionEntityCollection) (start_near : Point)
    (no_reverse : Bool) (role : ExtrusionRole) (hall : ∀ e ∈ c.entities, e.hasEndpoints) :
    ∃ r, c.chained_path_from start_near no_reverse role = some r := by
  unfold ExtrusionEntityCollection.chained_path_from
  by_cases hns : c.no_sort = true
  · rw [if_pos hns]
    exact ⟨_, rfl⟩
  · rw [if_neg hns]
    obtain ⟨out, hout⟩ := chainLoop_total (c.chainCandidates role).length start_near no_reverse
      (c.chainCandidates role) (le_refl _)
      (fun ie hie => hall ie.2 (List.mem_iff_getElem?.mpr ⟨ie.1, chainCandidates_mem c role ie.1 ie.2 hie⟩))
    rw [hout]
    exact ⟨_, rfl⟩

theorem chained_path_total (c : ExtrusionEntityCollection)
    (no_reverse : Bool) (role : ExtrusionRole) (hall : ∀ e ∈ c.entities, e.hasEndpoints) :
    ∃ r, c.chained_path no_reverse role = some r := by
  unfold ExtrusionEntityCollection.chained_path
  by_cases hns : c.no_sort = true
  · rw [if_pos hns]
    exact ⟨_, rfl⟩
  · rw [if_neg hns]
    cases hcand : c.chainCandidates role with
    | nil => exact ⟨_, rfl⟩
    | cons ie rest =>
      have hie : ie ∈ c.chainCandidates role := by rw [hcand]; exact List.mem_cons_self _ _
      have hend := hall ie.2 (List.mem_iff_getElem?.mpr ⟨ie.1, chainCandidates_mem c role ie.1 ie.2 hie⟩)
      obtain ⟨s, hs⟩ := Option.isSome_iff_exists.mp hend.1
      simp only [hs]
      exact chained_path_from_total c s no_reverse role hall

/-- C9: on a collection with `no_sort = true`, for every start point, every `no_reverse`
flag and every role filter, `chained_path_from` and `chained_path` return the children in
their original order, each one as it was (none reversed), with the identity index table. -/
theorem chained_path_no_sort_identity (c : ExtrusionEntityCollection)
    (hns : c.no_sort = true) (start_near : Point) (no_reverse : Bool) (role : ExtrusionRole) :
    c.chained_path_from start_near no_reverse role
      = some ⟨c.entities, List.range c.entities.length, true⟩ ∧
    c.chained_path no_reverse role
      = some ⟨c.entities, List.range c.entities.length, true⟩ := by
  unfold ExtrusionEntityCollection.chained_path_from ExtrusionEntityCollection.chained_path
  rw [if_pos hns, if_pos hns, hns]
  exact ⟨rfl, rfl⟩

/-- Witness of C9: two paths, the second one nearer to the start point and entered more
closely by its last point, stay in place and unreversed under `no_sort`. -/
theorem chained_path_no_sort_identity_witness :
    (ExtrusionEntityCollection.mk
        [.path ⟨[⟨10, 0⟩, ⟨20, 0⟩], .erInfill, 1, 1, 1, true⟩,
         .path ⟨[⟨5, 0⟩, ⟨0, 0⟩], .erPerimeter, 1, 1, 1, true⟩] [] true).chained_path_from
      ⟨0, 0⟩ false .erInfill
      = some ⟨[.path ⟨[⟨10, 0⟩, ⟨20, 0⟩], .erInfill, 1, 1, 1, true⟩,
               .path ⟨[⟨5, 0⟩, ⟨0, 0⟩], .erPerimeter, 1, 1, 1, true⟩], [0, 1], true⟩ :=
  (chained_path_no_sort_identity
    ⟨[.path ⟨[⟨10, 0⟩, ⟨20, 0⟩], .erInfill, 1, 1, 1, true⟩,
      .path ⟨[⟨5, 0⟩, ⟨0, 0⟩], .erPerimeter, 1, 1, 1, true⟩], [], true⟩ rfl
    ⟨0, 0⟩ false .erInfill).1

/-- C10: whenever `chained_path_from` or `chained_path` produces a result, its
`orig_indices` has the length of its `entities`; the entity at every position `k` is the
child of the input at position `orig_indices[k]`, as it was or reversed; no index occurs
twice; and with the wildcard role `erMixed` the table is a permutation of `0..n-1`. Both
functions do produce a result when every child can report its endpoints. -/
theorem chained_path_index_correlation (c : ExtrusionEntityCollection) (start_near : Point)
    (no_reverse : Bool) (role : ExtrusionRole) :
    (∀ r : ExtrusionEntityCollection,
      (c.chained_path_from start_near no_reverse role = some r ∨
        c.chained_path no_reverse role = some r) →
      r.orig_indices.length = r.entities.length ∧
      (∀ k : ℕ, k < r.entities.length → ∃ (i : ℕ) (e : ExtrusionEntity),
        r.orig_indices[k]? = some i ∧ c.entities[i]? = some e ∧
        (r.entities[k]? = some e ∨ r.entities[k]? = some e.reverse)) ∧
      r.orig_indices.Nodup ∧
      (role = .erMixed → r.orig_indices.Perm (List.range c.entities.length))) ∧
    ((∀ e ∈ c.entities, e.hasEndpoints) →
      (∃ r, c.chained_path_from start_near no_reverse role = some r) ∧
      (∃ r, c.chained_path no_reverse role = some r)) := by
  constructor
  · intro r hr
    have hcases : (c.no_sort = true ∧
          r = ⟨c.entities, List.range c.entities.length, c.no_sort⟩) ∨
        (c.no_sort = false ∧ ∃ placed : List (ℕ × ExtrusionEntity),
          r = ⟨placed.map Prod.snd, placed.map Prod.fst, c.no_sort⟩ ∧
          (placed.map Prod.fst).Perm ((c.chainCandidates role).map Prod.fst) ∧
          (∀ ie ∈ placed, ∃ e, (ie.1, e) ∈ c.chainCandidates role ∧
            (ie.2 = e ∨ ie.2 = e.reverse))) := by
      rcases hr with h | h
      · exact chained_path_from_cases c start_near no_reverse role r h
      · exact chained_path_cases c no_reverse role r h
    rcases hcases with ⟨_, rfl⟩ | ⟨_, placed, rfl, hperm, hmem⟩
    · obtain ⟨h1, h2, h3, h4⟩ := correlated_identity c.entities
      exact ⟨h1, h2, h3, fun _ => h4⟩
    · exact correlated_of_placed c role placed hperm hmem
  · intro hall
    exact ⟨chained_path_from_total c start_near no_reverse role hall,
      chained_path_total c no_reverse role hall⟩

/-- Witness of C10: three paths chained from the origin; the second child is placed first
and reversed, and the index table is `[1, 0, 2]`. -/
theorem chained_path_index_correlation_witness :
    (ExtrusionEntityCollection.mk
        [.path ⟨[⟨10, 0⟩, ⟨20, 0⟩], .erInfill, 1, 1, 1, true⟩,
         .path ⟨[⟨5, 0⟩, ⟨0, 0⟩], .erInfill, 1, 1, 1, true⟩,
         .path ⟨[⟨30, 0⟩, ⟨21, 0⟩], .erPerimeter, 1, 1, 1, true⟩] [] false).chained_path_from
      ⟨0, 0⟩ false .erMixed
      = some ⟨[.path ⟨[⟨0, 0⟩, ⟨5, 0⟩], .erInfill, 1, 1, 1, true⟩,
               .path ⟨[⟨10, 0⟩, ⟨20, 0⟩], .erInfill, 1, 1, 1, true⟩,
               .path ⟨[⟨21, 0⟩, ⟨30, 0⟩], .erPerimeter, 1, 1, 1, true⟩], [1, 0, 2], false⟩ ∧
    ([1, 0, 2] : List ℕ).Perm (List.range 3) :=
  ⟨rfl,
    ((chained_path_index_correlation
      ⟨[.path ⟨[⟨10, 0⟩, ⟨20, 0⟩], .erInfill, 1, 1, 1, true⟩,
        .path ⟨[⟨5, 0⟩, ⟨0, 0⟩], .erInfill, 1, 1, 1, true⟩,
        .path ⟨[⟨30, 0⟩, ⟨21, 0⟩], .erPerimeter, 1, 1, 1, true⟩], [], false⟩
      ⟨0, 0⟩ false .erMixed).1
        ⟨[.path ⟨[⟨0, 0⟩, ⟨5, 0⟩], .erInfill, 1, 1, 1, true⟩,
          .path ⟨[⟨10, 0⟩, ⟨20, 0⟩], .erInfill, 1, 1, 1, true⟩,
          .path ⟨[⟨21, 0⟩, ⟨30, 0⟩], .erPerimeter, 1, 1, 1, true⟩], [1, 0, 2], false⟩
        (Or.inl rfl)).2.2.2 rfl⟩

/-! ## Growth of a collection -/

theorem foldl_push_eq {α β : Type} (f : α → β) (xs : List α) (acc : List β) :
    xs.foldl (fun a x => a ++ [f x]) acc = acc ++ xs.map f := by
  induction xs generalizing acc with
  | nil => simp
  | cons x rest ih => simp [List.foldl_cons, ih]

/-- What the three `append` overloads that take their source by const reference do. -/
theorem append_copy_eq (c : ExtrusionEntityCollection) (entity : ExtrusionEntity)
    (entities : List ExtrusionEntity) (paths : List ExtrusionPath) :
    c.append_entity entity = ⟨c.entities ++ [entity.clone], c.orig_indices, c.no_sort⟩ ∧
    c.append_entities entities
      = ⟨c.entities ++ entities.map ExtrusionEntity.clone, c.orig_indices, c.no_sort⟩ ∧
    c.append_paths paths
      = ⟨c.entities ++ paths.map (fun p => (ExtrusionEntity.path p).clone),
          c.orig_indices, c.no_sort⟩ := by
  refine ⟨rfl, ?_, ?_⟩
  · simp only [ExtrusionEntityCollection.append_entities]
    rw [foldl_push_eq ExtrusionEntity.clone]
  · simp only [ExtrusionEntityCollection.append_paths]
    rw [foldl_push_eq (fun p => (ExtrusionEntity.path p).clone)]

/-- What the two `append` overloads that take their source by rvalue reference do. -/
theorem append_move_eq (c : ExtrusionEntityCollection) (src : List ExtrusionEntity)
    (paths : List ExtrusionPath) :
    c.append_entities_move src = (⟨c.entities ++ src, c.orig_indices, c.no_sort⟩, []) ∧
    c.append_paths_move paths
      = (⟨c.entities ++ paths.map ExtrusionEntity.path, c.orig_indices, c.no_sort⟩,
          paths.map ExtrusionPath.movedFrom) := by
  constructor
  · simp only [ExtrusionEntityCollection.append_entities_move]
    by_cases h : c.entities.isEmpty = true
    · have h0 : c.entities = [] := List.isEmpty_iff.mp h
      simp [h, h0]
    · rw [if_neg h, foldl_push_eq (fun x => x)]
      simp
  · simp only [ExtrusionEntityCollection.append_paths_move]
    rw [foldl_push_eq ExtrusionEntity.path]

/-- C14, counterexample: a default-constructed collection has as many indices as entities
(none); after `append` of one entity it has one entity and still no index. -/
theorem append_breaks_index_sync :
    ExtrusionEntityCollection.ctor.orig_indices.length
      = ExtrusionEntityCollection.ctor.entities.length ∧
    (ExtrusionEntityCollection.ctor.append_entity
      (.path ⟨[], .erPerimeter, 0, 0, 0, true⟩)).entities.length = 1 ∧
    (ExtrusionEntityCollection.ctor.append_entity
      (.path ⟨[], .erPerimeter, 0, 0, 0, true⟩)).orig_indices.length = 0 := by
  decide

/-- C14, amended: `orig_indices.size() == entities.size()` holds for a default-constructed
collection and is kept by the copy and move constructors, by `replace`, `remove`, `clear`
and `swap`; every `append` overload leaves `orig_indices` as it was and lengthens
`entities` by the number of source elements, so that it keeps the equality exactly when
the source is empty. -/
theorem index_sync_operations (c other : ExtrusionEntityCollection) (i : ℕ)
    (entity : ExtrusionEntity) (src : List ExtrusionEntity) (paths : List ExtrusionPath)
    (hc : c.orig_indices.length = c.entities.length)
    (ho : other.orig_indices.length = other.entities.length) :
    ExtrusionEntityCollection.ctor.orig_indices.length
      = ExtrusionEntityCollection.ctor.entities.length ∧
    c.ctorCopy.orig_indices.length = c.ctorCopy.entities.length ∧
    c.ctorMove.orig_indices.length = c.ctorMove.entities.length ∧
    (c.replace i entity).2.orig_indices.length = (c.replace i entity).2.entities.length ∧
    (c.remove i).2.orig_indices.length = (c.remove i).2.entities.length ∧
    c.clear.orig_indices.length = c.clear.entities.length ∧
    (c.swap other).1.orig_indices.length = (c.swap other).1.entities.length ∧
    (c.swap other).2.orig_indices.length = (c.swap other).2.entities.length ∧
    ((c.append_entity entity).orig_indices = c.orig_indices ∧
      (c.append_entity entity).entities.length = c.entities.length + 1) ∧
    ((c.append_entities src).orig_indices = c.orig_indices ∧
      (c.append_entities src).entities.length = c.entities.length + src.length) ∧
    ((c.append_entities_move src).1.orig_indices = c.orig_indices ∧
      (c.append_entities_move src).1.entities.length = c.entities.length + src.length) ∧
    ((c.append_paths paths).orig_indices = c.orig_indices ∧
      (c.append_paths paths).entities.length = c.entities.length + paths.length) ∧
    ((c.append_paths_move paths).1.orig_indices = c.orig_indices ∧
      (c.append_paths_move paths).1.entities.length = c.entities.length + paths.length) ∧
    ((c.append_entities src).orig_indices.length = (c.append_entities src).entities.length
      ↔ src = []) := by
  obtain ⟨h1, h2, h3⟩ := append_copy_eq c entity src paths
  obtain ⟨h4, h5⟩ := append_move_eq c src paths
  have hcopy : c.ctorCopy = ⟨c.entities.map ExtrusionEntity.clone, c.orig_indices, c.no_sort⟩ := by
    unfold ExtrusionEntityCollection.ctorCopy
    rw [(append_copy_eq _ entity c.entities paths).2.1]
    simp
  refine ⟨rfl, ?_, hc, ?_, ?_, rfl, ho, hc, ?_, ?_, ?_, ?_, ?_, ?_⟩
  · rw [hcopy]; simpa using hc
  · unfold ExtrusionEntityCollection.replace
    split <;> simpa using hc
  · unfold ExtrusionEntityCollection.remove
    split
    · simp only [List.length_eraseIdx, hc]
    · exact hc
  · rw [h1]; simp
  · rw [h2]; simp
  · rw [h4]; simp
  · rw [h3]; simp
  · rw [h5]; simp
  · rw [h2]
    simp only [List.length_append, List.length_map, hc]
    constructor
    · intro h
      exact List.length_eq_zero.mp (by omega)
    · rintro rfl
      simp

/-- Witness of C14: a collection with one entity and one index. -/
theorem index_sync_operations_witness :
    (ExtrusionEntityCollection.mk [.path ⟨[], .erInfill, 0, 0, 0, true⟩] [0] false).remove 0
      = (.value (), ⟨[], [], false⟩) ∧
    ((ExtrusionEntityCollection.mk [.path ⟨[], .erInfill, 0, 0, 0, true⟩] [0] false).remove
      0).2.orig_indices.length
      = ((ExtrusionEntityCollection.mk [.path ⟨[], .erInfill, 0, 0, 0, true⟩] [0] false).remove
        0).2.entities.length :=
  ⟨rfl, (index_sync_operations ⟨[.path ⟨[], .erInfill, 0, 0, 0, true⟩], [0], false⟩
    ExtrusionEntityCollection.ctor 0 (.path ⟨[], .erInfill, 0, 0, 0, true⟩) [] [] rfl
    rfl).2.2.2.2.1⟩

/-- C15: after an `append` that takes its source by const reference (one entity, a vector
of entities, a vector of paths), `entities` is the old sequence followed by the clones of
the source elements in source order, a clone being equal to its original; the old children
are the first entries of the new sequence, and `no_sort` and `orig_indices` are as
before. -/
theorem append_copy_frame (c : ExtrusionEntityCollection) (entity : ExtrusionEntity)
    (entities : List ExtrusionEntity) (paths : List ExtrusionPath) :
    (c.append_entity entity
        = ⟨c.entities ++ [entity.clone], c.orig_indices, c.no_sort⟩ ∧
      c.append_entities entities
        = ⟨c.entities ++ entities.map ExtrusionEntity.clone, c.orig_indices, c.no_sort⟩ ∧
      c.append_paths paths
        = ⟨c.entities ++ paths.map (fun p => (ExtrusionEntity.path p).clone),
            c.orig_indices, c.no_sort⟩) ∧
    (∀ e : ExtrusionEntity, e.clone = e) ∧
    ((c.append_entity entity).entities.take c.entities.length = c.entities ∧
      (c.append_entities entities).entities.take c.entities.length = c.entities ∧
      (c.append_paths paths).entities.take c.entities.length = c.entities) ∧
    ((c.append_entity entity).entities.drop c.entities.length = [entity] ∧
      (c.append_entities entities).entities.drop c.entities.length = entities ∧
      (c.append_paths paths).entities.drop c.entities.length
        = paths.map ExtrusionEntity.path) := by
  obtain ⟨h1, h2, h3⟩ := append_copy_eq c entity entities paths
  have hclone : ∀ e : ExtrusionEntity, e.clone = e := fun _ => rfl
  have hmap : ∀ xs : List ExtrusionEntity, xs.map ExtrusionEntity.clone = xs := by
    intro xs
    induction xs with
    | nil => rfl
    | cons x rest ih => simp [ExtrusionEntity.clone, ih]
  refine ⟨⟨h1, h2, h3⟩, hclone, ⟨?_, ?_, ?_⟩, ⟨?_, ?_, ?_⟩⟩
  · rw [h1]; simp
  · rw [h2]; simp
  · rw [h3]; simp
  · rw [h1]; simp [ExtrusionEntity.clone]
  · rw [h2, hmap]; simp
  · rw [h3]; simp [ExtrusionEntity.clone]

/-- What holds of the two moving `append` overloads: `entities` is the old sequence
followed by the source elements in order; the source of `append(ExtrusionEntitiesPtr&&)`
is empty afterwards; the source of `append(ExtrusionPaths&&)` keeps its length. -/
theorem append_move_frame (c : ExtrusionEntityCollection) (src : List ExtrusionEntity)
    (paths : List ExtrusionPath) :
    (c.append_entities_move src).1.entities = c.entities ++ src ∧
    (c.append_entities_move src).2 = [] ∧
    (c.append_paths_move paths).1.entities = c.entities ++ paths.map ExtrusionEntity.path ∧
    (c.append_paths_move paths).2.length = paths.length := by
  obtain ⟨h1, h2⟩ := append_move_eq c src paths
  rw [h1, h2]
  simp

/-- C16, evaluation: one path moved into an empty collection by
`append(ExtrusionPaths&&)`. The collection holds the path, and the source vector still
has one element (a path without its polyline): it is not empty. The sibling
`append(ExtrusionEntitiesPtr&&)` leaves its source empty. -/
theorem append_paths_move_source_kept :
    (ExtrusionEntityCollection.ctor.append_paths_move
      [⟨[⟨0, 0⟩, ⟨5, 0⟩], .erInfill, 1, 1, 1, true⟩]).1.entities
      = [.path ⟨[⟨0, 0⟩, ⟨5, 0⟩], .erInfill, 1, 1, 1, true⟩] ∧
    (ExtrusionEntityCollection.ctor.append_paths_move
      [⟨[⟨0, 0⟩, ⟨5, 0⟩], .erInfill, 1, 1, 1, true⟩]).2.length = 1 ∧
    (ExtrusionEntityCollection.ctor.append_entities_move
      [.path ⟨[⟨0, 0⟩, ⟨5, 0⟩], .erInfill, 1, 1, 1, true⟩]).2.length = 0 :=
  ⟨rfl, rfl, rfl⟩

/-- C17: with an index `i` that is not below the number of children, `replace` and
`remove` report an error and leave the collection as it was; with `i` below it, `remove`
drops child `i` and entry `i` of `orig_indices`, the others keeping their order, and
`replace` puts a clone of the entity at position `i`, all lengths and `orig_indices`
staying as they were; `no_sort` is never changed. -/
theorem replace_remove_spec (c : ExtrusionEntityCollection) (i : ℕ)
    (entity : ExtrusionEntity) :
    (c.entities.length ≤ i →
      c.replace i entity = (.error "index out of range", c) ∧
      c.remove i = (.error "index out of range", c)) ∧
    (i < c.entities.length →
      c.remove i = (.value (),
        ⟨c.entities.eraseIdx i, c.orig_indices.eraseIdx i, c.no_sort⟩) ∧
      (c.remove i).2.entities.length + 1 = c.entities.length ∧
      (∀ j : ℕ, (c.remove i).2.entities[j]?
        = if j < i then c.entities[j]? else c.entities[j + 1]?) ∧
      (∀ j : ℕ, (c.remove i).2.orig_indices[j]?
        = if j < i then c.orig_indices[j]? else c.orig_indices[j + 1]?) ∧
      c.replace i entity = (.value (),
        ⟨c.entities.set i entity.clone, c.orig_indices, c.no_sort⟩) ∧
      (c.replace i entity).2.entities.length = c.entities.length ∧
      (c.replace i entity).2.entities[i]? = some entity.clone ∧
      (∀ j : ℕ, j ≠ i → (c.replace i entity).2.entities[j]? = c.entities[j]?)) := by
  constructor
  · intro h
    have hn : ¬ i < c.entities.length := not_lt.mpr h
    simp [ExtrusionEntityCollection.replace, ExtrusionEntityCollection.remove, hn]
  · intro h
    have hrem : c.remove i = (.value (),
        ⟨c.entities.eraseIdx i, c.orig_indices.eraseIdx i, c.no_sort⟩) := by
      simp [ExtrusionEntityCollection.remove, h]
    have hrep : c.replace i entity = (.value (),
        ⟨c.entities.set i entity.clone, c.orig_indices, c.no_sort⟩) := by
      simp [ExtrusionEntityCollection.replace, h]
    refine ⟨hrem, ?_, ?_, ?_, hrep, ?_, ?_, ?_⟩
    · rw [hrem]
      simp only [List.length_eraseIdx, h, if_true]
      omega
    · intro j
      rw [hrem]
      exact List.getElem?_eraseIdx _ _ _
    · intro j
      rw [hrem]
      exact List.getElem?_eraseIdx _ _ _
    · rw [hrep]; simp
    · rw [hrep]; simp [h]
    · intro j hj
      rw [hrep]
      simp [List.getElem?_set, Ne.symm hj]

/-- C18, counterexample: on a collection without children `first_point()` and
`last_point()` call `front()` and `back()` of an empty vector: the behaviour is undefined,
and no error is reported. -/
theorem endpoints_of_empty_undefined :
    ExtrusionEntityCollection.ctor.entities = [] ∧
    (∀ what : String, ExtrusionEntityCollection.ctor.first_point ≠ Outcome.error what) ∧
    (∀ what : String, ExtrusionEntityCollection.ctor.last_point ≠ Outcome.error what) := by
  refine ⟨rfl, ?_, ?_⟩
  · intro what h
    cases h
  · intro what h
    cases h

/-- C18, amended: on a collection with children `first_point()` is the `first_point()` of
the first child and `last_point()` is the `last_point()` of the last child; on a
collection without children both have undefined behaviour: no point is returned and no
error is reported. -/
theorem collection_endpoints (c : ExtrusionEntityCollection) :
    (∀ (e : ExtrusionEntity) (rest : List ExtrusionEntity), c.entities = e :: rest →
      c.first_point = Outcome.ofOption e.first_point) ∧
    (∀ (init : List ExtrusionEntity) (e : ExtrusionEntity), c.entities = init ++ [e] →
      c.last_point = Outcome.ofOption e.last_point) ∧
    (c.entities = [] → c.first_point = Outcome.undefined ∧ c.last_point = Outcome.undefined) ∧
    c.first_point = Outcome.ofOption c.toEntity.first_point := by
  refine ⟨?_, ?_, ?_, ?_⟩
  · intro e rest h
    simp [ExtrusionEntityCollection.first_point, h]
  · intro init e h
    simp [ExtrusionEntityCollection.last_point, h]
  · intro h
    simp [ExtrusionEntityCollection.first_point, ExtrusionEntityCollection.last_point, h]
  · unfold ExtrusionEntityCollection.first_point ExtrusionEntityCollection.toEntity
    cases c.entities with
    | nil => simp [ExtrusionEntity.first_point, Outcome.ofOption]
    | cons e rest => simp [ExtrusionEntity.first_point]

/-- C19: on every collection, with or without children and wherever it stands in a tree,
`as_polyline()` and `length()` end with an error and never with a value. -/
theorem as_polyline_length_fail (c : ExtrusionEntityCollection) :
    c.as_polyline = Outcome.error "Calling as_polyline() on a ExtrusionEntityCollection" ∧
    c.length = Outcome.error "Calling length() on a ExtrusionEntityCollection" ∧
    (∀ v : List Point, c.as_polyline ≠ Outcome.value v) ∧
    (∀ v : ℚ, c.length ≠ Outcome.value v) ∧
    (∀ (es : List ExtrusionEntity) (oi : List ℕ) (ns : Bool),
      (ExtrusionEntityCollection.mk es oi ns).as_polyline
        = Outcome.error "Calling as_polyline() on a ExtrusionEntityCollection" ∧
      (ExtrusionEntityCollection.mk es oi ns).length
        = Outcome.error "Calling length() on a ExtrusionEntityCollection") := by
  refine ⟨rfl, rfl, ?_, ?_, fun _ _ _ => ⟨rfl, rfl⟩⟩
  · intro v h
    cases h
  · intro v h
    cases h

theorem reverseChildren_eq_map (es : List ExtrusionEntity) :
    reverseChildren es = es.map (fun e => if e.can_reverse then e.reverse else e) := by
  induction es with
  | nil => simp [reverseChildren]
  | cons e rest ih => simp [reverseChildren, ih]

/-- C20: `reverse()` leaves a collection with `no_sort = true` as it is; on a sortable
collection the new children are the old ones in reverse order, each child whose
`can_reverse()` is true being reversed and the others being as they were; the index table
and `no_sort` do not change. The same holds of a collection reversed as a child. -/
theorem reverse_spec (c : ExtrusionEntityCollection) :
    (c.no_sort = true → c.reverse = c) ∧
    (c.no_sort = false →
      c.reverse = ⟨(c.entities.map (fun e => if e.can_reverse then e.reverse else e)).reverse,
        c.orig_indices, c.no_sort⟩ ∧
      c.reverse.entities.length = c.entities.length ∧
      (∀ (k : ℕ) (e : ExtrusionEntity), c.entities[k]? = some e →
        c.reverse.entities[c.entities.length - 1 - k]?
          = some (if e.can_reverse then e.reverse else e))) ∧
    c.toEntity.reverse = c.reverse.toEntity := by
  refine ⟨?_, ?_, ?_⟩
  · intro h
    simp [ExtrusionEntityCollection.reverse, h]
  · intro h
    have hrev : c.reverse = ⟨(c.entities.map
        (fun e => if e.can_reverse then e.reverse else e)).reverse,
        c.orig_indices, c.no_sort⟩ := by
      simp [ExtrusionEntityCollection.reverse, h, reverseChildren_eq_map]
    refine ⟨hrev, ?_, ?_⟩
    · rw [hrev]; simp
    · intro k e hk
      have hlt : k < c.entities.length := by
        by_contra hcon
        rw [List.getElem?_eq_none (not_lt.mp hcon)] at hk
        exact absurd hk (by simp)
      rw [hrev]
      simp only
      rw [List.getElem?_reverse (by simp; omega)]
      simp only [List.length_map, List.getElem?_map]
      have : c.entities.length - 1 - (c.entities.length - 1 - k) = k := by omega
      rw [this, hk]
      rfl
  · unfold ExtrusionEntityCollection.toEntity ExtrusionEntityCollection.reverse
    by_cases h : c.no_sort = true
    · simp [ExtrusionEntity.reverse, h]
    · simp [ExtrusionEntity.reverse, h]

/-! ## Visitors: counting and flattening -/

mutual
theorem countVisit_eq : ∀ (e : ExtrusionEntity) (n : ℕ),
    CountEntities.visit e n = n + e.leaves.length
  | .path _, n => by simp [CountEntities.visit, ExtrusionEntity.leaves]
  | .collection es _ _, n => by
    simp only [CountEntities.visit, ExtrusionEntity.leaves]
    exact countVisitAll_eq es n
theorem countVisitAll_eq : ∀ (es : List ExtrusionEntity) (n : ℕ),
    CountEntities.visitAll es n = n + (leavesOf es).length
  | [], n => by simp [CountEntities.visitAll, leavesOf]
  | e :: rest, n => by
    simp only [CountEntities.visitAll, leavesOf, List.length_append]
    rw [countVisitAll_eq rest, countVisit_eq e]
    omega
end

mutual
theorem flattenVisit_false : ∀ (e : ExtrusionEntity) (to_fill : ExtrusionEntityCollection),
    FlatenEntities.visit false e to_fill
      = ⟨to_fill.entities ++ e.leaves, to_fill.orig_indices, to_fill.no_sort⟩
  | .path p, to_fill => by
    simp [FlatenEntities.visit, ExtrusionEntity.leaves,
      ExtrusionEntityCollection.append_entity, ExtrusionEntity.clone]
  | .collection es _ _, to_fill => by
    simp only [FlatenEntities.visit, ExtrusionEntity.leaves, Bool.false_and]
    exact flattenVisitAll_false es to_fill
theorem flattenVisitAll_false : ∀ (es : List ExtrusionEntity)
    (to_fill : ExtrusionEntityCollection),
    FlatenEntities.visitAll false es to_fill
      = ⟨to_fill.entities ++ leavesOf es, to_fill.orig_indices, to_fill.no_sort⟩
  | [], to_fill => by simp [FlatenEntities.visitAll, leavesOf]
  | e :: rest, to_fill => by
    simp only [FlatenEntities.visitAll, leavesOf]
    rw [flattenVisit_false e to_fill, flattenVisitAll_false rest]
    simp
end

mutual
theorem flattenVisit_true : ∀ (e : ExtrusionEntity) (to_fill : ExtrusionEntityCollection),
    FlatenEntities.visit true e to_fill
      = ⟨to_fill.entities ++ e.units, to_fill.orig_indices, to_fill.no_sort⟩
  | .path p, to_fill => by
    simp [FlatenEntities.visit, ExtrusionEntity.units,
      ExtrusionEntityCollection.append_entity, ExtrusionEntity.clone]
  | .collection es oi true, to_fill => by
    simp [FlatenEntities.visit, ExtrusionEntity.units,
      ExtrusionEntityCollection.append_entity, ExtrusionEntity.clone]
  | .collection es oi false, to_fill => by
    simp only [FlatenEntities.visit, ExtrusionEntity.units, Bool.and_false]
    simpa using flattenVisitAll_true es to_fill
theorem flattenVisitAll_true : ∀ (es : List ExtrusionEntity)
    (to_fill : ExtrusionEntityCollection),
    FlatenEntities.visitAll true es to_fill
      = ⟨to_fill.entities ++ unitsOf es, to_fill.orig_indices, to_fill.no_sort⟩
  | [], to_fill => by simp [FlatenEntities.visitAll, unitsOf]
  | e :: rest, to_fill => by
    simp only [FlatenEntities.visitAll, unitsOf]
    rw [flattenVisit_true e to_fill, flattenVisitAll_true rest]
    simp
end

mutual
theorem leaves_not_collection : ∀ (e x : ExtrusionEntity), x ∈ e.leaves →
    x.is_collection = false
  | .path p, x, h => by
    simp only [ExtrusionEntity.leaves, List.mem_singleton] at h
    subst h
    rfl
  | .collection es _ _, x, h => by
    simp only [ExtrusionEntity.leaves] at h
    exact leavesOf_not_collection es x h
theorem leavesOf_not_collection : ∀ (es : List ExtrusionEntity) (x : ExtrusionEntity),
    x ∈ leavesOf es → x.is_collection = false
  | [], x, h => by simp [leavesOf] at h
  | e :: rest, x, h => by
    simp only [leavesOf, List.mem_append] at h
    rcases h with h | h
    · exact leaves_not_collection e x h
    · exact leavesOf_not_collection rest x h
end

/-- C13: `flatten(preserve_ordering = false)` returns the leaves of the tree in
depth-first, left-to-right order; no entity of the result is a collection; and the number
of its entities is `items_count()` of the original. -/
theorem flatten_all_leaves (c : ExtrusionEntityCollection) :
    (c.flatten false).entities = leavesOf c.entities ∧
    (∀ x ∈ (c.flatten false).entities, x.is_collection = false) ∧
    (c.flatten false).entities.length = c.items_count := by
  have h : (c.flatten false).entities = leavesOf c.entities := by
    unfold ExtrusionEntityCollection.flatten
    rw [flattenVisitAll_false]
    simp [ExtrusionEntityCollection.ctor]
  refine ⟨h, ?_, ?_⟩
  · intro x hx
    rw [h] at hx
    exact leavesOf_not_collection c.entities x hx
  · rw [h]
    unfold ExtrusionEntityCollection.items_count CountEntities.count
      ExtrusionEntityCollection.toEntity
    rw [countVisit_eq]
    simp [ExtrusionEntity.leaves]

theorem units_sub_unitsOf (es : List ExtrusionEntity) (x : ExtrusionEntity) (hx : x ∈ es) :
    ∀ u ∈ x.units, u ∈ unitsOf es := by
  induction es with
  | nil => simp at hx
  | cons e rest ih =>
    intro u hu
    simp only [unitsOf, List.mem_append]
    rcases List.mem_cons.mp hx with rfl | h
    · exact Or.inl hu
    · exact Or.inr (ih h u hu)

theorem visited_units_sub (es : List ExtrusionEntity) (x : ExtrusionEntity)
    (hx : Visited es x) : ∀ u ∈ x.units, u ∈ unitsOf es := by
  induction hx with
  | child x hmem => exact units_sub_unitsOf es x hmem
  | inside sub oi x _ hmem ih =>
    intro u hu
    apply ih
    simp only [ExtrusionEntity.units, Bool.false_eq_true, if_false]
    exact units_sub_unitsOf sub x hmem u hu

theorem isUnit_mem_units (x : ExtrusionEntity) (h : x.isUnit = true) : x ∈ x.units := by
  cases x with
  | path p => simp [ExtrusionEntity.units]
  | collection es oi ns =>
    simp only [ExtrusionEntity.isUnit] at h
    simp [ExtrusionEntity.units, h]

mutual
theorem units_visited : ∀ (e u : ExtrusionEntity), u ∈ e.units →
    u.isUnit = true ∧ (u = e ∨ ∃ sub oi, e = .collection sub oi false ∧ Visited sub u)
  | .path p, u, h => by
    simp only [ExtrusionEntity.units, List.mem_singleton] at h
    subst h
    exact ⟨rfl, Or.inl rfl⟩
  | .collection es oi true, u, h => by
    simp only [ExtrusionEntity.units, if_true, List.mem_singleton] at h
    subst h
    exact ⟨rfl, Or.inl rfl⟩
  | .collection es oi false, u, h => by
    simp only [ExtrusionEntity.units, Bool.false_eq_true, if_false] at h
    obtain ⟨h1, h2⟩ := unitsOf_visited es u h
    exact ⟨h1, Or.inr ⟨es, oi, rfl, h2⟩⟩
theorem unitsOf_visited : ∀ (es : List ExtrusionEntity) (u : ExtrusionEntity),
    u ∈ unitsOf es → u.isUnit = true ∧ Visited es u
  | [], u, h => by simp [unitsOf] at h
  | e :: rest, u, h => by
    simp only [unitsOf, List.mem_append] at h
    rcases h with h | h
    · obtain ⟨h1, h2⟩ := units_visited e u h
      refine ⟨h1, ?_⟩
      rcases h2 with rfl | ⟨sub, oi, rfl, hv⟩
      · exact Visited.child _ (List.mem_cons_self _ _)
      · have hroot : Visited (ExtrusionEntity.collection sub oi false :: rest)
            (.collection sub oi false) := Visited.child _ (List.mem_cons_self _ _)
        clear h h1
        induction hv with
        | child x hmem => exact Visited.inside sub oi x hroot hmem
        | inside sub' oi' x _ hmem ih => exact Visited.inside sub' oi' x ih hmem
    · obtain ⟨h1, h2⟩ := unitsOf_visited rest u h
      refine ⟨h1, ?_⟩
      clear h h1
      induction h2 with
      | child x hmem => exact Visited.child x (List.mem_cons_of_mem _ hmem)
      | inside sub' oi' x _ hmem ih => exact Visited.inside sub' oi' x ih hmem
end

/-- C12: `flatten(preserve_ordering = true)` returns, depth first and left to right, the
units of the tree: the entities of the result are exactly the visited entities that are a
leaf or a collection with `no_sort = true`. A visited collection with `no_sort = true` is
one entity of the result, equal to the original (its children in their original order); a
visited sortable collection is not an entity of the result: its children are visited in
its place. -/
theorem flatten_preserve_ordering (c : ExtrusionEntityCollection) :
    (c.flatten true).entities = unitsOf c.entities ∧
    (∀ x : ExtrusionEntity, x ∈ (c.flatten true).entities ↔
      (Visited c.entities x ∧ x.isUnit = true)) ∧
    (∀ (sub : List ExtrusionEntity) (oi : List ℕ),
      Visited c.entities (.collection sub oi true) →
      ExtrusionEntity.collection sub oi true ∈ (c.flatten true).entities) ∧
    (∀ (sub : List ExtrusionEntity) (oi : List ℕ),
      Visited c.entities (.collection sub oi false) →
      ExtrusionEntity.collection sub oi false ∉ (c.flatten true).entities ∧
      (∀ x ∈ sub, Visited c.entities x) ∧
      (∀ u ∈ unitsOf sub, u ∈ (c.flatten true).entities)) := by
  have h : (c.flatten true).entities = unitsOf c.entities := by
    unfold ExtrusionEntityCollection.flatten
    rw [flattenVisitAll_true]
    simp [ExtrusionEntityCollection.ctor]
  have hiff : ∀ x : ExtrusionEntity, x ∈ (c.flatten true).entities ↔
      (Visited c.entities x ∧ x.isUnit = true) := by
    intro x
    rw [h]
    constructor
    · intro hx
      obtain ⟨h1, h2⟩ := unitsOf_visited c.entities x hx
      exact ⟨h2, h1⟩
    · rintro ⟨hv, hu⟩
      exact visited_units_sub c.entities x hv x (isUnit_mem_units x hu)
  refine ⟨h, hiff, ?_, ?_⟩
  · intro sub oi hv
    exact (hiff _).mpr ⟨hv, rfl⟩
  · intro sub oi hv
    refine ⟨?_, ?_, ?_⟩
    · intro hmem
      have := ((hiff _).mp hmem).2
      simp [ExtrusionEntity.isUnit] at this
    · intro x hx
      exact Visited.inside sub oi x hv hx
    · intro u hu
      rw [h]
      apply visited_units_sub c.entities _ hv
      simpa [ExtrusionEntity.units] using hu

/-- Witness of C12: a tree with a leaf, a sortable collection holding a leaf and a locked
collection, and a locked collection; the sortable one is expanded, the locked ones stay. -/
theorem flatten_preserve_ordering_witness :
    (ExtrusionEntityCollection.mk
      [.path ⟨[⟨0, 0⟩], .erInfill, 1, 1, 1, true⟩,
       .collection [.path ⟨[⟨1, 0⟩], .erInfill, 1, 1, 1, true⟩,
                    .collection [.path ⟨[⟨2, 0⟩], .erInfill, 1, 1, 1, true⟩] [] true] [] false,
       .collection [.path ⟨[⟨3, 0⟩], .erInfill, 1, 1, 1, true⟩,
                    .collection [] [] false] [] true] [] false).flatten true
    = ⟨[.path ⟨[⟨0, 0⟩], .erInfill, 1, 1, 1, true⟩,
        .path ⟨[⟨1, 0⟩], .erInfill, 1, 1, 1, true⟩,
        .collection [.path ⟨[⟨2, 0⟩], .erInfill, 1, 1, 1, true⟩] [] true,
        .collection [.path ⟨[⟨3, 0⟩], .erInfill, 1, 1, 1, true⟩,
                     .collection [] [] false] [] true], [], false⟩ := rfl

/-! ## Path chaining: the greedy selection -/

/-- What the way into a child is: the distance of one admissible endpoint, at most the
distance of every admissible endpoint; the child is entered by its first point, or by its
last point when it is reversed. -/
theorem chainEntry_spec (cur : Point) (nr : Bool) (e : ExtrusionEntity) (d : ℤ) (rev : Bool)
    (h : chainEntry cur nr e = some (d, rev)) :
    ∃ q : Point, q ∈ admissibleEndpoints nr e ∧ cur.distSq q = d ∧
      (∀ q' ∈ admissibleEndpoints nr e, d ≤ cur.distSq q') ∧
      ((rev = false ∧ e.first_point = some q) ∨ (rev = true ∧ e.last_point = some q)) := by
  unfold chainEntry at h
  cases hf : e.first_point with
  | none => simp [hf] at h
  | some f =>
    simp only [hf] at h
    by_cases hm : (e.can_reverse && !nr) = true
    · simp only [hm, if_true] at h
      cases hl : e.last_point with
      | none => simp [hl] at h
      | some l =>
        simp only [hl] at h
        by_cases hlt : cur.distSq l < cur.distSq f
        · simp only [hlt, if_true, Option.some.injEq, Prod.mk.injEq] at h
          obtain ⟨rfl, rfl⟩ := h
          refine ⟨l, ?_, rfl, ?_, Or.inr ⟨rfl, rfl⟩⟩
          · simp [admissibleEndpoints, hf, hl, hm]
          · intro q' hq'
            simp only [admissibleEndpoints, hf, hl, hm, if_true, Option.toList_some,
              List.singleton_append, List.mem_cons, List.mem_singleton, List.not_mem_nil,
              or_false] at hq'
            rcases hq' with rfl | rfl
            · exact le_of_lt hlt
            · exact le_refl _
        · simp only [hlt, if_false, Option.some.injEq, Prod.mk.injEq] at h
          obtain ⟨rfl, rfl⟩ := h
          refine ⟨f, ?_, rfl, ?_, Or.inl ⟨rfl, rfl⟩⟩
          · simp [admissibleEndpoints, hf, hl, hm]
          · intro q' hq'
            simp only [admissibleEndpoints, hf, hl, hm, if_true, Option.toList_some,
              List.singleton_append, List.mem_cons, List.mem_singleton, List.not_mem_nil,
              or_false] at hq'
            rcases hq' with rfl | rfl
            · exact le_refl _
            · exact not_lt.mp hlt
    · simp only [hm, if_false, Option.some.injEq, Prod.mk.injEq] at h
      obtain ⟨rfl, rfl⟩ := h
      refine ⟨f, ?_, rfl, ?_, Or.inl ⟨rfl, rfl⟩⟩
      · simp [admissibleEndpoints, hf, hm]
      · intro q' hq'
        simp [admissibleEndpoints, hf, hm] at hq'
        subst hq'
        exact le_refl _

/-- The entries are those of the remaining children, position by position. -/
theorem chainEntries_get (cur : Point) (nr : Bool) :
    ∀ (rem : List (ℕ × ExtrusionEntity)) (cs : List (ℤ × Bool)),
      chainEntries cur nr rem = some cs →
      ∀ (p : ℕ) (ie : ℕ × ExtrusionEntity), rem.get? p = some ie →
        ∃ c, cs.get? p = some c ∧ chainEntry cur nr ie.2 = some c
  | [], _, _, p, ie, hp => by simp at hp
  | x :: rest, cs, h, p, ie, hp => by
    simp only [chainEntries] at h
    split at h
    · rename_i c cs' h1 h2
      simp only [Option.some.injEq] at h
      subst h
      cases p with
      | zero =>
        simp only [List.get?_cons_zero, Option.some.injEq] at hp
        subst hp
        exact ⟨c, rfl, h1⟩
      | succ p =>
        simp only [List.get?_cons_succ] at hp
        simpa using chainEntries_get cur nr rest cs' h2 p ie hp
    · exact absurd h (by simp)

/-- The selected candidate has the least distance, and is the first with it. -/
theorem nearest_min : ∀ (cs : List (ℤ × Bool)) (k : ℕ) (d : ℤ × Bool),
    nearest cs = some (k, d) →
    ∀ (p : ℕ) (c : ℤ × Bool), cs.get? p = some c → d.1 ≤ c.1 ∧ (c.1 = d.1 → k ≤ p)
  | [], _, _, h, _, _, _ => by simp [nearest] at h
  | c0 :: rest, k, d, h, p, c, hp => by
    simp only [nearest] at h
    split at h
    · rename_i hn
      simp only [Option.some.injEq, Prod.mk.injEq] at h
      obtain ⟨rfl, rfl⟩ := h
      cases p with
      | zero =>
        simp only [List.get?_cons_zero, Option.some.injEq] at hp
        subst hp
        exact ⟨le_refl _, fun _ => le_refl _⟩
      | succ p =>
        simp only [List.get?_cons_succ] at hp
        cases rest with
        | nil => simp at hp
        | cons y ys =>
          obtain ⟨kd, hkd⟩ := nearest_isSome (y :: ys) (by simp)
          rw [hkd] at hn
          exact absurd hn (by simp)
    · rename_i k' d' hn
      have ih := nearest_min rest k' d' hn
      split at h
      · rename_i hle
        simp only [Option.some.injEq, Prod.mk.injEq] at h
        obtain ⟨rfl, rfl⟩ := h
        cases p with
        | zero =>
          simp only [List.get?_cons_zero, Option.some.injEq] at hp
          subst hp
          exact ⟨le_refl _, fun _ => le_refl _⟩
        | succ p =>
          simp only [List.get?_cons_succ] at hp
          exact ⟨le_trans hle (ih p c hp).1, fun _ => Nat.zero_le _⟩
      · rename_i hnle
        simp only [Option.some.injEq, Prod.mk.injEq] at h
        obtain ⟨rfl, rfl⟩ := h
        cases p with
        | zero =>
          simp only [List.get?_cons_zero, Option.some.injEq] at hp
          subst hp
          refine ⟨le_of_lt (not_le.mp hnle), ?_⟩
          intro heq
          rw [heq] at hnle
          exact absurd (le_refl _) hnle
        | succ p =>
          simp only [List.get?_cons_succ] at hp
          obtain ⟨h1, h2⟩ := ih p c hp
          exact ⟨h1, fun heq => Nat.succ_le_succ (h2 heq)⟩

/-- In a list whose original indices increase, an earlier position has a lower index. -/
theorem index_le_of_position_le (rem : List (ℕ × ExtrusionEntity))
    (hs : (rem.map Prod.fst).Pairwise (· < ·)) (k p : ℕ) (a b : ℕ × ExtrusionEntity)
    (hk : rem.get? k = some a) (hp : rem.get? p = some b) (hkp : k ≤ p) : a.1 ≤ b.1 := by
  rcases Nat.eq_or_lt_of_le hkp with rfl | hlt
  · rw [hk] at hp
    simp only [Option.some.injEq] at hp
    rw [hp]
  · have hk' : (rem.map Prod.fst)[k]? = some a.1 := by
      simp only [List.getElem?_map]
      rw [← List.get?_eq_getElem?, hk]
      rfl
    have hp' : (rem.map Prod.fst)[p]? = some b.1 := by
      simp only [List.getElem?_map]
      rw [← List.get?_eq_getElem?, hp]
      rfl
    have hpl : p < (rem.map Prod.fst).length := by
      by_contra hcon
      rw [List.getElem?_eq_none (not_lt.mp hcon)] at hp'
      exact absurd hp' (by simp)
    have hkl : k < (rem.map Prod.fst).length := lt_trans hlt hpl
    have := List.pairwise_iff_getElem.mp hs k p hkl hpl hlt
    rw [List.getElem?_eq_getElem hkl] at hk'
    rw [List.getElem?_eq_getElem hpl] at hp'
    simp only [Option.some.injEq] at hk' hp'
    rw [hk', hp'] at this
    exact le_of_lt this

theorem pairwise_eraseIdx (rem : List (ℕ × ExtrusionEntity)) (k : ℕ)
    (hs : (rem.map Prod.fst).Pairwise (· < ·)) :
    ((rem.eraseIdx k).map Prod.fst).Pairwise (· < ·) :=
  hs.sublist (List.Sublist.map _ (List.eraseIdx_sublist rem k))

theorem chainCandidates_sorted (c : ExtrusionEntityCollection) (role : ExtrusionRole) :
    ((c.chainCandidates role).map Prod.fst).Pairwise (· < ·) := by
  unfold ExtrusionEntityCollection.chainCandidates
  have hsub : ((c.entities.enum.filter
      (fun ie => decide (role = .erMixed ∨ ie.2.role = role))).map Prod.fst).Sublist
      (c.entities.enum.map Prod.fst) := List.Sublist.map _ (List.filter_sublist _)
  rw [List.enum_map_fst] at hsub
  exact (List.pairwise_lt_range _).sublist hsub

/-- The loop builds a greedy chain when the original indices of the remaining children
increase. -/
theorem chainLoop_greedy : ∀ (fuel : ℕ) (cur : Point) (nr : Bool)
    (rem out : List (ℕ × ExtrusionEntity)), (rem.map Prod.fst).Pairwise (· < ·) →
    chainLoop fuel cur nr rem = some out → GreedyChain nr cur rem out
  | 0, cur, _, [], out, _, h => by
    simp only [chainLoop, Option.some.injEq] at h
    subst h
    exact GreedyChain.done cur
  | 0, _, _, _ :: _, out, _, h => by simp [chainLoop] at h
  | fuel + 1, cur, _, [], out, _, h => by
    simp only [chainLoop, Option.some.injEq] at h
    subst h
    exact GreedyChain.done cur
  | fuel + 1, cur, nr, r :: rs, out, hs, h => by
    simp only [chainLoop] at h
    split at h
    · exact absurd h (by simp)
    rename_i entries hent
    split at h
    · exact absurd h (by simp)
    rename_i k d rev hnear
    split at h
    · exact absurd h (by simp)
    rename_i i e hget
    split at h
    · exact absurd h (by simp)
    rename_i next hlast
    split at h
    · exact absurd h (by simp)
    rename_i out' hrec
    simp only [Option.some.injEq] at h
    subst h
    have ih := chainLoop_greedy fuel next nr ((r :: rs).eraseIdx k) out'
      (pairwise_eraseIdx (r :: rs) k hs) hrec
    obtain ⟨c, hc1, hc2⟩ := chainEntries_get cur nr (r :: rs) entries hent k (i, e) hget
    have hkd := nearest_get entries k (d, rev) hnear
    rw [hkd] at hc1
    simp only [Option.some.injEq] at hc1
    subst hc1
    obtain ⟨q, hq1, hq2, _, hq4⟩ := chainEntry_spec cur nr e d rev hc2
    refine GreedyChain.step cur next q (r :: rs) out' k i e _ hget hq1 ?_ ?_ hlast ih
    · intro j e' q' hmem hq'
      obtain ⟨p, hp⟩ := List.mem_iff_get?.mp hmem
      obtain ⟨c', hc1', hc2'⟩ := chainEntries_get cur nr (r :: rs) entries hent p (j, e') hp
      obtain ⟨_, _, _, hmin', _⟩ := chainEntry_spec cur nr e' c'.1 c'.2 hc2'
      obtain ⟨hle, htie⟩ := nearest_min entries k (d, rev) hnear p c' hc1'
      have h1 : c'.1 ≤ cur.distSq q' := hmin' q' hq'
      rw [hq2]
      refine ⟨le_trans hle h1, ?_⟩
      intro heq
      have hc'd : c'.1 = d := le_antisymm (by rw [← heq]; exact h1) hle
      exact index_le_of_position_le (r :: rs) hs k p (i, e) (j, e') hget hp (htie hc'd)
    · rcases hq4 with ⟨hr, hf⟩ | ⟨hr, hl⟩
      · left
        subst hr
        exact ⟨by simp, hf⟩
      · right
        subst hr
        exact ⟨by simp, hl⟩

theorem zip_map_fst_snd {α β : Type} (l : List (α × β)) :
    (l.map Prod.fst).zip (l.map Prod.snd) = l := by
  induction l with
  | nil => rfl
  | cons x rest ih => simp [ih]

/-- C11: on a sortable collection the result of `chained_path_from` is a greedy chain from
`start_near` over the children that take part: every step places, among the children not
yet placed, one whose nearest admissible endpoint (first point; also last point when the
child can reverse and `no_reverse` is false) is at minimal distance from the current
position, the one with the lowest original index among those at this distance; the
current position is `start_near` at first and then the exit endpoint of the child just
placed. A result exists when every child can report its endpoints. -/
theorem chained_path_from_greedy (c : ExtrusionEntityCollection) (hsort : c.no_sort = false)
    (start_near : Point) (no_reverse : Bool) (role : ExtrusionRole) :
    (∀ r : ExtrusionEntityCollection,
      c.chained_path_from start_near no_reverse role = some r →
      GreedyChain no_reverse start_near (c.chainCandidates role)
        (r.orig_indices.zip r.entities)) ∧
    ((∀ e ∈ c.entities, e.hasEndpoints) →
      ∃ r, c.chained_path_from start_near no_reverse role = some r) := by
  constructor
  · intro r hr
    unfold ExtrusionEntityCollection.chained_path_from at hr
    rw [if_neg (by simp [hsort])] at hr
    split at hr
    · exact absurd hr (by simp)
    rename_i placed hloop
    simp only [Option.some.injEq] at hr
    subst hr
    have hzip := zip_map_fst_snd placed
    simp only
    rw [hzip]
    exact chainLoop_greedy _ start_near no_reverse _ placed (chainCandidates_sorted c role) hloop
  · intro hall
    exact chained_path_from_total c start_near no_reverse role hall

/-- Witness of C11: three paths chained from the origin. The children 0 and 1 are both at
squared distance 25 and child 0 is placed; from its exit (9,0) child 2 is nearest, by its
last point (10,0), and is placed reversed; child 1 comes last. -/
theorem chained_path_from_greedy_witness :
    (ExtrusionEntityCollection.mk
        [.path ⟨[⟨5, 0⟩, ⟨9, 0⟩], .erInfill, 1, 1, 1, true⟩,
         .path ⟨[⟨-5, 0⟩, ⟨-9, 0⟩], .erInfill, 1, 1, 1, true⟩,
         .path ⟨[⟨20, 0⟩, ⟨10, 0⟩], .erInfill, 1, 1, 1, true⟩] [] false).chained_path_from
      ⟨0, 0⟩ false .erMixed
      = some ⟨[.path ⟨[⟨5, 0⟩, ⟨9, 0⟩], .erInfill, 1, 1, 1, true⟩,
               .path ⟨[⟨10, 0⟩, ⟨20, 0⟩], .erInfill, 1, 1, 1, true⟩,
               .path ⟨[⟨-5, 0⟩, ⟨-9, 0⟩], .erInfill, 1, 1, 1, true⟩], [0, 2, 1], false⟩ ∧
    GreedyChain false ⟨0, 0⟩
      ((ExtrusionEntityCollection.mk
        [.path ⟨[⟨5, 0⟩, ⟨9, 0⟩], .erInfill, 1, 1, 1, true⟩,
         .path ⟨[⟨-5, 0⟩, ⟨-9, 0⟩], .erInfill, 1, 1, 1, true⟩,
         .path ⟨[⟨20, 0⟩, ⟨10, 0⟩], .erInfill, 1, 1, 1, true⟩] [] false).chainCandidates
        .erMixed)
      [(0, .path ⟨[⟨5, 0⟩, ⟨9, 0⟩], .erInfill, 1, 1, 1, true⟩),
       (2, .path ⟨[⟨10, 0⟩, ⟨20, 0⟩], .erInfill, 1, 1, 1, true⟩),
       (1, .path ⟨[⟨-5, 0⟩, ⟨-9, 0⟩], .erInfill, 1, 1, 1, true⟩)] :=
  ⟨rfl,
    (chained_path_from_greedy
      ⟨[.path ⟨[⟨5, 0⟩, ⟨9, 0⟩], .erInfill, 1, 1, 1, true⟩,
        .path ⟨[⟨-5, 0⟩, ⟨-9, 0⟩], .erInfill, 1, 1, 1, true⟩,
        .path ⟨[⟨20, 0⟩, ⟨10, 0⟩], .erInfill, 1, 1, 1, true⟩], [], false⟩ rfl
      ⟨0, 0⟩ false .erMixed).1
      ⟨[.path ⟨[⟨5, 0⟩, ⟨9, 0⟩], .erInfill, 1, 1, 1, true⟩,
        .path ⟨[⟨10, 0⟩, ⟨20, 0⟩], .erInfill, 1, 1, 1, true⟩,
        .path ⟨[⟨-5, 0⟩, ⟨-9, 0⟩], .erInfill, 1, 1, 1, true⟩], [0, 2, 1], false⟩ rfl⟩

/-! ## Further claims on `Line::intersection` -/

theorem dirCross_zero_length (l1 l2 : Line) (hz : l1.a = l1.b ∨ l2.a = l2.b) :
    l1.dirCross l2 = 0 := by
  rcases hz with h | h <;> simp [Line.dirCross, h]

/-- With a zero cross product `intersection_infinite` reports nothing and keeps the output
point. -/
theorem intersection_infinite_parallel_eq (EPSILON : ℚ) (hpos : 0 < EPSILON) (l1 l2 : Line)
    (out : Point) (hpar : l1.dirCross l2 = 0) :
    l1.intersection_infinite EPSILON l2 out = (false, out) := by
  have hd := cross2_dirs l1 l2
  unfold Line.intersection_infinite
  simp only [hd, hpar, Int.cast_zero, abs_zero, hpos, if_true]

theorem dirCross_swap (l1 l2 : Line) : l2.dirCross l1 = -l1.dirCross l2 := by
  simp only [Line.dirCross]
  ring

theorem param1_swap (l1 l2 : Line) : l2.param1 l1 = l1.param2 l2 := by
  simp only [Line.param1, Line.param2, dirCross_swap l1 l2]
  rw [Int.cast_neg, div_neg, ← neg_div]
  congr 1
  rw [← Int.cast_neg]
  congr 1
  ring

theorem param2_swap (l1 l2 : Line) : l2.param2 l1 = l1.param1 l2 := by
  simp only [Line.param1, Line.param2, dirCross_swap l1 l2]
  rw [Int.cast_neg, div_neg, ← neg_div]
  congr 1
  rw [← Int.cast_neg]
  congr 1
  ring

theorem castCoordReal_ratCast (q : ℚ) : castCoordReal (q : ℝ) = castCoord q := by
  unfold castCoordReal castCoord
  by_cases h : 0 ≤ q
  · have h' : (0 : ℝ) ≤ (q : ℝ) := by exact_mod_cast h
    rw [if_pos h, if_pos h', Rat.floor_cast]
  · have h' : ¬ (0 : ℝ) ≤ (q : ℝ) := by exact_mod_cast h
    rw [if_neg h, if_neg h', Rat.ceil_cast]

/-- C28: if either segment has zero length, `intersection` and `intersection_infinite`
report no intersection and leave the output point as it was, wherever the single point
lies. -/
theorem intersection_zero_length_none (EPSILON : ℚ) (hpos : 0 < EPSILON) (l1 l2 : Line)
    (out : Point) (hz : l1.a = l1.b ∨ l2.a = l2.b) :
    l1.intersection EPSILON l2 out = (false, out) ∧
    l1.intersection_infinite EPSILON l2 out = (false, out) :=
  ⟨intersection_parallel_eq EPSILON hpos l1 l2 out (dirCross_zero_length l1 l2 hz),
    intersection_infinite_parallel_eq EPSILON hpos l1 l2 out (dirCross_zero_length l1 l2 hz)⟩

/-- Witness of C28: the point (5,0) lies on the segment (0,0)-(10,0), and neither function
reports an intersection of (5,0)-(5,0) with that segment. -/
theorem intersection_zero_length_none_witness :
    (0 : ℚ) < 1 / 10000 ∧
    ((Line.mk ⟨5, 0⟩ ⟨5, 0⟩).a = (Line.mk ⟨5, 0⟩ ⟨5, 0⟩).b ∨
      (Line.mk ⟨0, 0⟩ ⟨10, 0⟩).a = (Line.mk ⟨0, 0⟩ ⟨10, 0⟩).b) ∧
    Line.contains ⟨⟨0, 0⟩, ⟨10, 0⟩⟩ 5 0 ∧
    Line.intersection (1 / 10000) ⟨⟨5, 0⟩, ⟨5, 0⟩⟩ ⟨⟨0, 0⟩, ⟨10, 0⟩⟩ ⟨7, 7⟩ = (false, ⟨7, 7⟩) ∧
    Line.intersection_infinite (1 / 10000) ⟨⟨5, 0⟩, ⟨5, 0⟩⟩ ⟨⟨0, 0⟩, ⟨10, 0⟩⟩ ⟨7, 7⟩
      = (false, ⟨7, 7⟩) :=
  ⟨by norm_num, Or.inl rfl, ⟨1 / 2, by norm_num, by norm_num, by norm_num, by norm_num⟩,
    intersection_zero_length_none (1 / 10000) (by norm_num) ⟨⟨5, 0⟩, ⟨5, 0⟩⟩
      ⟨⟨0, 0⟩, ⟨10, 0⟩⟩ ⟨7, 7⟩ (Or.inl rfl)⟩

/-- The rounding `binary64` is odd. -/
theorem binary64_neg (q : ℚ) : binary64 (-q) = -binary64 q := by
  unfold binary64
  rcases lt_trichotomy q 0 with h | h | h
  · have h1 : ¬ -q = 0 := by intro h0; linarith [neg_eq_zero.mp h0]
    have h2 : (0 : ℚ) < -q := by linarith
    have h3 : ¬ q = 0 := ne_of_lt h
    have h4 : ¬ (0 : ℚ) < q := not_lt.mpr (le_of_lt h)
    simp only [h1, h2, h3, h4, if_true, if_false, Rat.neg_num, Rat.neg_den, Int.natAbs_neg,
      neg_neg]
  · subst h
    simp
  · have h1 : ¬ -q = 0 := by intro h0; linarith [neg_eq_zero.mp h0]
    have h2 : ¬ (0 : ℚ) < -q := by linarith
    have h3 : ¬ q = 0 := ne_of_gt h
    simp only [h1, h2, h3, h, if_true, if_false, Rat.neg_num, Rat.neg_den, Int.natAbs_neg]

/-- With an odd rounding of every operation, `intersection` reports a point for `(l1, l2)`
exactly when it does for `(l2, l1)`: the denominator changes its sign and the two
parameters are exchanged. -/
theorem intersectionRounded_reports_symm (fl : ℚ → ℚ) (hodd : ∀ x, fl (-x) = -fl x)
    (EPSILON : ℚ) (l1 l2 : Line) (out1 out2 : Point) :
    (l1.intersectionRounded fl EPSILON l2 out1).1
      = (l2.intersectionRounded fl EPSILON l1 out2).1 := by
  have hsw : ∀ x y : ℚ, fl (x - y) = -fl (y - x) := by
    intro x y
    rw [← hodd, neg_sub]
  have hx : fl ((l2.a - l1.a).x : ℤ) = -fl ((l1.a - l2.a).x : ℤ) := by
    rw [← hodd]
    congr 1
    show (((Point.sub l2.a l1.a).x : ℤ) : ℚ) = -(((Point.sub l1.a l2.a).x : ℤ) : ℚ)
    simp only [Point.sub]
    push_cast
    ring
  have hy : fl ((l2.a - l1.a).y : ℤ) = -fl ((l1.a - l2.a).y : ℤ) := by
    rw [← hodd]
    congr 1
    show (((Point.sub l2.a l1.a).y : ℤ) : ℚ) = -(((Point.sub l1.a l2.a).y : ℤ) : ℚ)
    simp only [Point.sub]
    push_cast
    ring
  unfold Line.intersectionRounded
  simp only [hx, hy, mul_neg, hodd, sub_neg_eq_add]
  generalize fl ((l1.b - l1.a).x : ℤ) = v1x
  generalize fl ((l1.b - l1.a).y : ℤ) = v1y
  generalize fl ((l2.b - l2.a).x : ℤ) = v2x
  generalize fl ((l2.b - l2.a).y : ℤ) = v2y
  generalize fl ((l1.a - l2.a).x : ℤ) = wx
  generalize fl ((l1.a - l2.a).y : ℤ) = wy
  have hden : fl (fl (v2x * v1y) - fl (v2y * v1x)) = -fl (fl (v1x * v2y) - fl (v1y * v2x)) := by
    rw [hsw, mul_comm v2x v1y, mul_comm v2y v1x]
  have hna : fl (-fl (v1x * wy) + fl (v1y * wx)) = -fl (fl (v1x * wy) - fl (v1y * wx)) := by
    have he : -fl (v1x * wy) + fl (v1y * wx) = -(fl (v1x * wy) - fl (v1y * wx)) := by ring
    rw [he, hodd]
  have hnb : fl (-fl (v2x * wy) + fl (v2y * wx)) = -fl (fl (v2x * wy) - fl (v2y * wx)) := by
    have he : -fl (v2x * wy) + fl (v2y * wx) = -(fl (v2x * wy) - fl (v2y * wx)) := by ring
    rw [he, hodd]
  rw [hden, hna, hnb, abs_neg, neg_div_neg_eq, neg_div_neg_eq]
  by_cases hd : |fl (fl (v1x * v2y) - fl (v1y * v2x))| < EPSILON
  · simp only [hd, if_true]
  · simp only [hd, if_false]
    by_cases hp : 0 ≤ fl (fl (fl (v2x * wy) - fl (v2y * wx)) / fl (fl (v1x * v2y) - fl (v1y * v2x)))
        ∧ fl (fl (fl (v2x * wy) - fl (v2y * wx)) / fl (fl (v1x * v2y) - fl (v1y * v2x))) ≤ 1
        ∧ 0 ≤ fl (fl (fl (v1x * wy) - fl (v1y * wx)) / fl (fl (v1x * v2y) - fl (v1y * v2x)))
        ∧ fl (fl (fl (v1x * wy) - fl (v1y * wx)) / fl (fl (v1x * v2y) - fl (v1y * v2x))) ≤ 1
    · have hp' := And.intro hp.2.2.1 (And.intro hp.2.2.2 (And.intro hp.1 hp.2.1))
      rw [if_pos hp, if_pos hp']
    · have hp' : ¬ (0 ≤ fl (fl (fl (v1x * wy) - fl (v1y * wx)) / fl (fl (v1x * v2y) - fl (v1y * v2x)))
          ∧ fl (fl (fl (v1x * wy) - fl (v1y * wx)) / fl (fl (v1x * v2y) - fl (v1y * v2x))) ≤ 1
          ∧ 0 ≤ fl (fl (fl (v2x * wy) - fl (v2y * wx)) / fl (fl (v1x * v2y) - fl (v1y * v2x)))
          ∧ fl (fl (fl (v2x * wy) - fl (v2y * wx)) / fl (fl (v1x * v2y) - fl (v1y * v2x))) ≤ 1) :=
        fun h => hp ⟨h.2.2.1, h.2.2.2, h.1, h.2.1⟩
      rw [if_neg hp, if_neg hp']

/-- C26: `intersection` is symmetric in its two segments: `l1.intersection(l2)` reports a
point if and only if `l2.intersection(l1)` does, and (doubles read as exact numbers) both
report the same point. The two calls also agree on whether a point is reported when every
operation on doubles is rounded to binary64. -/
theorem intersection_symmetric (EPSILON : ℚ) (hpos : 0 < EPSILON) (hle : EPSILON ≤ 1)
    (l1 l2 : Line) (out1 out2 : Point) :
    ((l1.intersection EPSILON l2 out1).1 = true ↔ (l2.intersection EPSILON l1 out2).1 = true) ∧
    (∀ Q : Point, l1.intersection EPSILON l2 out1 = (true, Q) ↔
      l2.intersection EPSILON l1 out2 = (true, Q)) ∧
    ((l1.intersectionRounded binary64 EPSILON l2 out1).1 = true ↔
      (l2.intersectionRounded binary64 EPSILON l1 out2).1 = true) := by
  have hexact : ((l1.intersection EPSILON l2 out1).1 = true ↔
        (l2.intersection EPSILON l1 out2).1 = true) ∧
      (∀ Q : Point, l1.intersection EPSILON l2 out1 = (true, Q) ↔
        l2.intersection EPSILON l1 out2 = (true, Q)) := by
    rw [intersection_eq EPSILON hpos hle l1 l2, intersection_eq EPSILON hpos hle l2 l1,
      param1_swap l1 l2, param2_swap l1 l2, dirCross_swap l1 l2]
    by_cases hD : l1.dirCross l2 = 0
    · simp [hD]
    have hD' : ¬ -l1.dirCross l2 = 0 := by simpa using hD
    obtain ⟨hx, hy⟩ := params_common_point l1 l2 hD
    by_cases hp : 0 ≤ l1.param1 l2 ∧ l1.param1 l2 ≤ 1 ∧ 0 ≤ l1.param2 l2 ∧ l1.param2 l2 ≤ 1
    · have hp' : 0 ≤ l1.param2 l2 ∧ l1.param2 l2 ≤ 1 ∧ 0 ≤ l1.param1 l2 ∧ l1.param1 l2 ≤ 1 :=
        ⟨hp.2.2.1, hp.2.2.2, hp.1, hp.2.1⟩
      simp only [hD, hD', hp, hp', if_false, if_true, and_self, hx, hy, true_and, iff_self,
        implies_true]
    · have hp' : ¬ (0 ≤ l1.param2 l2 ∧ l1.param2 l2 ≤ 1 ∧ 0 ≤ l1.param1 l2 ∧
          l1.param1 l2 ≤ 1) :=
        fun h => hp ⟨h.2.2.1, h.2.2.2, h.1, h.2.1⟩
      simp [hD, hp, hp']
  refine ⟨hexact.1, hexact.2, ?_⟩
  rw [intersectionRounded_reports_symm binary64 binary64_neg EPSILON l1 l2 out1 out2]

/-- Witness of C26 with `EPSILON = 1e-4`: the segments (0,0)-(4,0) and (1,-1)-(2,2) report
the point (1,0) in both orders. -/
theorem intersection_symmetric_witness :
    (0 : ℚ) < 1 / 10000 ∧ (1 / 10000 : ℚ) ≤ 1 ∧
    Line.intersection (1 / 10000) ⟨⟨0, 0⟩, ⟨4, 0⟩⟩ ⟨⟨1, -1⟩, ⟨2, 2⟩⟩ ⟨7, 7⟩ = (true, ⟨1, 0⟩) ∧
    Line.intersection (1 / 10000) ⟨⟨1, -1⟩, ⟨2, 2⟩⟩ ⟨⟨0, 0⟩, ⟨4, 0⟩⟩ ⟨8, 8⟩ = (true, ⟨1, 0⟩) :=
  ⟨by norm_num, by norm_num, by decide!,
    ((intersection_symmetric (1 / 10000) (by norm_num) (by norm_num)
      ⟨⟨0, 0⟩, ⟨4, 0⟩⟩ ⟨⟨1, -1⟩, ⟨2, 2⟩⟩ ⟨7, 7⟩ ⟨8, 8⟩).2.1 ⟨1, 0⟩).mp (by decide!)⟩

theorem castCoordReal_abs_le (x : ℝ) : |((castCoordReal x : ℤ) : ℝ)| ≤ |x| := by
  unfold castCoordReal
  by_cases h : 0 ≤ x
  · rw [if_pos h, abs_of_nonneg h, abs_of_nonneg (by exact_mod_cast Int.floor_nonneg.mpr h)]
    exact Int.floor_le x
  · have hx : x < 0 := lt_of_not_le h
    have hc : ⌈x⌉ ≤ 0 := Int.ceil_le.mpr (by simpa using le_of_lt hx)
    have hc' : ((⌈x⌉ : ℤ) : ℝ) ≤ 0 := by exact_mod_cast hc
    rw [if_neg h, abs_of_neg hx, abs_of_nonpos hc']
    have := Int.le_ceil x
    linarith

/-! ## The cases of `distance_to_squared` -/

theorem distSq_other_end (p a b : Point) :
    p.distSq b = p.distSq a - 2 * dotAt p a b + b.distSq a := by
  simp only [Point.distSq, dotAt]
  ring

/-- The three cases of `distance_to_squared` on a segment with distinct endpoints, in terms
of the dot product `(p - a) . (b - a)`. -/
theorem distance_to_squared_cases (p a b : Point) (hab : a ≠ b) :
    Line.distance_to_squared p a b =
      if dotAt p a b < 0 then ((p.distSq a : ℤ) : ℚ)
      else if b.distSq a < dotAt p a b then ((p.distSq b : ℤ) : ℚ)
      else ((p.distSq a : ℤ) : ℚ) - ((dotAt p a b : ℤ) : ℚ) ^ 2 / ((b.distSq a : ℤ) : ℚ) := by
  have hpos : 0 < b.distSq a := distSq_pos_of_ne a b hab
  have hL : ((b.distSq a : ℤ) : ℚ) ≠ 0 := by exact_mod_cast ne_of_gt hpos
  rw [distance_to_squared_eq, if_neg (ne_of_gt hpos)]
  simp only [projParam_neg_iff p a b hpos, one_lt_projParam_iff p a b hpos]
  by_cases h1 : dotAt p a b < 0
  · simp only [h1, if_true]
  by_cases h2 : b.distSq a < dotAt p a b
  · simp only [h1, h2, if_true, if_false]
  simp only [h1, h2, if_false]
  have hLe : ((b.distSq a : ℤ) : ℚ) = ((b.x : ℚ) - a.x) ^ 2 + ((b.y : ℚ) - a.y) ^ 2 := by
    simp only [Point.distSq]; push_cast; ring
  unfold projParam
  rw [hLe] at hL ⊢
  simp only [Point.distSq, dotAt]
  push_cast
  field_simp
  ring

/-! ## Claims on `Line::orientation` and `Line::direction` -/

theorem Point.eq_of_coords (p q : Point) (hx : p.x = q.x) (hy : p.y = q.y) : p = q := by
  cases p
  cases q
  simp only at hx hy
  rw [hx, hy]

theorem length_ne_zero (l : Line) (h : l.a ≠ l.b) : l.length ≠ 0 := by
  have hpos : (0 : ℝ) < ((l.b.distSq l.a : ℤ) : ℝ) := by
    exact_mod_cast distSq_pos_of_ne l.a l.b h
  unfold Line.length
  rw [norm_sub_castDouble]
  exact ne_of_gt (Real.sqrt_pos.mpr hpos)

/-- The `atan2` angle is an angle of the vector `b - a`: the vector is the length of the
segment times the unit vector of that angle. -/
theorem atan2_polar (l : Line) :
    ((l.b.x : ℝ) - l.a.x) = l.length * Real.cos l.atan2_ ∧
    ((l.b.y : ℝ) - l.a.y) = l.length * Real.sin l.atan2_ := by
  have hlen : l.length
      = Complex.abs ⟨((l.b.x - l.a.x : ℤ) : ℝ), ((l.b.y - l.a.y : ℤ) : ℝ)⟩ := by
    unfold Line.length
    rw [norm_sub_castDouble, Complex.abs_apply, Complex.normSq_mk]
    congr 1
    simp only [Point.distSq]
    push_cast
    ring
  have h := Complex.abs_mul_cos_add_sin_mul_I
    ⟨((l.b.x - l.a.x : ℤ) : ℝ), ((l.b.y - l.a.y : ℤ) : ℝ)⟩
  have hre := congrArg Complex.re h
  have him := congrArg Complex.im h
  simp only [Complex.mul_re, Complex.mul_im, Complex.add_re, Complex.add_im,
    Complex.ofReal_re, Complex.ofReal_im, Complex.I_re, Complex.I_im, mul_zero, mul_one,
    sub_zero, add_zero, zero_mul, zero_add, ← Complex.ofReal_cos, ← Complex.ofReal_sin]
    at hre him
  unfold Line.atan2_
  rw [hlen]
  constructor
  · rw [hre]; push_cast; ring
  · rw [him]; push_cast; ring

/-- C22: for every segment, `orientation()` lies in `[0, 2π)`: it is the `atan2` angle of
`b - a` when that is non-negative and the angle plus `2π` when it is negative; in both
cases it is an angle of the vector `b - a`. -/
theorem orientation_range (l : Line) :
    0 ≤ l.orientation ∧ l.orientation < 2 * Real.pi ∧
    (0 ≤ l.atan2_ → l.orientation = l.atan2_) ∧
    (l.atan2_ < 0 → l.orientation = l.atan2_ + 2 * Real.pi) ∧
    ((l.b.x : ℝ) - l.a.x) = l.length * Real.cos l.orientation ∧
    ((l.b.y : ℝ) - l.a.y) = l.length * Real.sin l.orientation := by
  have hle : l.atan2_ ≤ Real.pi := Complex.arg_le_pi _
  have hgt : -Real.pi < l.atan2_ := Complex.neg_pi_lt_arg _
  have hpi : 0 < Real.pi := Real.pi_pos
  obtain ⟨hc, hs⟩ := atan2_polar l
  simp only [Line.orientation]
  by_cases h : l.atan2_ < 0
  · rw [if_pos h, add_comm (2 * Real.pi), Real.cos_add_two_pi, Real.sin_add_two_pi]
    exact ⟨by linarith, by linarith, fun h0 => absurd h (not_lt.mpr h0), fun _ => rfl, hc, hs⟩
  · rw [if_neg h]
    exact ⟨not_lt.mp h, by linarith, fun _ => rfl, fun h0 => absurd h0 h, hc, hs⟩

/-- The first two blocks of `normalize` leave `spiral_vase` and
`support_material_enforce_layers` as they are. -/
theorem normalize_extruder_frame (c : DynamicPrintConfig) :
    c.normalize_extruder.spiral_vase = c.spiral_vase ∧
    c.normalize_extruder.support_material_enforce_layers
      = c.support_material_enforce_layers := by
  unfold DynamicPrintConfig.normalize_extruder
  cases c.extruder with
  | none => exact ⟨rfl, rfl⟩
  | some e =>
    simp only
    split_ifs <;> exact ⟨rfl, rfl⟩

theorem normalize_solid_infill_frame (c : DynamicPrintConfig) :
    c.normalize_solid_infill.spiral_vase = c.spiral_vase ∧
    c.normalize_solid_infill.support_material_enforce_layers
      = c.support_material_enforce_layers := by
  unfold DynamicPrintConfig.normalize_solid_infill
  split <;> exact ⟨rfl, rfl⟩

/-- With `spiral_vase` true and no option `support_material_enforce_layers`, `normalize`
writes through a null pointer. -/
theorem normalize_enforce_layers_absent (c : DynamicPrintConfig)
    (hsv : c.spiral_vase = some true) (habs : c.support_material_enforce_layers = none) :
    c.normalize = .undefined := by
  have h1 := normalize_extruder_frame c
  have h2 := normalize_solid_infill_frame c.normalize_extruder
  have hsv2 : c.normalize_extruder.normalize_solid_infill.spiral_vase = some true := by
    rw [h2.1, h1.1, hsv]
  have habs2 : c.normalize_extruder.normalize_solid_infill.support_material_enforce_layers
      = none := by
    rw [h2.2, h1.2, habs]
  unfold DynamicPrintConfig.normalize DynamicPrintConfig.normalize_spiral_vase
  simp only [hsv2, habs2, if_true]

/-- C29: for every `DynamicPrintConfig` in which `spiral_vase` is true and
`support_material_enforce_layers` is present, `normalize()` returns, and afterwards
`spiral_vase` is still true, `perimeters = 1`, `fill_density = 0`, `top_solid_layers = 0`,
`support_material = false`, `support_material_enforce_layers = 0`, `infill_dense = false`
and `extra_perimeters = false`, so that the spiral-vase block of `validate` returns none of
its error messages. -/
theorem normalize_spiral_vase_valid (c : DynamicPrintConfig)
    (hsv : c.spiral_vase = some true)
    (hpresent : c.support_material_enforce_layers.isSome = true) :
    ∃ c' : DynamicPrintConfig, c.normalize = .value c' ∧
      c'.spiral_vase = some true ∧ c'.perimeters = some 1 ∧ c'.fill_density = some 0 ∧
      c'.top_solid_layers = some 0 ∧ c'.support_material = some false ∧
      c'.support_material_enforce_layers = some 0 ∧ c'.infill_dense = some false ∧
      c'.extra_perimeters = some false ∧
      (FullPrintConfig.defaults.apply c').spiral_vase = true ∧
      c'.validate_spiral_vase = none := by
  obtain ⟨n, hn⟩ := Option.isSome_iff_exists.mp hpresent
  have h1 := normalize_extruder_frame c
  have h2 := normalize_solid_infill_frame c.normalize_extruder
  have hsv2 : c.normalize_extruder.normalize_solid_infill.spiral_vase = some true := by
    rw [h2.1, h1.1, hsv]
  have hn2 : c.normalize_extruder.normalize_solid_infill.support_material_enforce_layers
      = some n := by
    rw [h2.2, h1.2, hn]
  unfold DynamicPrintConfig.normalize DynamicPrintConfig.normalize_spiral_vase
  simp only [hsv2, hn2, if_true]
  refine ⟨_, rfl, rfl, rfl, rfl, rfl, rfl, rfl, rfl, rfl, rfl, ?_⟩
  simp [DynamicPrintConfig.validate_spiral_vase, FullPrintConfig.apply,
      FullPrintConfig.validate_spiral_vase]

/-- Witness of C29: the sample configuration fails the spiral-vase checks before
`normalize()` and passes them after it. -/
theorem normalize_spiral_vase_valid_witness :
    spiralVaseSample.spiral_vase = some true ∧
    spiralVaseSample.support_material_enforce_layers.isSome = true ∧
    spiralVaseSample.validate_spiral_vase
      = some "Can't make more than one perimeter when spiral vase mode is enabled" ∧
    ∃ c' : DynamicPrintConfig, spiralVaseSample.normalize = .value c' ∧
      c'.perimeters = some 1 ∧ c'.validate_spiral_vase = none :=
  ⟨rfl, rfl, by decide,
    (normalize_spiral_vase_valid spiralVaseSample rfl rfl).imp
      (fun _ h => ⟨h.1, h.2.2.1, h.2.2.2.2.2.2.2.2.2.2⟩)⟩

/-! ## Claim on `PrintConfigDef::handle_legacy` -/

/-- The function on some keys: a legacy key is renamed, an obsolete key and an unknown key
are emptied, a defined key is kept. -/
theorem handle_legacy_samples :
    PrintConfigDef.handle_legacy legacySample "bed_size" "200,200"
      = ("bed_shape", "0x0,0x0,0x0,0x0") ∧
    PrintConfigDef.handle_legacy legacySample "bottom_layer_speed_ratio" "x"
      = ("first_layer_speed", "0") ∧
    PrintConfigDef.handle_legacy legacySample "randomize_start" "1"
      = ("seam_position", "random") ∧
    PrintConfigDef.handle_legacy legacySample "randomize_start" "0" = ("", "0") ∧
    PrintConfigDef.handle_legacy legacySample "bed_size" "" = ("", "") ∧
    PrintConfigDef.handle_legacy legacySample "octoprint_host" "h" = ("", "h") ∧
    PrintConfigDef.handle_legacy legacySample "perimeters" "2" = ("perimeters", "2") := by
  refine ⟨by decide, by decide, by decide, by decide, by decide, by decide, by decide⟩

/-- C30: for every input `(opt_key, value)`, after `handle_legacy` the key is either the
empty string or a key that `print_config_def` defines and that is not in the list of
obsolete keys. -/
theorem handle_legacy_key (ctx : LegacyContext) (opt_key value : String) :
    (PrintConfigDef.handle_legacy ctx opt_key value).1 = "" ∨
    (ctx.has (PrintConfigDef.handle_legacy ctx opt_key value).1 = true ∧
      (PrintConfigDef.handle_legacy ctx opt_key value).1
        ∉ ignore ctx.HAS_PRESSURE_EQUALIZER) := by
  unfold PrintConfigDef.handle_legacy
  simp only
  by_cases h1 : (handle_legacy_options ctx opt_key value).1 ∈ ignore ctx.HAS_PRESSURE_EQUALIZER
  · left
    rw [if_pos h1]
  · by_cases h2 : ctx.has (handle_legacy_options ctx opt_key value).1 = true
    · right
      rw [if_neg h1, if_neg (by simpa using h2)]
      exact ⟨h2, h1⟩
    · left
      rw [if_neg h1, if_pos (by simpa using h2)]

/-! # The functions of `Line.cpp` as computed in doubles -/

theorem abs_sub_lt_real (q r b : ℚ) (h : |q - r| < b) : |(q : ℝ) - (r : ℝ)| < (b : ℝ) := by
  have h' : ((|q - r| : ℚ) : ℝ) < (b : ℝ) := by exact_mod_cast h
  rwa [Rat.cast_abs, Rat.cast_sub] at h'

theorem abs_sub_le_real (q r b : ℚ) (h : |q - r| ≤ b) : |(q : ℝ) - (r : ℝ)| ≤ (b : ℝ) := by
  have h' : ((|q - r| : ℚ) : ℝ) ≤ (b : ℝ) := by exact_mod_cast h
  rwa [Rat.cast_abs, Rat.cast_sub] at h'

/-! ## Lemmas on the rounding `binary64` -/

theorem log2Steps_eq_log : ∀ (fuel n : ℕ), n ≤ fuel → log2Steps fuel n = Nat.log 2 n
  | 0, n, h => by
    have h0 : n = 0 := Nat.le_zero.mp h
    subst h0
    simp [log2Steps]
  | fuel + 1, n, h => by
    by_cases h2 : 2 ≤ n
    · have hlt : n / 2 ≤ fuel := by omega
      simp only [log2Steps, if_pos h2]
      rw [Nat.log_of_one_lt_of_le (by norm_num) h2, log2Steps_eq_log fuel (n / 2) hlt]
    · simp only [log2Steps, if_neg h2]
      rw [Nat.log_of_lt (by omega)]

theorem log2Floor_eq_log (n : ℕ) : log2Floor n = Nat.log 2 n :=
  log2Steps_eq_log n n le_rfl

theorem roundHalfEven_cases (N D : ℕ) :
    (roundHalfEven N D = N / D ∧ 2 * (N % D) ≤ D) ∨
    (roundHalfEven N D = N / D + 1 ∧ D ≤ 2 * (N % D)) := by
  unfold roundHalfEven
  simp only
  by_cases h1 : 2 * (N % D) < D
  · left; rw [if_pos h1]; exact ⟨rfl, le_of_lt h1⟩
  · by_cases h2 : D < 2 * (N % D)
    · right; rw [if_neg h1, if_pos h2]; exact ⟨rfl, le_of_lt h2⟩
    · have he : 2 * (N % D) = D := by omega
      rw [if_neg h1, if_neg h2]
      by_cases h3 : N / D % 2 = 0
      · left; rw [if_pos h3]; exact ⟨rfl, le_of_eq he⟩
      · right; rw [if_neg h3]; exact ⟨rfl, le_of_eq he.symm⟩

/-- The rounded quotient is within one half of the quotient. -/
theorem roundHalfEven_error (N D : ℕ) (hD : 0 < D) :
    |(roundHalfEven N D : ℚ) - (N : ℚ) / D| ≤ 1 / 2 := by
  have hDq : (0 : ℚ) < D := by exact_mod_cast hD
  have hN : (N : ℚ) = (D : ℚ) * ((N / D : ℕ) : ℚ) + ((N % D : ℕ) : ℚ) := by
    exact_mod_cast (Nat.div_add_mod N D).symm
  have hq : (N : ℚ) / D = ((N / D : ℕ) : ℚ) + ((N % D : ℕ) : ℚ) / D := by
    rw [hN]; field_simp; ring
  have hlt : ((N % D : ℕ) : ℚ) < D := by exact_mod_cast Nat.mod_lt N hD
  rcases roundHalfEven_cases N D with ⟨h, h2⟩ | ⟨h, h2⟩
  · have h2q : 2 * ((N % D : ℕ) : ℚ) ≤ D := by exact_mod_cast h2
    rw [h, hq, abs_le]
    have hfrac : ((N % D : ℕ) : ℚ) / D ≤ 1 / 2 := by
      rw [div_le_iff₀ hDq]; linarith
    have hfrac0 : 0 ≤ ((N % D : ℕ) : ℚ) / D := by positivity
    constructor <;> linarith
  · have h2q : (D : ℚ) ≤ 2 * ((N % D : ℕ) : ℚ) := by exact_mod_cast h2
    rw [h, hq, abs_le]
    have hfrac : 1 / 2 ≤ ((N % D : ℕ) : ℚ) / D := by
      rw [le_div_iff₀ hDq]; linarith
    have hfrac1 : ((N % D : ℕ) : ℚ) / D < 1 := by
      rw [div_lt_iff₀ hDq]; linarith
    push_cast
    constructor <;> linarith

/-- The rounded quotient stays between integer bounds of the quotient. -/
theorem roundHalfEven_bounds (N D a b : ℕ) (hD : 0 < D) (ha : a * D ≤ N) (hb : N ≤ b * D) :
    a ≤ roundHalfEven N D ∧ roundHalfEven N D ≤ b := by
  have hm : a ≤ N / D := (Nat.le_div_iff_mul_le hD).mpr ha
  have hdm := Nat.div_add_mod N D
  have hmb : N / D ≤ b := by
    have : N / D * D ≤ b * D := le_trans (Nat.div_mul_le_self N D) hb
    exact Nat.le_of_mul_le_mul_right this hD
  rcases roundHalfEven_cases N D with ⟨h, _⟩ | ⟨h, h2⟩
  · rw [h]; exact ⟨hm, hmb⟩
  · rw [h]
    refine ⟨Nat.le_succ_of_le hm, ?_⟩
    have hr : 0 < N % D := by omega
    by_contra hc
    have hbm : b ≤ N / D := by omega
    have h1 : b * D ≤ N / D * D := Nat.mul_le_mul_right D hbm
    have h2' : D * (N / D) = N / D * D := Nat.mul_comm _ _
    omega

/-- An exact quotient is not changed. -/
theorem roundHalfEven_exact (k D : ℕ) (hD : 0 < D) : roundHalfEven (k * D) D = k := by
  have hdiv : k * D / D = k := Nat.mul_div_cancel k hD
  have hmod : k * D % D = 0 := Nat.mul_mod_left k D
  rcases roundHalfEven_cases (k * D) D with ⟨h, _⟩ | ⟨_, h2⟩
  · rw [h, hdiv]
  · rw [hmod] at h2; omega

theorem two_zpow_split (e : ℤ) : (2 : ℚ) ^ e = 2 ^ e.toNat / 2 ^ (-e).toNat := by
  rcases le_total 0 e with h | h
  · obtain ⟨k, rfl⟩ := Int.eq_ofNat_of_zero_le h
    simp
  · obtain ⟨k, rfl⟩ := Int.exists_eq_neg_ofNat h
    simp [zpow_neg]

/-- The rounding of a positive quotient: with `L` the binary exponent of the quotient, the
result is an integer of `[2^52, 2^53]` times `2^(L - 52)`, and that integer is the scaled
quotient rounded. -/
theorem binary64Pos_spec (n d : ℕ) (hn : 0 < n) (hd : 0 < d) :
    ∃ (L : ℤ) (r : ℕ), (2 : ℚ) ^ L ≤ (n : ℚ) / d ∧ (n : ℚ) / d < 2 ^ (L + 1) ∧
      binary64Pos n d = (r : ℚ) * 2 ^ (L - 52) ∧ 2 ^ 52 ≤ r ∧ r ≤ 2 ^ 53 ∧
      |(r : ℚ) - (n : ℚ) / d / 2 ^ (L - 52)| ≤ 1 / 2 ∧
      (∀ k : ℕ, (n : ℚ) / d / 2 ^ (L - 52) = k → r = k) := by
  have hnq : (0 : ℚ) < n := by exact_mod_cast hn
  have hdq : (0 : ℚ) < d := by exact_mod_cast hd
  have hn1 : ((2 : ℚ) ^ (Nat.log 2 n)) ≤ n := by
    exact_mod_cast Nat.pow_log_le_self 2 (ne_of_gt hn)
  have hn2 : (n : ℚ) < (2 : ℚ) ^ (Nat.log 2 n + 1) := by
    exact_mod_cast Nat.lt_pow_succ_log_self (by norm_num) n
  have hd1 : ((2 : ℚ) ^ (Nat.log 2 d)) ≤ d := by
    exact_mod_cast Nat.pow_log_le_self 2 (ne_of_gt hd)
  have hd2 : (d : ℚ) < (2 : ℚ) ^ (Nat.log 2 d + 1) := by
    exact_mod_cast Nat.lt_pow_succ_log_self (by norm_num) d
  have h2 : (2 : ℚ) ≠ 0 := by norm_num
  -- the exponent estimate
  obtain ⟨E, hE⟩ : ∃ E : ℤ, E = (log2Floor n : ℤ) - (log2Floor d : ℤ) := ⟨_, rfl⟩
  have hEpow : (2 : ℚ) ^ E = 2 ^ (Nat.log 2 n) / 2 ^ (Nat.log 2 d) := by
    rw [hE, log2Floor_eq_log, log2Floor_eq_log, zpow_sub₀ h2, zpow_natCast, zpow_natCast]
  have hupper : (n : ℚ) / d < 2 ^ (E + 1) := by
    rw [zpow_add₀ h2, hEpow, zpow_one, div_lt_iff₀ hdq]
    have hpos : (0 : ℚ) < 2 ^ (Nat.log 2 d) := by positivity
    calc (n : ℚ) < 2 ^ (Nat.log 2 n + 1) := hn2
      _ = 2 ^ (Nat.log 2 n) / 2 ^ (Nat.log 2 d) * 2 * 2 ^ (Nat.log 2 d) := by
          field_simp; ring
      _ ≤ 2 ^ (Nat.log 2 n) / 2 ^ (Nat.log 2 d) * 2 * d := by
          apply mul_le_mul_of_nonneg_left hd1; positivity
  have hlower : (2 : ℚ) ^ (E - 1) ≤ (n : ℚ) / d := by
    rw [zpow_sub₀ h2, hEpow, zpow_one, le_div_iff₀ hdq]
    have hpos : (0 : ℚ) < 2 ^ (Nat.log 2 d) := by positivity
    calc 2 ^ (Nat.log 2 n) / 2 ^ (Nat.log 2 d) / 2 * (d : ℚ)
        ≤ 2 ^ (Nat.log 2 n) / 2 ^ (Nat.log 2 d) / 2 * 2 ^ (Nat.log 2 d + 1) := by
          apply mul_le_mul_of_nonneg_left (le_of_lt hd2); positivity
      _ = 2 ^ (Nat.log 2 n) := by field_simp; ring
      _ ≤ n := hn1
  have htest : (d * 2 ^ E.toNat ≤ n * 2 ^ (-E).toNat) ↔ (2 : ℚ) ^ E ≤ (n : ℚ) / d := by
    rw [two_zpow_split E, div_le_div_iff₀ (by positivity) hdq]
    constructor
    · intro h
      have : ((d * 2 ^ E.toNat : ℕ) : ℚ) ≤ ((n * 2 ^ (-E).toNat : ℕ) : ℚ) := by exact_mod_cast h
      push_cast at this
      linarith
    · intro h
      have : ((d * 2 ^ E.toNat : ℕ) : ℚ) ≤ ((n * 2 ^ (-E).toNat : ℕ) : ℚ) := by
        push_cast; linarith
      exact_mod_cast this
  obtain ⟨L, hL⟩ : ∃ L : ℤ, L = if d * 2 ^ E.toNat ≤ n * 2 ^ (-E).toNat then E else E - 1 :=
    ⟨_, rfl⟩
  have hL1 : (2 : ℚ) ^ L ≤ (n : ℚ) / d := by
    by_cases ht : d * 2 ^ E.toNat ≤ n * 2 ^ (-E).toNat
    · rw [hL, if_pos ht]; exact htest.mp ht
    · rw [hL, if_neg ht]; exact hlower
  have hL2 : (n : ℚ) / d < 2 ^ (L + 1) := by
    by_cases ht : d * 2 ^ E.toNat ≤ n * 2 ^ (-E).toNat
    · rw [hL, if_pos ht]; exact hupper
    · rw [hL, if_neg ht, sub_add_cancel]
      exact lt_of_not_le (fun h => ht (htest.mpr h))
  obtain ⟨e, he⟩ : ∃ e : ℤ, e = L - 52 := ⟨_, rfl⟩
  have hDpos : 0 < d * 2 ^ e.toNat := Nat.mul_pos hd (by positivity)
  have hval : binary64Pos n d
      = (roundHalfEven (n * 2 ^ (-e).toNat) (d * 2 ^ e.toNat) : ℚ) * 2 ^ e := by
    unfold binary64Pos
    simp only
    rw [← hE, ← hL, ← he, two_zpow_split e, mul_div_assoc]
  have hquot : ((n * 2 ^ (-e).toNat : ℕ) : ℚ) / ((d * 2 ^ e.toNat : ℕ) : ℚ)
      = (n : ℚ) / d / 2 ^ e := by
    rw [two_zpow_split e]
    push_cast
    field_simp
  have hscaled1 : (2 : ℚ) ^ (52 : ℕ) ≤ (n : ℚ) / d / 2 ^ e := by
    rw [le_div_iff₀ (by positivity)]
    have : (2 : ℚ) ^ (52 : ℕ) * 2 ^ e = 2 ^ L := by
      rw [he, ← zpow_natCast, ← zpow_add₀ h2]; congr 1; push_cast; ring
    rw [this]; exact hL1
  have hscaled2 : (n : ℚ) / d / 2 ^ e < (2 : ℚ) ^ (53 : ℕ) := by
    rw [div_lt_iff₀ (by positivity)]
    have : (2 : ℚ) ^ (53 : ℕ) * 2 ^ e = 2 ^ (L + 1) := by
      rw [he, ← zpow_natCast, ← zpow_add₀ h2]; congr 1; push_cast; ring
    rw [this]; exact hL2
  have hDq : (0 : ℚ) < ((d * 2 ^ e.toNat : ℕ) : ℚ) := by exact_mod_cast hDpos
  have hb1 : 2 ^ 52 * (d * 2 ^ e.toNat) ≤ n * 2 ^ (-e).toNat := by
    have h := hscaled1
    rw [← hquot, le_div_iff₀ hDq] at h
    exact_mod_cast h
  have hb2 : n * 2 ^ (-e).toNat ≤ 2 ^ 53 * (d * 2 ^ e.toNat) := by
    have h := le_of_lt hscaled2
    rw [← hquot, div_le_iff₀ hDq] at h
    exact_mod_cast h
  obtain ⟨hr1, hr2⟩ := roundHalfEven_bounds _ _ (2 ^ 52) (2 ^ 53) hDpos hb1 hb2
  refine ⟨L, roundHalfEven (n * 2 ^ (-e).toNat) (d * 2 ^ e.toNat), hL1, hL2, ?_, hr1, hr2,
    ?_, ?_⟩
  · rw [hval, he]
  · rw [← he, ← hquot]
    exact roundHalfEven_error _ _ hDpos
  · intro k hk
    rw [← he, ← hquot, div_eq_iff (ne_of_gt hDq)] at hk
    have hk' : n * 2 ^ (-e).toNat = k * (d * 2 ^ e.toNat) := by exact_mod_cast hk
    rw [hk']
    exact roundHalfEven_exact k _ hDpos

/-- The rounding of a positive number: with `L` its binary exponent, the result is an
integer `r` of `[2^52, 2^53]` times `2^(L - 52)`, where `r` is the scaled number rounded. -/
theorem binary64_pos_spec (q : ℚ) (hq : 0 < q) :
    ∃ (L : ℤ) (r : ℕ), (2 : ℚ) ^ L ≤ q ∧ q < 2 ^ (L + 1) ∧
      binary64 q = (r : ℚ) * 2 ^ (L - 52) ∧ 2 ^ 52 ≤ r ∧ r ≤ 2 ^ 53 ∧
      |(r : ℚ) - q / 2 ^ (L - 52)| ≤ 1 / 2 ∧
      (∀ k : ℕ, q / 2 ^ (L - 52) = k → r = k) := by
  have hnum : 0 < q.num := Rat.num_pos.mpr hq
  have hn : 0 < q.num.natAbs := Int.natAbs_pos.mpr (ne_of_gt hnum)
  have hcast : ((q.num.natAbs : ℕ) : ℚ) / (q.den : ℚ) = q := by
    have h1 : ((q.num.natAbs : ℕ) : ℤ) = q.num := Int.natAbs_of_nonneg (le_of_lt hnum)
    have h2 : ((q.num.natAbs : ℕ) : ℚ) = ((q.num : ℤ) : ℚ) := by
      rw [← Int.cast_natCast, h1]
    rw [h2]
    exact Rat.num_div_den q
  have hval : binary64 q = binary64Pos q.num.natAbs q.den := by
    unfold binary64
    rw [if_neg (ne_of_gt hq), if_pos hq]
  have h := binary64Pos_spec q.num.natAbs q.den hn q.den_pos
  rw [hcast, ← hval] at h
  exact h

theorem binary64_zero : binary64 0 = 0 := by
  unfold binary64
  rw [if_pos rfl]

theorem binary64_pos (q : ℚ) (hq : 0 < q) : 0 < binary64 q := by
  obtain ⟨L, r, _, _, hv, hr, _⟩ := binary64_pos_spec q hq
  rw [hv]
  have : (0 : ℚ) < r := by
    have : 0 < r := lt_of_lt_of_le (by positivity) hr
    exact_mod_cast this
  positivity

theorem binary64_eq_zero_iff (q : ℚ) : binary64 q = 0 ↔ q = 0 := by
  constructor
  · intro h
    rcases lt_trichotomy q 0 with hq | hq | hq
    · have := binary64_pos (-q) (by linarith)
      rw [binary64_neg] at this
      linarith
    · exact hq
    · have := binary64_pos q hq
      linarith
  · rintro rfl
    exact binary64_zero

theorem binary64_nonneg_iff (q : ℚ) : 0 ≤ binary64 q ↔ 0 ≤ q := by
  constructor
  · intro h
    by_contra hc
    have := binary64_pos (-q) (by linarith)
    rw [binary64_neg] at this
    linarith
  · intro h
    rcases eq_or_lt_of_le h with h0 | h0
    · rw [← h0, binary64_zero]
    · exact le_of_lt (binary64_pos q h0)

/-- The relative error of a rounding is at most `2^-53`. -/
theorem binary64_error (q : ℚ) : |binary64 q - q| ≤ |q| / 2 ^ 53 := by
  have hpos : ∀ x : ℚ, 0 < x → |binary64 x - x| ≤ |x| / 2 ^ 53 := by
    intro x hx
    obtain ⟨L, r, hL1, _, hv, _, _, herr, _⟩ := binary64_pos_spec x hx
    have h2 : (2 : ℚ) ≠ 0 := by norm_num
    have he : (0 : ℚ) < 2 ^ (L - 52) := by positivity
    have hsub : binary64 x - x = ((r : ℚ) - x / 2 ^ (L - 52)) * 2 ^ (L - 52) := by
      rw [hv]; field_simp
    rw [hsub, abs_mul, abs_of_pos he, abs_of_pos hx]
    have hsplit : (2 : ℚ) ^ (L - 52) = 2 ^ L / 2 ^ (52 : ℕ) := by
      rw [zpow_sub₀ h2]; norm_cast
    calc |(r : ℚ) - x / 2 ^ (L - 52)| * 2 ^ (L - 52)
        ≤ 1 / 2 * 2 ^ (L - 52) := mul_le_mul_of_nonneg_right herr (le_of_lt he)
      _ = 2 ^ L / 2 ^ 53 := by rw [hsplit]; ring
      _ ≤ x / 2 ^ 53 := div_le_div_of_nonneg_right hL1 (by positivity)
  rcases lt_trichotomy q 0 with hq | hq | hq
  · have h := hpos (-q) (by linarith)
    rw [binary64_neg, abs_neg] at h
    have e : -binary64 q - -q = -(binary64 q - q) := by ring
    rw [e, abs_neg] at h
    exact h
  · rw [hq, binary64_zero]; simp
  · exact hpos q hq

/-- A number of at most 1 is rounded to at most 1. -/
theorem binary64_le_one (q : ℚ) (hq : q ≤ 1) : binary64 q ≤ 1 := by
  rcases le_or_lt q 0 with h0 | h0
  · have : ¬ 0 < binary64 q := by
      intro hc
      have h1 := (binary64_nonneg_iff q).mp (le_of_lt hc)
      have h2 : q = 0 := le_antisymm h0 h1
      rw [h2, binary64_zero] at hc
      exact lt_irrefl _ hc
    linarith
  · obtain ⟨L, r, hL1, hL2, hv, _, hr, _, hex⟩ := binary64_pos_spec q h0
    have hrq : (r : ℚ) ≤ 2 ^ (53 : ℕ) := by exact_mod_cast hr
    have h2 : (2 : ℚ) ≠ 0 := by norm_num
    have hL : L ≤ 0 := by
      by_contra hc
      have h1 : (1 : ℤ) ≤ L := by omega
      have : (2 : ℚ) ^ (1 : ℤ) ≤ 2 ^ L := zpow_le_zpow_right₀ (by norm_num) h1
      rw [zpow_one] at this
      linarith
    rcases eq_or_lt_of_le hL with hL0 | hL0
    · -- binade [1, 2): only q = 1 is possible
      have hq1 : q = 1 := by
        rw [hL0, zpow_zero] at hL1
        exact le_antisymm hq hL1
      have hk : q / 2 ^ (L - 52) = ((2 ^ 52 : ℕ) : ℚ) := by
        rw [hq1, hL0]; norm_num
      have hr52 := hex (2 ^ 52) hk
      rw [hv, hr52, hL0]; norm_num
    · have h1 : L + 1 ≤ 0 := by omega
      have hpow : (2 : ℚ) ^ (L + 1) ≤ 1 := by
        have := zpow_le_zpow_right₀ (show (1 : ℚ) ≤ 2 by norm_num) h1
        simpa using this
      have hval : (r : ℚ) * 2 ^ (L - 52) ≤ 2 ^ (L + 1) := by
        have he : (2 : ℚ) ^ (L + 1) = 2 ^ (53 : ℕ) * 2 ^ (L - 52) := by
          rw [← zpow_natCast, ← zpow_add₀ h2]; congr 1; push_cast; ring
        rw [he]
        exact mul_le_mul_of_nonneg_right hrq (by positivity)
      rw [hv]
      linarith

/-- A number above `1 + 2^-53` is rounded to more than 1. -/
theorem binary64_gt_one (q : ℚ) (hq : 1 + 1 / 2 ^ 53 < q) : 1 < binary64 q := by
  have h0 : (0 : ℚ) < q := by
    have : (0 : ℚ) < 1 / 2 ^ 53 := by positivity
    linarith
  obtain ⟨L, r, hL1, hL2, hv, hr, _, herr, _⟩ := binary64_pos_spec q h0
  have h2 : (2 : ℚ) ≠ 0 := by norm_num
  have hrq : (2 : ℚ) ^ (52 : ℕ) ≤ (r : ℚ) := by exact_mod_cast hr
  have hlow : (2 : ℚ) ^ L ≤ binary64 q := by
    have he : (2 : ℚ) ^ L = 2 ^ (52 : ℕ) * 2 ^ (L - 52) := by
      rw [← zpow_natCast, ← zpow_add₀ h2]; congr 1; push_cast; ring
    rw [hv, he]
    exact mul_le_mul_of_nonneg_right hrq (by positivity)
  rcases le_or_lt 1 L with hL | hL
  · have : (2 : ℚ) ^ (1 : ℤ) ≤ 2 ^ L := zpow_le_zpow_right₀ (by norm_num) hL
    rw [zpow_one] at this
    linarith
  · have hL0 : L ≤ 0 := by omega
    have hx : |q| / 2 ^ 53 ≤ 2 ^ (L + 1) / 2 ^ 53 := by
      rw [abs_of_pos h0]
      exact div_le_div_of_nonneg_right (le_of_lt hL2) (by positivity)
    have herr2 : |binary64 q - q| ≤ 1 / 2 ^ 53 := by
      have he : (0 : ℚ) < 2 ^ (L - 52) := by positivity
      have hsub : binary64 q - q = ((r : ℚ) - q / 2 ^ (L - 52)) * 2 ^ (L - 52) := by
        rw [hv]; field_simp
      rw [hsub, abs_mul, abs_of_pos he]
      have hp : (2 : ℚ) ^ (L - 52) ≤ 2 ^ ((-52 : ℤ)) :=
        zpow_le_zpow_right₀ (by norm_num) (by omega)
      calc |(r : ℚ) - q / 2 ^ (L - 52)| * 2 ^ (L - 52)
          ≤ 1 / 2 * 2 ^ (L - 52) := mul_le_mul_of_nonneg_right herr (le_of_lt he)
        _ ≤ 1 / 2 * 2 ^ ((-52 : ℤ)) := by
            apply mul_le_mul_of_nonneg_left hp; norm_num
        _ = 1 / 2 ^ 53 := by norm_num
    have := (abs_le.mp herr2).1
    linarith

/-- An integer below `2^53` in magnitude is a binary64 value. -/
theorem binary64_intCast (n : ℤ) (hn : |n| < 2 ^ 53) : binary64 (n : ℚ) = n := by
  have hnat : ∀ m : ℕ, 0 < m → m < 2 ^ 53 → binary64 (m : ℚ) = m := by
    intro m hm0 hm
    have hq : (0 : ℚ) < (m : ℚ) := by exact_mod_cast hm0
    obtain ⟨L, r, hL1, _, hv, _, _, _, hex⟩ := binary64_pos_spec (m : ℚ) hq
    have h2 : (2 : ℚ) ≠ 0 := by norm_num
    have hL : L ≤ 52 := by
      by_contra hc
      have h53 : (53 : ℤ) ≤ L := by omega
      have : (2 : ℚ) ^ (53 : ℤ) ≤ 2 ^ L := zpow_le_zpow_right₀ (by norm_num) h53
      have hm' : (m : ℚ) < 2 ^ (53 : ℕ) := by exact_mod_cast hm
      have e : (2 : ℚ) ^ (53 : ℤ) = 2 ^ (53 : ℕ) := by norm_cast
      linarith
    obtain ⟨j, hj⟩ : ∃ j : ℕ, (j : ℤ) = 52 - L := ⟨(52 - L).toNat, Int.toNat_of_nonneg (by omega)⟩
    have hpow : (2 : ℚ) ^ (L - 52) = 1 / 2 ^ j := by
      have : L - 52 = -(j : ℤ) := by omega
      rw [this, zpow_neg, zpow_natCast, one_div]
    have hk : (m : ℚ) / 2 ^ (L - 52) = ((m * 2 ^ j : ℕ) : ℚ) := by
      rw [hpow]; push_cast; field_simp
    rw [hv, hex _ hk, hpow]
    push_cast
    field_simp
  rcases lt_trichotomy n 0 with h | h | h
  · obtain ⟨m, hm⟩ : ∃ m : ℕ, n = -(m : ℤ) := ⟨n.natAbs, by omega⟩
    subst hm
    have hm0 : 0 < m := by omega
    have hmlt : m < 2 ^ 53 := by
      rw [abs_neg] at hn
      have : |(m : ℤ)| = m := abs_of_nonneg (by omega)
      rw [this] at hn
      exact_mod_cast hn
    push_cast
    rw [binary64_neg, hnat m hm0 hmlt]
  · subst h
    simpa using binary64_zero
  · obtain ⟨m, hm⟩ : ∃ m : ℕ, n = (m : ℤ) := ⟨n.natAbs, by omega⟩
    subst hm
    have hm0 : 0 < m := by omega
    have hmlt : m < 2 ^ 53 := by
      have : |(m : ℤ)| = m := abs_of_nonneg (by omega)
      rw [this] at hn
      exact_mod_cast hn
    exact_mod_cast hnat m hm0 hmlt

/-! ## The rounded line kernel on coordinates below `2^25`

With every coordinate below `2^25` in magnitude, the differences of coordinates are below
`2^26`, their products below `2^52` and the cross and dot products below `2^53`: all of
them are binary64 values, and the only roundings left are those of the quotients and of
what is computed from them. -/

theorem binary64_mul_exact (a b : ℤ) (ha : |a| < 2 ^ 26) (hb : |b| < 2 ^ 26) :
    binary64 ((a : ℚ) * (b : ℚ)) = ((a * b : ℤ) : ℚ) := by
  have h : |a * b| < 2 ^ 53 := by
    rw [abs_mul]
    have h0 : (0 : ℤ) ≤ |a| := abs_nonneg a
    have h1 : (0 : ℤ) ≤ |b| := abs_nonneg b
    nlinarith
  rw [← Int.cast_mul]
  exact binary64_intCast _ h

theorem abs_mul_lt_of_lt (a b : ℤ) (ha : |a| < 2 ^ 26) (hb : |b| < 2 ^ 26) :
    |a * b| < 2 ^ 52 := by
  rw [abs_mul]
  have h0 : (0 : ℤ) ≤ |a| := abs_nonneg a
  have h1 : (0 : ℤ) ≤ |b| := abs_nonneg b
  nlinarith

/-- A cross or dot product of differences of coordinates is computed without error. -/
theorem binary64_sub_mul_exact (a b c d : ℤ) (ha : |a| < 2 ^ 26) (hb : |b| < 2 ^ 26)
    (hc : |c| < 2 ^ 26) (hd : |d| < 2 ^ 26) :
    binary64 (binary64 ((a : ℚ) * (b : ℚ)) - binary64 ((c : ℚ) * (d : ℚ)))
      = ((a * b - c * d : ℤ) : ℚ) ∧ |a * b - c * d| < 2 ^ 53 := by
  have h1 := abs_mul_lt_of_lt a b ha hb
  have h2 := abs_mul_lt_of_lt c d hc hd
  have h : |a * b - c * d| < 2 ^ 53 := by
    have := abs_sub (a * b) (c * d)
    linarith
  rw [binary64_mul_exact a b ha hb, binary64_mul_exact c d hc hd, ← Int.cast_sub]
  exact ⟨binary64_intCast _ h, h⟩

theorem binary64_add_mul_exact (a b c d : ℤ) (ha : |a| < 2 ^ 26) (hb : |b| < 2 ^ 26)
    (hc : |c| < 2 ^ 26) (hd : |d| < 2 ^ 26) :
    binary64 (binary64 ((a : ℚ) * (b : ℚ)) + binary64 ((c : ℚ) * (d : ℚ)))
      = ((a * b + c * d : ℤ) : ℚ) ∧ |a * b + c * d| < 2 ^ 53 := by
  have h1 := abs_mul_lt_of_lt a b ha hb
  have h2 := abs_mul_lt_of_lt c d hc hd
  have h : |a * b + c * d| < 2 ^ 53 := by
    have := abs_add (a * b) (c * d)
    linarith
  rw [binary64_mul_exact a b ha hb, binary64_mul_exact c d hc hd, ← Int.cast_add]
  exact ⟨binary64_intCast _ h, h⟩

theorem abs_sub_lt_of_within (x y : ℤ) (hx : |x| < 2 ^ 25) (hy : |y| < 2 ^ 25) :
    |x - y| < 2 ^ 26 := by
  have := abs_sub x y
  linarith

theorem binary64_diff_exact (x y : ℤ) (hx : |x| < 2 ^ 25) (hy : |y| < 2 ^ 25) :
    binary64 ((x - y : ℤ) : ℚ) = ((x - y : ℤ) : ℚ) :=
  binary64_intCast _ (lt_trans (abs_sub_lt_of_within x y hx hy) (by norm_num))

/-- A quotient of integers, with a divisor below `2^53`, that exceeds 1 exceeds
`1 + 2^-53`. -/
theorem quotient_gt_one (n d : ℤ) (hd : |d| < 2 ^ 53) (h : 1 < (n : ℚ) / (d : ℚ)) :
    1 + 1 / 2 ^ 53 < (n : ℚ) / (d : ℚ) := by
  have hd0 : d ≠ 0 := by
    rintro rfl
    simp at h
    linarith
  have hdq : (d : ℚ) ≠ 0 := by exact_mod_cast hd0
  have habs : (0 : ℚ) < |(d : ℚ)| := abs_pos.mpr hdq
  have hlt : |(d : ℚ)| < 2 ^ 53 := by exact_mod_cast hd
  have hrepr : (n : ℚ) / d - 1 = ((n - d : ℤ) : ℚ) / d := by
    push_cast; field_simp
  have hpos : 0 < ((n - d : ℤ) : ℚ) / d := by rw [← hrepr]; linarith
  have hnd : n - d ≠ 0 := by
    intro h0
    rw [h0] at hpos
    simp at hpos
  have hone : (1 : ℚ) ≤ |((n - d : ℤ) : ℚ)| := by
    have : (1 : ℤ) ≤ |n - d| := Int.one_le_abs hnd
    exact_mod_cast this
  have hge : 1 / |(d : ℚ)| ≤ ((n - d : ℤ) : ℚ) / d := by
    rw [← abs_of_pos hpos, abs_div]
    exact div_le_div_of_nonneg_right hone (le_of_lt habs)
  have hfin : (1 : ℚ) / 2 ^ 53 < 1 / |(d : ℚ)| :=
    one_div_lt_one_div_of_lt habs hlt
  linarith

/-- For a quotient of integers with a divisor below `2^53`, the rounded quotient lies in
`[0, 1]` exactly when the quotient does. -/
theorem binary64_quotient_unit (n d : ℤ) (hd : |d| < 2 ^ 53) :
    (0 ≤ binary64 ((n : ℚ) / (d : ℚ)) ↔ 0 ≤ (n : ℚ) / (d : ℚ)) ∧
    (binary64 ((n : ℚ) / (d : ℚ)) ≤ 1 ↔ (n : ℚ) / (d : ℚ) ≤ 1) := by
  refine ⟨binary64_nonneg_iff _, ?_, binary64_le_one _⟩
  intro h
  by_contra hc
  have := binary64_gt_one _ (quotient_gt_one n d hd (lt_of_not_le hc))
  linarith

/-- Unfolding of the rounded `intersection` on coordinates below `2^25`: the cross products
are exact, the two parameters are the exact parameters rounded, and the point is computed
from the rounded `t1` with a rounded product and a rounded sum. -/
theorem intersectionRounded_bounded_eq (EPSILON : ℚ) (hpos : 0 < EPSILON) (hle : EPSILON ≤ 1)
    (l1 l2 : Line) (out : Point) (h1 : l1.within (2 ^ 25)) (h2 : l2.within (2 ^ 25)) :
    l1.intersectionRounded binary64 EPSILON l2 out =
      if l1.dirCross l2 = 0 then (false, out)
      else if 0 ≤ l1.param1 l2 ∧ l1.param1 l2 ≤ 1 ∧ 0 ≤ l1.param2 l2 ∧ l1.param2 l2 ≤ 1 then
        (true,
          ⟨castCoord (binary64 ((l1.a.x : ℚ)
              + binary64 (binary64 (l1.param1 l2) * ((l1.b.x - l1.a.x : ℤ) : ℚ)))),
            castCoord (binary64 ((l1.a.y : ℚ)
              + binary64 (binary64 (l1.param1 l2) * ((l1.b.y - l1.a.y : ℤ) : ℚ))))⟩)
      else (false, out) := by
  obtain ⟨ha1x, ha1y, hb1x, hb1y⟩ := h1
  obtain ⟨ha2x, ha2y, hb2x, hb2y⟩ := h2
  have d1x := abs_sub_lt_of_within _ _ hb1x ha1x
  have d1y := abs_sub_lt_of_within _ _ hb1y ha1y
  have d2x := abs_sub_lt_of_within _ _ hb2x ha2x
  have d2y := abs_sub_lt_of_within _ _ hb2y ha2y
  have dwx := abs_sub_lt_of_within _ _ ha1x ha2x
  have dwy := abs_sub_lt_of_within _ _ ha1y ha2y
  have hv1x : binary64 (((l1.b - l1.a).x : ℤ) : ℚ) = ((l1.b.x - l1.a.x : ℤ) : ℚ) :=
    binary64_diff_exact _ _ hb1x ha1x
  have hv1y : binary64 (((l1.b - l1.a).y : ℤ) : ℚ) = ((l1.b.y - l1.a.y : ℤ) : ℚ) :=
    binary64_diff_exact _ _ hb1y ha1y
  have hv2x : binary64 (((l2.b - l2.a).x : ℤ) : ℚ) = ((l2.b.x - l2.a.x : ℤ) : ℚ) :=
    binary64_diff_exact _ _ hb2x ha2x
  have hv2y : binary64 (((l2.b - l2.a).y : ℤ) : ℚ) = ((l2.b.y - l2.a.y : ℤ) : ℚ) :=
    binary64_diff_exact _ _ hb2y ha2y
  have hwx : binary64 (((l1.a - l2.a).x : ℤ) : ℚ) = ((l1.a.x - l2.a.x : ℤ) : ℚ) :=
    binary64_diff_exact _ _ ha1x ha2x
  have hwy : binary64 (((l1.a - l2.a).y : ℤ) : ℚ) = ((l1.a.y - l2.a.y : ℤ) : ℚ) :=
    binary64_diff_exact _ _ ha1y ha2y
  have hax : binary64 ((l1.a.x : ℤ) : ℚ) = ((l1.a.x : ℤ) : ℚ) :=
    binary64_intCast _ (lt_trans ha1x (by norm_num))
  have hay : binary64 ((l1.a.y : ℤ) : ℚ) = ((l1.a.y : ℤ) : ℚ) :=
    binary64_intCast _ (lt_trans ha1y (by norm_num))
  obtain ⟨hden, hdenlt⟩ := binary64_sub_mul_exact _ _ _ _ d1x d2y d1y d2x
  obtain ⟨hna, _⟩ := binary64_sub_mul_exact _ _ _ _ d2x dwy d2y dwx
  obtain ⟨hnb, _⟩ := binary64_sub_mul_exact _ _ _ _ d1x dwy d1y dwx
  have hD : ((l1.b.x - l1.a.x) * (l2.b.y - l2.a.y) - (l1.b.y - l1.a.y) * (l2.b.x - l2.a.x))
      = l1.dirCross l2 := rfl
  rw [hD] at hden hdenlt
  have hp1 : (((l2.b.x - l2.a.x) * (l1.a.y - l2.a.y)
      - (l2.b.y - l2.a.y) * (l1.a.x - l2.a.x) : ℤ) : ℚ) / ((l1.dirCross l2 : ℤ) : ℚ)
      = l1.param1 l2 := rfl
  have hp2 : (((l1.b.x - l1.a.x) * (l1.a.y - l2.a.y)
      - (l1.b.y - l1.a.y) * (l1.a.x - l2.a.x) : ℤ) : ℚ) / ((l1.dirCross l2 : ℤ) : ℚ)
      = l1.param2 l2 := rfl
  obtain ⟨hu1, hu2⟩ := binary64_quotient_unit ((l2.b.x - l2.a.x) * (l1.a.y - l2.a.y)
      - (l2.b.y - l2.a.y) * (l1.a.x - l2.a.x)) (l1.dirCross l2) hdenlt
  obtain ⟨hu3, hu4⟩ := binary64_quotient_unit ((l1.b.x - l1.a.x) * (l1.a.y - l2.a.y)
      - (l1.b.y - l1.a.y) * (l1.a.x - l2.a.x)) (l1.dirCross l2) hdenlt
  rw [hp1] at hu1 hu2
  rw [hp2] at hu3 hu4
  unfold Line.intersectionRounded
  simp only [hv1x, hv1y, hv2x, hv2y, hwx, hwy, hax, hay, hden, hna, hnb, hp1, hp2,
    hu1, hu2, hu3, hu4]
  by_cases h0 : l1.dirCross l2 = 0
  · simp [h0, hpos]
  · have hne : ¬ |((l1.dirCross l2 : ℤ) : ℚ)| < EPSILON := by
      rw [abs_intCast_lt_iff EPSILON hpos hle]; exact h0
    simp only [hne, h0, if_false]

/-- The coordinate `a + t v` of the reported point, computed with the rounded parameter, a
rounded product and a rounded sum, is within `2^-25` of the exact value when `t` is in
`[0, 1]`, `|a| < 2^25` and `|v| < 2^26`. -/
theorem affine_rounded_error (a v : ℤ) (t : ℚ) (ha : |a| < 2 ^ 25) (hv : |v| < 2 ^ 26)
    (ht0 : 0 ≤ t) (ht1 : t ≤ 1) :
    |binary64 ((a : ℚ) + binary64 (binary64 t * (v : ℚ))) - ((a : ℚ) + t * (v : ℚ))|
      < 1 / 2 ^ 25 := by
  have hA : |(a : ℚ)| ≤ 2 ^ 25 := by
    have : |(a : ℚ)| < 2 ^ 25 := by exact_mod_cast ha
    exact le_of_lt this
  have hV : |(v : ℚ)| ≤ 2 ^ 26 := by
    have : |(v : ℚ)| < 2 ^ 26 := by exact_mod_cast hv
    exact le_of_lt this
  have hV0 : 0 ≤ |(v : ℚ)| := abs_nonneg _
  -- the parameter
  have ht' : |binary64 t - t| ≤ 1 / 2 ^ 53 := by
    have h := binary64_error t
    rw [abs_of_nonneg ht0] at h
    have : t / 2 ^ 53 ≤ 1 / 2 ^ 53 := div_le_div_of_nonneg_right ht1 (by positivity)
    linarith
  have htb0 : 0 ≤ binary64 t := (binary64_nonneg_iff t).mpr ht0
  have htb1 : binary64 t ≤ 1 := binary64_le_one t ht1
  have htabs : |binary64 t| ≤ 1 := by rw [abs_of_nonneg htb0]; exact htb1
  -- the product
  have hp : |binary64 t * (v : ℚ)| ≤ |(v : ℚ)| := by
    rw [abs_mul]
    calc |binary64 t| * |(v : ℚ)| ≤ 1 * |(v : ℚ)| := mul_le_mul_of_nonneg_right htabs hV0
      _ = |(v : ℚ)| := one_mul _
  have hp' : |binary64 (binary64 t * (v : ℚ)) - binary64 t * (v : ℚ)| ≤ |(v : ℚ)| / 2 ^ 53 := by
    have h := binary64_error (binary64 t * (v : ℚ))
    have : |binary64 t * (v : ℚ)| / 2 ^ 53 ≤ |(v : ℚ)| / 2 ^ 53 :=
      div_le_div_of_nonneg_right hp (by positivity)
    linarith
  have hpt : |binary64 t * (v : ℚ) - t * (v : ℚ)| ≤ |(v : ℚ)| / 2 ^ 53 := by
    rw [← sub_mul, abs_mul]
    calc |binary64 t - t| * |(v : ℚ)| ≤ 1 / 2 ^ 53 * |(v : ℚ)| :=
          mul_le_mul_of_nonneg_right ht' hV0
      _ = |(v : ℚ)| / 2 ^ 53 := by ring
  have hpb : |binary64 (binary64 t * (v : ℚ))| ≤ |(v : ℚ)| + |(v : ℚ)| / 2 ^ 53 := by
    have h := abs_sub_abs_le_abs_sub (binary64 (binary64 t * (v : ℚ))) (binary64 t * (v : ℚ))
    linarith
  -- the sum
  have hs : |(a : ℚ) + binary64 (binary64 t * (v : ℚ))|
      ≤ |(a : ℚ)| + (|(v : ℚ)| + |(v : ℚ)| / 2 ^ 53) := by
    have h := abs_add (a : ℚ) (binary64 (binary64 t * (v : ℚ)))
    linarith
  have hs' : |binary64 ((a : ℚ) + binary64 (binary64 t * (v : ℚ)))
      - ((a : ℚ) + binary64 (binary64 t * (v : ℚ)))|
      ≤ (|(a : ℚ)| + (|(v : ℚ)| + |(v : ℚ)| / 2 ^ 53)) / 2 ^ 53 := by
    have h := binary64_error ((a : ℚ) + binary64 (binary64 t * (v : ℚ)))
    have : |(a : ℚ) + binary64 (binary64 t * (v : ℚ))| / 2 ^ 53
        ≤ (|(a : ℚ)| + (|(v : ℚ)| + |(v : ℚ)| / 2 ^ 53)) / 2 ^ 53 :=
      div_le_div_of_nonneg_right hs (by positivity)
    linarith
  have hsplit : binary64 ((a : ℚ) + binary64 (binary64 t * (v : ℚ))) - ((a : ℚ) + t * (v : ℚ))
      = (binary64 ((a : ℚ) + binary64 (binary64 t * (v : ℚ)))
          - ((a : ℚ) + binary64 (binary64 t * (v : ℚ))))
        + (binary64 (binary64 t * (v : ℚ)) - binary64 t * (v : ℚ))
        + (binary64 t * (v : ℚ) - t * (v : ℚ)) := by ring
  rw [hsplit]
  have h3 := abs_add_three
    (binary64 ((a : ℚ) + binary64 (binary64 t * (v : ℚ)))
      - ((a : ℚ) + binary64 (binary64 t * (v : ℚ))))
    (binary64 (binary64 t * (v : ℚ)) - binary64 t * (v : ℚ))
    (binary64 t * (v : ℚ) - t * (v : ℚ))
  have hnum : (2 ^ 25 + (2 ^ 26 + 2 ^ 26 / 2 ^ 53)) / 2 ^ 53 + 2 ^ 26 / 2 ^ 53 + 2 ^ 26 / 2 ^ 53
      < (1 : ℚ) / 2 ^ 25 := by norm_num
  have hb1 : (|(a : ℚ)| + (|(v : ℚ)| + |(v : ℚ)| / 2 ^ 53)) / 2 ^ 53
      ≤ (2 ^ 25 + (2 ^ 26 + 2 ^ 26 / 2 ^ 53)) / 2 ^ 53 := by
    apply div_le_div_of_nonneg_right _ (by positivity)
    have : |(v : ℚ)| / 2 ^ 53 ≤ 2 ^ 26 / 2 ^ 53 := div_le_div_of_nonneg_right hV (by positivity)
    linarith
  have hb2 : |(v : ℚ)| / 2 ^ 53 ≤ 2 ^ 26 / 2 ^ 53 :=
    div_le_div_of_nonneg_right hV (by positivity)
  linarith

/-- The conversion of a number less than one unit from the integer `P`: it is `P` itself or
the integer next to `P` on the side of zero. -/
theorem castCoord_near_int (s : ℚ) (P : ℤ) (h : |s - (P : ℚ)| < 1) :
    |castCoord s - P| ≤ 1 ∧ |castCoord s| ≤ |P| := by
  obtain ⟨hl, hr⟩ := abs_lt.mp h
  unfold castCoord
  by_cases h0 : 0 ≤ s
  · rw [if_pos h0]
    have hf1 : ⌊s⌋ ≤ P := by
      have : ⌊s⌋ < P + 1 := Int.floor_lt.mpr (by push_cast; linarith)
      omega
    have hf2 : P - 1 ≤ ⌊s⌋ := Int.le_floor.mpr (by push_cast; linarith)
    have hf0 : 0 ≤ ⌊s⌋ := Int.floor_nonneg.mpr h0
    constructor
    · rw [abs_le]; constructor <;> omega
    · rw [abs_of_nonneg hf0, abs_of_nonneg (by omega)]; exact hf1
  · rw [if_neg h0]
    have hs : s < 0 := lt_of_not_le h0
    have hc1 : P ≤ ⌈s⌉ := by
      have : P - 1 < ⌈s⌉ := Int.lt_ceil.mpr (by push_cast; linarith)
      omega
    have hc2 : ⌈s⌉ ≤ P + 1 := Int.ceil_le.mpr (by push_cast; linarith)
    have hc0 : ⌈s⌉ ≤ 0 := Int.ceil_le.mpr (by simpa using le_of_lt hs)
    constructor
    · rw [abs_le]; constructor <;> omega
    · rw [abs_of_nonpos hc0, abs_of_nonpos (by omega)]; omega

/-- Two numbers less than `δ` apart, the second at least `δ` away from every integer, have
the same conversion to `coord_t`. -/
theorem castCoord_eq_of_close (s : ℚ) (X : ℝ) (δ : ℝ) (hclose : |(s : ℝ) - X| < δ)
    (hfar : ∀ k : ℤ, δ ≤ |X - (k : ℝ)|) : castCoord s = castCoordReal X := by
  obtain ⟨hl, hr⟩ := abs_lt.mp hclose
  have hδ : 0 < δ := lt_of_le_of_lt (abs_nonneg _) hclose
  have hk := hfar ⌊X⌋
  have hk1 := hfar (⌊X⌋ + 1)
  have hfl := Int.floor_le X
  have hlt := Int.lt_floor_add_one X
  rw [abs_of_nonneg (by linarith)] at hk
  push_cast at hk1
  rw [abs_of_nonpos (by linarith)] at hk1
  have hsf : ⌊s⌋ = ⌊X⌋ := by
    rw [Int.floor_eq_iff]
    constructor
    · have : ((⌊X⌋ : ℤ) : ℝ) ≤ (s : ℝ) := by linarith
      exact_mod_cast this
    · have : (s : ℝ) < ((⌊X⌋ : ℤ) : ℝ) + 1 := by linarith
      exact_mod_cast this
  have hXc : ⌈X⌉ = ⌊X⌋ + 1 := by
    rw [Int.ceil_eq_iff]
    push_cast
    constructor <;> linarith
  have hsc : ⌈s⌉ = ⌊X⌋ + 1 := by
    rw [Int.ceil_eq_iff]
    constructor
    · have : ((⌊X⌋ : ℤ) : ℝ) + 1 - 1 < (s : ℝ) := by linarith
      exact_mod_cast this
    · have : (s : ℝ) ≤ ((⌊X⌋ : ℤ) : ℝ) + 1 := by linarith
      exact_mod_cast this
  have h0 := hfar 0
  simp only [Int.cast_zero, sub_zero] at h0
  unfold castCoord castCoordReal
  by_cases hX : 0 ≤ X
  · rw [abs_of_nonneg hX] at h0
    have hs0 : (0 : ℚ) ≤ s := by
      have : (0 : ℝ) ≤ (s : ℝ) := by linarith
      exact_mod_cast this
    rw [if_pos hs0, if_pos hX, hsf]
  · have hX' : X < 0 := lt_of_not_le hX
    rw [abs_of_neg hX'] at h0
    have hs0 : ¬ (0 : ℚ) ≤ s := by
      intro hc
      have : (0 : ℝ) ≤ (s : ℝ) := by exact_mod_cast hc
      linarith
    rw [if_neg hs0, if_neg hX, hsc, hXc]

/-! ## Claims on `Line::intersection` and `Line::intersection_infinite` as computed in
doubles -/

/-- Counterexample to C2: the segments (0,0)-(200000001,200000000) and
(0,0)-(200000002,200000001) have the cross product 1 and share the point (0,0), with both
parameters 0. In binary64 the two products of the denominator, 40000000400000001 and
40000000400000000, round to the same double, the denominator is 0.0, and `intersection`
reports nothing. -/
theorem intersection_cancellation_misses :
    Line.intersectionRounded binary64 (1 / 10000) ⟨⟨0, 0⟩, ⟨200000001, 200000000⟩⟩
      ⟨⟨0, 0⟩, ⟨200000002, 200000001⟩⟩ ⟨7, 7⟩ = (false, ⟨7, 7⟩) ∧
    Line.dirCross ⟨⟨0, 0⟩, ⟨200000001, 200000000⟩⟩ ⟨⟨0, 0⟩, ⟨200000002, 200000001⟩⟩ = 1 ∧
    Line.param1 ⟨⟨0, 0⟩, ⟨200000001, 200000000⟩⟩ ⟨⟨0, 0⟩, ⟨200000002, 200000001⟩⟩ = 0 ∧
    Line.param2 ⟨⟨0, 0⟩, ⟨200000001, 200000000⟩⟩ ⟨⟨0, 0⟩, ⟨200000002, 200000001⟩⟩ = 0 ∧
    binary64 (200000001 * 200000001) = binary64 (200000000 * 200000002) ∧
    Line.contains ⟨⟨0, 0⟩, ⟨200000001, 200000000⟩⟩ 0 0 ∧
    Line.contains ⟨⟨0, 0⟩, ⟨200000002, 200000001⟩⟩ 0 0 := by
  refine ⟨by decide!, by decide!, by decide!, by decide!, by decide!,
    ⟨0, by norm_num, by norm_num, by norm_num, by norm_num⟩,
    ⟨0, by norm_num, by norm_num, by norm_num, by norm_num⟩⟩

/-- C2, amended: for segments whose coordinates are below `2^25` in magnitude, the cross
products of `intersection` are computed without error in binary64, and `intersection`
reports a point if and only if the cross product of the two directions is not zero and
both solved parameters lie in `[0, 1]`; equivalently, if and only if the two closed
segments are not parallel and have a common point. -/
theorem intersection_reports_iff_bounded (EPSILON : ℚ) (hpos : 0 < EPSILON)
    (hle : EPSILON ≤ 1) (l1 l2 : Line) (out : Point)
    (h1 : l1.within (2 ^ 25)) (h2 : l2.within (2 ^ 25)) :
    ((l1.intersectionRounded binary64 EPSILON l2 out).1 = true ↔
      (l1.dirCross l2 ≠ 0 ∧
        0 ≤ l1.param1 l2 ∧ l1.param1 l2 ≤ 1 ∧ 0 ≤ l1.param2 l2 ∧ l1.param2 l2 ≤ 1)) ∧
    ((l1.intersectionRounded binary64 EPSILON l2 out).1 = true ↔
      (l1.dirCross l2 ≠ 0 ∧ ∃ X Y : ℝ, l1.contains X Y ∧ l2.contains X Y)) := by
  have hiff : (l1.intersectionRounded binary64 EPSILON l2 out).1 = true ↔
      (l1.dirCross l2 ≠ 0 ∧
        0 ≤ l1.param1 l2 ∧ l1.param1 l2 ≤ 1 ∧ 0 ≤ l1.param2 l2 ∧ l1.param2 l2 ≤ 1) := by
    rw [intersectionRounded_bounded_eq EPSILON hpos hle l1 l2 out h1 h2]
    by_cases hD : l1.dirCross l2 = 0
    · simp [hD]
    · by_cases hp : 0 ≤ l1.param1 l2 ∧ l1.param1 l2 ≤ 1 ∧ 0 ≤ l1.param2 l2 ∧ l1.param2 l2 ≤ 1
      · simp [hD, hp]
      · simp only [hD, hp, if_false, ne_eq, not_false_eq_true, true_and]
        simp
  refine ⟨hiff, hiff.trans ?_⟩
  constructor
  · rintro ⟨hD, hp⟩
    exact ⟨hD, (common_point_iff l1 l2 hD).mpr hp⟩
  · rintro ⟨hD, hc⟩
    exact ⟨hD, (common_point_iff l1 l2 hD).mp hc⟩

/-- Witness of C2, amended, with `EPSILON = 1e-4`: the segments (0,0)-(4,0) and
(1,-1)-(2,2) cross, and the function as computed in binary64 reports a point. -/
theorem intersection_reports_iff_bounded_witness :
    (0 : ℚ) < 1 / 10000 ∧ (1 / 10000 : ℚ) ≤ 1 ∧
    Line.within ⟨⟨0, 0⟩, ⟨4, 0⟩⟩ (2 ^ 25) ∧ Line.within ⟨⟨1, -1⟩, ⟨2, 2⟩⟩ (2 ^ 25) ∧
    (Line.intersectionRounded binary64 (1 / 10000) ⟨⟨0, 0⟩, ⟨4, 0⟩⟩ ⟨⟨1, -1⟩, ⟨2, 2⟩⟩
      ⟨7, 7⟩).1 = true ∧
    (Line.dirCross ⟨⟨0, 0⟩, ⟨4, 0⟩⟩ ⟨⟨1, -1⟩, ⟨2, 2⟩⟩ ≠ 0 ∧
      ∃ X Y : ℝ, Line.contains ⟨⟨0, 0⟩, ⟨4, 0⟩⟩ X Y ∧ Line.contains ⟨⟨1, -1⟩, ⟨2, 2⟩⟩ X Y) :=
  ⟨by norm_num, by norm_num, by decide, by decide, by decide!,
    (intersection_reports_iff_bounded (1 / 10000) (by norm_num) (by norm_num)
      ⟨⟨0, 0⟩, ⟨4, 0⟩⟩ ⟨⟨1, -1⟩, ⟨2, 2⟩⟩ ⟨7, 7⟩ (by decide) (by decide)).2.mp (by decide!)⟩

/-- A common point of two segments that are not parallel has the coordinates
`a + param1 (b - a)` of the first. -/
theorem common_point_coords (l1 l2 : Line) (hD : l1.dirCross l2 ≠ 0) (X Y : ℝ)
    (h1 : l1.contains X Y) (h2 : l2.contains X Y) :
    X = (((l1.a.x : ℚ) + l1.param1 l2 * ((l1.b.x - l1.a.x : ℤ) : ℚ) : ℚ) : ℝ) ∧
    Y = (((l1.a.y : ℚ) + l1.param1 l2 * ((l1.b.y - l1.a.y : ℤ) : ℚ) : ℚ) : ℝ) := by
  obtain ⟨s, _, _, hsx, hsy⟩ := h1
  obtain ⟨t, _, _, htx, hty⟩ := h2
  obtain ⟨h, _⟩ := common_point_params l1 l2 hD s t (by rw [← hsx, htx]) (by rw [← hsy, hty])
  rw [hsx, hsy, h]
  push_cast
  exact ⟨rfl, rfl⟩

/-- The point that the rounded `intersection` reports on coordinates below `2^25`: the
segments are not parallel, both parameters lie in `[0, 1]`, and each coordinate is the
conversion of a double less than `2^-25` away from the exact coordinate. -/
theorem intersectionRounded_point (EPSILON : ℚ) (hpos : 0 < EPSILON) (hle : EPSILON ≤ 1)
    (l1 l2 : Line) (out Q : Point) (h1 : l1.within (2 ^ 25)) (h2 : l2.within (2 ^ 25))
    (hQ : l1.intersectionRounded binary64 EPSILON l2 out = (true, Q)) :
    l1.dirCross l2 ≠ 0 ∧
    (0 ≤ l1.param1 l2 ∧ l1.param1 l2 ≤ 1 ∧ 0 ≤ l1.param2 l2 ∧ l1.param2 l2 ≤ 1) ∧
    ∃ sx sy : ℚ, Q.x = castCoord sx ∧ Q.y = castCoord sy ∧
      |sx - ((l1.a.x : ℚ) + l1.param1 l2 * ((l1.b.x - l1.a.x : ℤ) : ℚ))| < 1 / 2 ^ 25 ∧
      |sy - ((l1.a.y : ℚ) + l1.param1 l2 * ((l1.b.y - l1.a.y : ℤ) : ℚ))| < 1 / 2 ^ 25 := by
  rw [intersectionRounded_bounded_eq EPSILON hpos hle l1 l2 out h1 h2] at hQ
  by_cases hD : l1.dirCross l2 = 0
  · simp [hD] at hQ
  by_cases hp : 0 ≤ l1.param1 l2 ∧ l1.param1 l2 ≤ 1 ∧ 0 ≤ l1.param2 l2 ∧ l1.param2 l2 ≤ 1
  swap
  · simp [hD, hp] at hQ
  simp only [hD, hp, if_false, if_true, and_self, Prod.mk.injEq, true_and] at hQ
  obtain ⟨ha1x, ha1y, hb1x, hb1y⟩ := h1
  refine ⟨hD, hp, _, _, by rw [← hQ], by rw [← hQ], ?_, ?_⟩
  · exact affine_rounded_error _ _ _ ha1x (abs_sub_lt_of_within _ _ hb1x ha1x) hp.1 hp.2.1
  · exact affine_rounded_error _ _ _ ha1y (abs_sub_lt_of_within _ _ hb1y ha1y) hp.1 hp.2.1

/-- Counterexample to C4, with every double operation rounded to binary64
(`EPSILON = 1e-4`). The segments (0,0)-(49,0) and (1,-1)-(1,1) cross at the grid point
(1,0); `t1 = 2/98` is rounded below `1/49`, `t1 * 49` rounds to `1 - 2^-53`, and the
conversion truncates it to 0: the reported point is not the crossing point. The segments
(-7305419,496)-(13474022,498) and (3084304,497)-(3084305,23539687) cross at a point with
`x` just above 3084304, and the reported `x` is 3084303, more than one grid unit away. -/
theorem intersection_binary64_off_grid :
    Line.intersectionRounded binary64 (1 / 10000) ⟨⟨0, 0⟩, ⟨49, 0⟩⟩ ⟨⟨1, -1⟩, ⟨1, 1⟩⟩ ⟨7, 7⟩
      = (true, ⟨0, 0⟩) ∧
    binary64 (binary64 (2 / 98) * 49) = 1 - 1 / 2 ^ 53 ∧
    Line.contains ⟨⟨0, 0⟩, ⟨49, 0⟩⟩ (((⟨1, 0⟩ : Point).x : ℤ) : ℝ) (((⟨1, 0⟩ : Point).y : ℤ) : ℝ) ∧
    Line.contains ⟨⟨1, -1⟩, ⟨1, 1⟩⟩ (((⟨1, 0⟩ : Point).x : ℤ) : ℝ) (((⟨1, 0⟩ : Point).y : ℤ) : ℝ) ∧
    (⟨0, 0⟩ : Point) ≠ ⟨1, 0⟩ ∧
    Line.intersectionRounded binary64 (1 / 10000) ⟨⟨-7305419, 496⟩, ⟨13474022, 498⟩⟩
      ⟨⟨3084304, 497⟩, ⟨3084305, 23539687⟩⟩ ⟨7, 7⟩ = (true, ⟨3084303, 497⟩) ∧
    Line.contains ⟨⟨-7305419, 496⟩, ⟨13474022, 498⟩⟩
      (1508629346888735199557 / 489131209792788) (121549105692355793 / 244565604896394) ∧
    Line.contains ⟨⟨3084304, 497⟩, ⟨3084305, 23539687⟩⟩
      (1508629346888735199557 / 489131209792788) (121549105692355793 / 244565604896394) ∧
    (1 : ℝ) < |(((⟨3084303, 497⟩ : Point).x : ℤ) : ℝ)
      - 1508629346888735199557 / 489131209792788| := by
  refine ⟨by decide!, by decide!, ⟨1 / 49, by norm_num, by norm_num, by norm_num, by norm_num⟩,
    ⟨1 / 2, by norm_num, by norm_num, by norm_num, by norm_num⟩, by decide, by decide!,
    ⟨244565663744369 / 489131209792788, by norm_num, by norm_num, by norm_num, by norm_num⟩,
    ⟨5 / 489131209792788, by norm_num, by norm_num, by norm_num, by norm_num⟩, ?_⟩
  rw [abs_of_neg (by norm_num)]
  norm_num

/-- C4, amended: when `intersection`, as computed in binary64 on segments whose coordinates
are below `2^25` in magnitude, reports a point `Q`, the two segments have a common point,
each coordinate of `Q` differs by less than `1 + 2^-25` grid units from that of every
common point, and when the segments cross at a point `P` of the grid, each coordinate of
`Q` is that of `P` or the next integer on the side of zero. -/
theorem intersection_point_near (EPSILON : ℚ) (hpos : 0 < EPSILON) (hle : EPSILON ≤ 1)
    (l1 l2 : Line) (out Q : Point) (h1 : l1.within (2 ^ 25)) (h2 : l2.within (2 ^ 25))
    (hQ : l1.intersectionRounded binary64 EPSILON l2 out = (true, Q)) :
    (∃ X Y : ℝ, l1.contains X Y ∧ l2.contains X Y) ∧
    (∀ X Y : ℝ, l1.contains X Y → l2.contains X Y →
      |(Q.x : ℝ) - X| < 1 + 1 / 2 ^ 25 ∧ |(Q.y : ℝ) - Y| < 1 + 1 / 2 ^ 25) ∧
    (∀ P : Point, l1.contains P.x P.y → l2.contains P.x P.y →
      |Q.x - P.x| ≤ 1 ∧ |Q.x| ≤ |P.x| ∧ |Q.y - P.y| ≤ 1 ∧ |Q.y| ≤ |P.y|) := by
  obtain ⟨hD, hp, sx, sy, hqx, hqy, hsx, hsy⟩ :=
    intersectionRounded_point EPSILON hpos hle l1 l2 out Q h1 h2 hQ
  have hsxR : |(sx : ℝ) - ((((l1.a.x : ℚ) + l1.param1 l2 * ((l1.b.x - l1.a.x : ℤ) : ℚ) : ℚ)) : ℝ)|
      < 1 / 2 ^ 25 := by
    have h := abs_sub_lt_real _ _ _ hsx
    have e : ((1 / 2 ^ 25 : ℚ) : ℝ) = 1 / 2 ^ 25 := by norm_num
    rw [e] at h
    exact h
  have hsyR : |(sy : ℝ) - ((((l1.a.y : ℚ) + l1.param1 l2 * ((l1.b.y - l1.a.y : ℤ) : ℚ) : ℚ)) : ℝ)|
      < 1 / 2 ^ 25 := by
    have h := abs_sub_lt_real _ _ _ hsy
    have e : ((1 / 2 ^ 25 : ℚ) : ℝ) = 1 / 2 ^ 25 := by norm_num
    rw [e] at h
    exact h
  have hcx : |((castCoord sx : ℤ) : ℝ) - (sx : ℝ)| < 1 := by
    exact_mod_cast castCoord_abs_sub_lt sx
  have hcy : |((castCoord sy : ℤ) : ℝ) - (sy : ℝ)| < 1 := by
    exact_mod_cast castCoord_abs_sub_lt sy
  refine ⟨(common_point_iff l1 l2 hD).mpr hp, ?_, ?_⟩
  · intro X Y hc1 hc2
    obtain ⟨hX, hY⟩ := common_point_coords l1 l2 hD X Y hc1 hc2
    rw [← hX] at hsxR
    rw [← hY] at hsyR
    rw [hqx, hqy]
    constructor
    · have := abs_sub_le ((castCoord sx : ℤ) : ℝ) (sx : ℝ) X
      linarith
    · have := abs_sub_le ((castCoord sy : ℤ) : ℝ) (sy : ℝ) Y
      linarith
  · intro P hc1 hc2
    obtain ⟨hX, hY⟩ := common_point_coords l1 l2 hD P.x P.y hc1 hc2
    rw [← hX] at hsxR
    rw [← hY] at hsyR
    have hx1 : |sx - (P.x : ℚ)| < 1 := by
      have : |(sx : ℝ) - ((P.x : ℤ) : ℝ)| < 1 := lt_trans hsxR (by norm_num)
      exact_mod_cast this
    have hy1 : |sy - (P.y : ℚ)| < 1 := by
      have : |(sy : ℝ) - ((P.y : ℤ) : ℝ)| < 1 := lt_trans hsyR (by norm_num)
      exact_mod_cast this
    rw [hqx, hqy]
    exact ⟨(castCoord_near_int sx P.x hx1).1, (castCoord_near_int sx P.x hx1).2,
      (castCoord_near_int sy P.y hy1).1, (castCoord_near_int sy P.y hy1).2⟩

/-- Witness of C4, amended: the segments (0,0)-(49,0) and (1,-1)-(1,1) cross at the grid
point (1,0), and the reported point (0,0) is one unit from it on the side of zero. -/
theorem intersection_point_near_witness :
    (0 : ℚ) < 1 / 10000 ∧ (1 / 10000 : ℚ) ≤ 1 ∧
    Line.within ⟨⟨0, 0⟩, ⟨49, 0⟩⟩ (2 ^ 25) ∧ Line.within ⟨⟨1, -1⟩, ⟨1, 1⟩⟩ (2 ^ 25) ∧
    Line.intersectionRounded binary64 (1 / 10000) ⟨⟨0, 0⟩, ⟨49, 0⟩⟩ ⟨⟨1, -1⟩, ⟨1, 1⟩⟩ ⟨7, 7⟩
      = (true, ⟨0, 0⟩) ∧
    (∀ X Y : ℝ, Line.contains ⟨⟨0, 0⟩, ⟨49, 0⟩⟩ X Y → Line.contains ⟨⟨1, -1⟩, ⟨1, 1⟩⟩ X Y →
      |(((⟨0, 0⟩ : Point).x : ℤ) : ℝ) - X| < 1 + 1 / 2 ^ 25 ∧
      |(((⟨0, 0⟩ : Point).y : ℤ) : ℝ) - Y| < 1 + 1 / 2 ^ 25) :=
  ⟨by norm_num, by norm_num, by decide, by decide, by decide!,
    (intersection_point_near (1 / 10000) (by norm_num) (by norm_num)
      ⟨⟨0, 0⟩, ⟨49, 0⟩⟩ ⟨⟨1, -1⟩, ⟨1, 1⟩⟩ ⟨7, 7⟩ ⟨0, 0⟩ (by decide) (by decide)
      (by decide!)).2.1⟩

/-- Counterexample to C25, with every double operation rounded to binary64: the segments
(0,0)-(3,0) and (1,-2)-(2,1) cross at (5/3, 0); the nearest grid value to 5/3 is 2, and
`intersection` reports x = 1, which is 2/3 of a grid unit away from the exact point. -/
theorem intersection_not_nearest :
    Line.intersectionRounded binary64 (1 / 10000) ⟨⟨0, 0⟩, ⟨3, 0⟩⟩ ⟨⟨1, -2⟩, ⟨2, 1⟩⟩ ⟨7, 7⟩
      = (true, ⟨1, 0⟩) ∧
    Line.contains ⟨⟨0, 0⟩, ⟨3, 0⟩⟩ (5 / 3) 0 ∧ Line.contains ⟨⟨1, -2⟩, ⟨2, 1⟩⟩ (5 / 3) 0 ∧
    round (5 / 3 : ℚ) = 2 ∧
    (1 / 2 : ℝ) < |(((⟨1, 0⟩ : Point).x : ℤ) : ℝ) - 5 / 3| := by
  refine ⟨by decide!, ⟨5 / 9, by norm_num, by norm_num, by norm_num, by norm_num⟩,
    ⟨2 / 3, by norm_num, by norm_num, by norm_num, by norm_num⟩, by decide!, ?_⟩
  rw [abs_of_neg (by norm_num)]
  norm_num

/-- C25, amended: when `intersection`, as computed in binary64 on segments whose
coordinates are below `2^25` in magnitude, reports a point `Q`, the segments have a common
point, and each coordinate of `Q` is the conversion to `coord_t`, a truncation toward zero,
of a double less than `2^-25` away from the exact coordinate. It is the exact coordinate
truncated toward zero whenever the exact coordinate is at least `2^-25` away from every
integer. -/
theorem intersection_point_truncates (EPSILON : ℚ) (hpos : 0 < EPSILON) (hle : EPSILON ≤ 1)
    (l1 l2 : Line) (out Q : Point) (h1 : l1.within (2 ^ 25)) (h2 : l2.within (2 ^ 25))
    (hQ : l1.intersectionRounded binary64 EPSILON l2 out = (true, Q)) :
    (∃ X Y : ℝ, l1.contains X Y ∧ l2.contains X Y) ∧
    (∀ X Y : ℝ, l1.contains X Y → l2.contains X Y →
      (∃ sx sy : ℚ, Q.x = castCoord sx ∧ Q.y = castCoord sy ∧
        |(sx : ℝ) - X| < 1 / 2 ^ 25 ∧ |(sy : ℝ) - Y| < 1 / 2 ^ 25) ∧
      ((∀ k : ℤ, 1 / 2 ^ 25 ≤ |X - (k : ℝ)|) → Q.x = castCoordReal X) ∧
      ((∀ k : ℤ, 1 / 2 ^ 25 ≤ |Y - (k : ℝ)|) → Q.y = castCoordReal Y)) := by
  obtain ⟨hD, hp, sx, sy, hqx, hqy, hsx, hsy⟩ :=
    intersectionRounded_point EPSILON hpos hle l1 l2 out Q h1 h2 hQ
  have hsxR : |(sx : ℝ) - ((((l1.a.x : ℚ) + l1.param1 l2 * ((l1.b.x - l1.a.x : ℤ) : ℚ) : ℚ)) : ℝ)|
      < 1 / 2 ^ 25 := by
    have h := abs_sub_lt_real _ _ _ hsx
    have e : ((1 / 2 ^ 25 : ℚ) : ℝ) = 1 / 2 ^ 25 := by norm_num
    rw [e] at h
    exact h
  have hsyR : |(sy : ℝ) - ((((l1.a.y : ℚ) + l1.param1 l2 * ((l1.b.y - l1.a.y : ℤ) : ℚ) : ℚ)) : ℝ)|
      < 1 / 2 ^ 25 := by
    have h := abs_sub_lt_real _ _ _ hsy
    have e : ((1 / 2 ^ 25 : ℚ) : ℝ) = 1 / 2 ^ 25 := by norm_num
    rw [e] at h
    exact h
  refine ⟨(common_point_iff l1 l2 hD).mpr hp, ?_⟩
  intro X Y hc1 hc2
  obtain ⟨hX, hY⟩ := common_point_coords l1 l2 hD X Y hc1 hc2
  rw [← hX] at hsxR
  rw [← hY] at hsyR
  refine ⟨⟨sx, sy, hqx, hqy, hsxR, hsyR⟩, ?_, ?_⟩
  · intro hfar
    rw [hqx]
    exact castCoord_eq_of_close sx X _ hsxR hfar
  · intro hfar
    rw [hqy]
    exact castCoord_eq_of_close sy Y _ hsyR hfar

/-- Witness of C25, amended: the segments (0,0)-(3,0) and (1,-2)-(2,1), whose reported
point is (1,0). -/
theorem intersection_point_truncates_witness :
    (0 : ℚ) < 1 / 10000 ∧ (1 / 10000 : ℚ) ≤ 1 ∧
    Line.within ⟨⟨0, 0⟩, ⟨3, 0⟩⟩ (2 ^ 25) ∧ Line.within ⟨⟨1, -2⟩, ⟨2, 1⟩⟩ (2 ^ 25) ∧
    Line.intersectionRounded binary64 (1 / 10000) ⟨⟨0, 0⟩, ⟨3, 0⟩⟩ ⟨⟨1, -2⟩, ⟨2, 1⟩⟩ ⟨7, 7⟩
      = (true, ⟨1, 0⟩) ∧
    (∃ X Y : ℝ, Line.contains ⟨⟨0, 0⟩, ⟨3, 0⟩⟩ X Y ∧ Line.contains ⟨⟨1, -2⟩, ⟨2, 1⟩⟩ X Y) :=
  ⟨by norm_num, by norm_num, by decide, by decide, by decide!,
    (intersection_point_truncates (1 / 10000) (by norm_num) (by norm_num)
      ⟨⟨0, 0⟩, ⟨3, 0⟩⟩ ⟨⟨1, -2⟩, ⟨2, 1⟩⟩ ⟨7, 7⟩ ⟨1, 0⟩ (by decide) (by decide)
      (by decide!)).1⟩

/-- The two functions compute the same `t1`: the numerator of `intersection_infinite` is
the numerator `nume_a` of `intersection`, also after rounding. -/
theorem rounded_nume_a_swap (l1 l2 : Line) :
    binary64 (binary64 (binary64 (((l2.a - l1.a).x : ℤ) : ℚ) * binary64 (((l2.b - l2.a).y : ℤ) : ℚ))
        - binary64 (binary64 (((l2.a - l1.a).y : ℤ) : ℚ) * binary64 (((l2.b - l2.a).x : ℤ) : ℚ)))
      = binary64 (binary64 (binary64 (((l2.b - l2.a).x : ℤ) : ℚ) * binary64 (((l1.a - l2.a).y : ℤ) : ℚ))
        - binary64 (binary64 (((l2.b - l2.a).y : ℤ) : ℚ) * binary64 (((l1.a - l2.a).x : ℤ) : ℚ))) := by
  have hx : binary64 (((l2.a - l1.a).x : ℤ) : ℚ) = -binary64 (((l1.a - l2.a).x : ℤ) : ℚ) := by
    rw [← binary64_neg]
    congr 1
    show (((Point.sub l2.a l1.a).x : ℤ) : ℚ) = -(((Point.sub l1.a l2.a).x : ℤ) : ℚ)
    simp only [Point.sub]
    push_cast
    ring
  have hy : binary64 (((l2.a - l1.a).y : ℤ) : ℚ) = -binary64 (((l1.a - l2.a).y : ℤ) : ℚ) := by
    rw [← binary64_neg]
    congr 1
    show (((Point.sub l2.a l1.a).y : ℤ) : ℚ) = -(((Point.sub l1.a l2.a).y : ℤ) : ℚ)
    simp only [Point.sub]
    push_cast
    ring
  rw [hx, hy, neg_mul, neg_mul, binary64_neg, binary64_neg]
  congr 1
  rw [mul_comm (binary64 (((l1.a - l2.a).x : ℤ) : ℚ)), mul_comm (binary64 (((l1.a - l2.a).y : ℤ) : ℚ))]
  ring

/-- Whenever the rounded `intersection` reports a point that lies in the range of
`coord_t`, the rounded `intersection_infinite` reports the same point. -/
theorem intersection_infiniteRounded_of_intersection (EPSILON : ℚ) (COORD_MAX : ℤ)
    (l1 l2 : Line) (out Q : Point)
    (hQ : l1.intersectionRounded binary64 EPSILON l2 out = (true, Q))
    (hx : -COORD_MAX - 1 ≤ Q.x ∧ Q.x ≤ COORD_MAX)
    (hy : -COORD_MAX - 1 ≤ Q.y ∧ Q.y ≤ COORD_MAX) :
    l1.intersection_infiniteRounded binary64 EPSILON COORD_MAX l2 out = .value (true, Q) := by
  have hsw := rounded_nume_a_swap l1 l2
  unfold Line.intersectionRounded at hQ
  unfold Line.intersection_infiniteRounded
  simp only at hQ ⊢
  rw [hsw]
  split_ifs at hQ with hd hp
  · simp at hQ
  · rw [if_neg hd]
    simp only [Prod.mk.injEq, true_and] at hQ
    have hqx : castCoord (binary64 (binary64 (l1.a.x : ℚ) + binary64 (binary64
        (binary64 (binary64 (binary64 (((l2.b - l2.a).x : ℤ) : ℚ) * binary64 (((l1.a - l2.a).y : ℤ) : ℚ))
          - binary64 (binary64 (((l2.b - l2.a).y : ℤ) : ℚ) * binary64 (((l1.a - l2.a).x : ℤ) : ℚ)))
        / binary64 (binary64 (binary64 (((l1.b - l1.a).x : ℤ) : ℚ) * binary64 (((l2.b - l2.a).y : ℤ) : ℚ))
          - binary64 (binary64 (((l1.b - l1.a).y : ℤ) : ℚ) * binary64 (((l2.b - l2.a).x : ℤ) : ℚ))))
        * binary64 (((l1.b - l1.a).x : ℤ) : ℚ)))) = Q.x := by rw [← hQ]
    have hqy : castCoord (binary64 (binary64 (l1.a.y : ℚ) + binary64 (binary64
        (binary64 (binary64 (binary64 (((l2.b - l2.a).x : ℤ) : ℚ) * binary64 (((l1.a - l2.a).y : ℤ) : ℚ))
          - binary64 (binary64 (((l2.b - l2.a).y : ℤ) : ℚ) * binary64 (((l1.a - l2.a).x : ℤ) : ℚ)))
        / binary64 (binary64 (binary64 (((l1.b - l1.a).x : ℤ) : ℚ) * binary64 (((l2.b - l2.a).y : ℤ) : ℚ))
          - binary64 (binary64 (((l1.b - l1.a).y : ℤ) : ℚ) * binary64 (((l2.b - l2.a).x : ℤ) : ℚ))))
        * binary64 (((l1.b - l1.a).y : ℤ) : ℚ)))) = Q.y := by rw [← hQ]
    unfold castCoordChecked
    rw [hqx, hqy, if_pos hx, if_pos hy]
    rfl
  · simp at hQ

/-- Unfolding of the rounded `intersection_infinite` on coordinates below `2^25`: the cross
products are exact, `t1` is the exact parameter `param1` rounded, and the point is computed
from it with a rounded product and a rounded sum. -/
theorem intersection_infiniteRounded_bounded_eq (EPSILON : ℚ) (hpos : 0 < EPSILON)
    (hle : EPSILON ≤ 1) (COORD_MAX : ℤ) (l1 l2 : Line) (out : Point)
    (h1 : l1.within (2 ^ 25)) (h2 : l2.within (2 ^ 25)) :
    l1.intersection_infiniteRounded binary64 EPSILON COORD_MAX l2 out =
      if l1.dirCross l2 = 0 then .value (false, out)
      else
        (Outcome.ofCoords
          (castCoordChecked COORD_MAX (binary64 ((l1.a.x : ℚ)
            + binary64 (binary64 (l1.param1 l2) * ((l1.b.x - l1.a.x : ℤ) : ℚ)))))
          (castCoordChecked COORD_MAX (binary64 ((l1.a.y : ℚ)
            + binary64 (binary64 (l1.param1 l2) * ((l1.b.y - l1.a.y : ℤ) : ℚ)))))).map
          (fun p => (true, p)) := by
  have hsw := rounded_nume_a_swap l1 l2
  obtain ⟨ha1x, ha1y, hb1x, hb1y⟩ := h1
  obtain ⟨ha2x, ha2y, hb2x, hb2y⟩ := h2
  have d1x := abs_sub_lt_of_within _ _ hb1x ha1x
  have d1y := abs_sub_lt_of_within _ _ hb1y ha1y
  have d2x := abs_sub_lt_of_within _ _ hb2x ha2x
  have d2y := abs_sub_lt_of_within _ _ hb2y ha2y
  have dwx := abs_sub_lt_of_within _ _ ha1x ha2x
  have dwy := abs_sub_lt_of_within _ _ ha1y ha2y
  have hv1x : binary64 (((l1.b - l1.a).x : ℤ) : ℚ) = ((l1.b.x - l1.a.x : ℤ) : ℚ) :=
    binary64_diff_exact _ _ hb1x ha1x
  have hv1y : binary64 (((l1.b - l1.a).y : ℤ) : ℚ) = ((l1.b.y - l1.a.y : ℤ) : ℚ) :=
    binary64_diff_exact _ _ hb1y ha1y
  have hv2x : binary64 (((l2.b - l2.a).x : ℤ) : ℚ) = ((l2.b.x - l2.a.x : ℤ) : ℚ) :=
    binary64_diff_exact _ _ hb2x ha2x
  have hv2y : binary64 (((l2.b - l2.a).y : ℤ) : ℚ) = ((l2.b.y - l2.a.y : ℤ) : ℚ) :=
    binary64_diff_exact _ _ hb2y ha2y
  have hwx : binary64 (((l1.a - l2.a).x : ℤ) : ℚ) = ((l1.a.x - l2.a.x : ℤ) : ℚ) :=
    binary64_diff_exact _ _ ha1x ha2x
  have hwy : binary64 (((l1.a - l2.a).y : ℤ) : ℚ) = ((l1.a.y - l2.a.y : ℤ) : ℚ) :=
    binary64_diff_exact _ _ ha1y ha2y
  have hax : binary64 ((l1.a.x : ℤ) : ℚ) = ((l1.a.x : ℤ) : ℚ) :=
    binary64_intCast _ (lt_trans ha1x (by norm_num))
  have hay : binary64 ((l1.a.y : ℤ) : ℚ) = ((l1.a.y : ℤ) : ℚ) :=
    binary64_intCast _ (lt_trans ha1y (by norm_num))
  obtain ⟨hden, _⟩ := binary64_sub_mul_exact _ _ _ _ d1x d2y d1y d2x
  obtain ⟨hna, _⟩ := binary64_sub_mul_exact _ _ _ _ d2x dwy d2y dwx
  have hD : ((l1.b.x - l1.a.x) * (l2.b.y - l2.a.y) - (l1.b.y - l1.a.y) * (l2.b.x - l2.a.x))
      = l1.dirCross l2 := rfl
  rw [hD] at hden
  have hp1 : (((l2.b.x - l2.a.x) * (l1.a.y - l2.a.y)
      - (l2.b.y - l2.a.y) * (l1.a.x - l2.a.x) : ℤ) : ℚ) / ((l1.dirCross l2 : ℤ) : ℚ)
      = l1.param1 l2 := rfl
  unfold Line.intersection_infiniteRounded
  simp only
  rw [hsw]
  simp only [hv1x, hv1y, hv2x, hv2y, hwx, hwy, hax, hay, hden, hna, hp1]
  by_cases h0 : l1.dirCross l2 = 0
  · simp [h0, hpos]
  · have hne : ¬ |((l1.dirCross l2 : ℤ) : ℚ)| < EPSILON := by
      rw [abs_intCast_lt_iff EPSILON hpos hle]; exact h0
    simp only [hne, h0, if_false]

/-- Counterexample to C8, with every double operation rounded to binary64
(`EPSILON = 1e-4`, a 64-bit `coord_t`). For the segments (0,0)-(200000001,200000000) and
(0,0)-(200000002,200000001) the cross product of the directions is 1, the double
denominator is 0.0 and `intersection_infinite` reports nothing. For the segments
(0,0)-(16777215,16777214) and (-16777215,16777215)-(-1,33554428) the cross product is -1,
the point lies beyond the range of `coord_t` and its conversion is undefined. -/
theorem intersection_infinite_not_iff :
    Line.intersection_infiniteRounded binary64 (1 / 10000) (2 ^ 63 - 1)
      ⟨⟨0, 0⟩, ⟨200000001, 200000000⟩⟩ ⟨⟨0, 0⟩, ⟨200000002, 200000001⟩⟩ ⟨7, 7⟩
      = .value (false, ⟨7, 7⟩) ∧
    Line.dirCross ⟨⟨0, 0⟩, ⟨200000001, 200000000⟩⟩ ⟨⟨0, 0⟩, ⟨200000002, 200000001⟩⟩ = 1 ∧
    Line.intersection_infiniteRounded binary64 (1 / 10000) (2 ^ 63 - 1)
      ⟨⟨0, 0⟩, ⟨16777215, 16777214⟩⟩ ⟨⟨-16777215, 16777215⟩, ⟨-1, 33554428⟩⟩ ⟨7, 7⟩
      = .undefined ∧
    Line.dirCross ⟨⟨0, 0⟩, ⟨16777215, 16777214⟩⟩ ⟨⟨-16777215, 16777215⟩, ⟨-1, 33554428⟩⟩ = -1 := by
  refine ⟨by decide!, by decide!, by decide!, by decide!⟩

/-- C8, amended: `intersection_infinite` performs the solve of `intersection` without the
bounds, both computed in binary64. Whenever `intersection` reports a point, and the point
lies in the range of `coord_t`, `intersection_infinite` reports the same point. On
segments whose coordinates are below `2^25` in magnitude the cross products are exact:
with a zero cross product of the directions nothing is reported and the output point is
left as it was; with a non-zero one the point is `a + t1 (b - a)` of the receiver, with
`t1` the parameter of `intersection` rounded, the product and the sum rounded, converted
to `coord_t`: it is reported when both coordinates lie in the range of `coord_t`, and the
behaviour is undefined when one does not. -/
theorem intersection_infinite_solve (EPSILON : ℚ) (hpos : 0 < EPSILON) (hle : EPSILON ≤ 1)
    (COORD_MAX : ℤ) (l1 l2 : Line) (out : Point) :
    (∀ Q : Point, l1.intersectionRounded binary64 EPSILON l2 out = (true, Q) →
      (-COORD_MAX - 1 ≤ Q.x ∧ Q.x ≤ COORD_MAX) → (-COORD_MAX - 1 ≤ Q.y ∧ Q.y ≤ COORD_MAX) →
      l1.intersection_infiniteRounded binary64 EPSILON COORD_MAX l2 out = .value (true, Q)) ∧
    (l1.within (2 ^ 25) → l2.within (2 ^ 25) →
      (l1.dirCross l2 = 0 →
        l1.intersection_infiniteRounded binary64 EPSILON COORD_MAX l2 out
          = .value (false, out)) ∧
      (l1.dirCross l2 ≠ 0 →
        l1.intersection_infiniteRounded binary64 EPSILON COORD_MAX l2 out =
          (Outcome.ofCoords
            (castCoordChecked COORD_MAX (binary64 ((l1.a.x : ℚ)
              + binary64 (binary64 (l1.param1 l2) * ((l1.b.x - l1.a.x : ℤ) : ℚ)))))
            (castCoordChecked COORD_MAX (binary64 ((l1.a.y : ℚ)
              + binary64 (binary64 (l1.param1 l2) * ((l1.b.y - l1.a.y : ℤ) : ℚ)))))).map
            (fun p => (true, p))) ∧
      ((∃ P : Point, l1.intersection_infiniteRounded binary64 EPSILON COORD_MAX l2 out
          = .value (true, P)) → l1.dirCross l2 ≠ 0)) := by
  refine ⟨fun Q hQ hx hy =>
    intersection_infiniteRounded_of_intersection EPSILON COORD_MAX l1 l2 out Q hQ hx hy, ?_⟩
  intro h1 h2
  have h := intersection_infiniteRounded_bounded_eq EPSILON hpos hle COORD_MAX l1 l2 out h1 h2
  refine ⟨?_, ?_, ?_⟩
  · intro hD
    rw [h, if_pos hD]
  · intro hD
    rw [h, if_neg hD]
  · rintro ⟨P, hP⟩ hD
    rw [h, if_pos hD] at hP
    simp at hP

/-- Witness of C8, amended, with a 32-bit `coord_t`: on the segments (0,0)-(4,0) and
(1,-1)-(2,2) both functions report (1,0). -/
theorem intersection_infinite_solve_witness :
    (0 : ℚ) < 1 / 10000 ∧ (1 / 10000 : ℚ) ≤ 1 ∧
    Line.intersectionRounded binary64 (1 / 10000) ⟨⟨0, 0⟩, ⟨4, 0⟩⟩ ⟨⟨1, -1⟩, ⟨2, 2⟩⟩ ⟨7, 7⟩
      = (true, ⟨1, 0⟩) ∧
    Line.intersection_infiniteRounded binary64 (1 / 10000) (2 ^ 31 - 1) ⟨⟨0, 0⟩, ⟨4, 0⟩⟩
      ⟨⟨1, -1⟩, ⟨2, 2⟩⟩ ⟨7, 7⟩ = .value (true, ⟨1, 0⟩) :=
  ⟨by norm_num, by norm_num, by decide!,
    (intersection_infinite_solve (1 / 10000) (by norm_num) (by norm_num) (2 ^ 31 - 1)
      ⟨⟨0, 0⟩, ⟨4, 0⟩⟩ ⟨⟨1, -1⟩, ⟨2, 2⟩⟩ ⟨7, 7⟩).1 ⟨1, 0⟩ (by decide!) (by decide) (by decide)⟩

/-! ## Lemmas on the rounded square root -/

theorem sqrtBits_spec (N : ℕ) : ∀ (i r : ℕ), r ^ 2 ≤ N → N < (r + 2 ^ (i + 1)) ^ 2 →
    sqrtBits N i r ^ 2 ≤ N ∧ N < (sqrtBits N i r + 1) ^ 2
  | 0, r, h1, h2 => by
    simp only [sqrtBits]
    by_cases h : (r + 1) ^ 2 ≤ N
    · rw [if_pos h]
      refine ⟨h, ?_⟩
      have : r + 2 ^ (0 + 1) = r + 1 + 1 := by norm_num
      rw [this] at h2
      exact h2
    · rw [if_neg h]
      exact ⟨h1, lt_of_not_le h⟩
  | i + 1, r, h1, h2 => by
    simp only [sqrtBits]
    by_cases h : (r + 2 ^ (i + 1)) ^ 2 ≤ N
    · rw [if_pos h]
      apply sqrtBits_spec N i _ h
      have : r + 2 ^ (i + 1) + 2 ^ (i + 1) = r + 2 ^ (i + 1 + 1) := by ring
      rw [this]
      exact h2
    · rw [if_neg h]
      exact sqrtBits_spec N i r h1 (lt_of_not_le h)

theorem sqrtFloor_spec (N : ℕ) : sqrtFloor N ^ 2 ≤ N ∧ N < (sqrtFloor N + 1) ^ 2 := by
  unfold sqrtFloor
  apply sqrtBits_spec N _ 0 (by simp)
  rw [log2Floor_eq_log, zero_add, ← pow_mul]
  have h1 : N < 2 ^ (Nat.log 2 N + 1) := Nat.lt_pow_succ_log_self (by norm_num) N
  have h2 : Nat.log 2 N + 1 ≤ (Nat.log 2 N / 2 + 1) * 2 := by omega
  exact lt_of_lt_of_le h1 (Nat.pow_le_pow_right (by norm_num) h2)

/-- The exponent that `binary64Pos` and `binary64Sqrt` compute for a positive quotient is
its binary exponent. -/
theorem binaryExponent_spec (n d : ℕ) (hn : 0 < n) (hd : 0 < d) (L : ℤ)
    (hL : L = if d * 2 ^ ((log2Floor n : ℤ) - (log2Floor d : ℤ)).toNat
        ≤ n * 2 ^ (-((log2Floor n : ℤ) - (log2Floor d : ℤ))).toNat
      then (log2Floor n : ℤ) - (log2Floor d : ℤ)
      else (log2Floor n : ℤ) - (log2Floor d : ℤ) - 1) :
    (2 : ℚ) ^ L ≤ (n : ℚ) / d ∧ (n : ℚ) / d < 2 ^ (L + 1) := by
  have hnq : (0 : ℚ) < n := by exact_mod_cast hn
  have hdq : (0 : ℚ) < d := by exact_mod_cast hd
  have hn1 : ((2 : ℚ) ^ (Nat.log 2 n)) ≤ n := by
    exact_mod_cast Nat.pow_log_le_self 2 (ne_of_gt hn)
  have hn2 : (n : ℚ) < (2 : ℚ) ^ (Nat.log 2 n + 1) := by
    exact_mod_cast Nat.lt_pow_succ_log_self (by norm_num) n
  have hd1 : ((2 : ℚ) ^ (Nat.log 2 d)) ≤ d := by
    exact_mod_cast Nat.pow_log_le_self 2 (ne_of_gt hd)
  have hd2 : (d : ℚ) < (2 : ℚ) ^ (Nat.log 2 d + 1) := by
    exact_mod_cast Nat.lt_pow_succ_log_self (by norm_num) d
  have h2 : (2 : ℚ) ≠ 0 := by norm_num
  obtain ⟨E, hE⟩ : ∃ E : ℤ, E = (log2Floor n : ℤ) - (log2Floor d : ℤ) := ⟨_, rfl⟩
  rw [← hE] at hL
  have hEpow : (2 : ℚ) ^ E = 2 ^ (Nat.log 2 n) / 2 ^ (Nat.log 2 d) := by
    rw [hE, log2Floor_eq_log, log2Floor_eq_log, zpow_sub₀ h2, zpow_natCast, zpow_natCast]
  have hupper : (n : ℚ) / d < 2 ^ (E + 1) := by
    rw [zpow_add₀ h2, hEpow, zpow_one, div_lt_iff₀ hdq]
    have hpos : (0 : ℚ) < 2 ^ (Nat.log 2 d) := by positivity
    calc (n : ℚ) < 2 ^ (Nat.log 2 n + 1) := hn2
      _ = 2 ^ (Nat.log 2 n) / 2 ^ (Nat.log 2 d) * 2 * 2 ^ (Nat.log 2 d) := by
          field_simp; ring
      _ ≤ 2 ^ (Nat.log 2 n) / 2 ^ (Nat.log 2 d) * 2 * d := by
          apply mul_le_mul_of_nonneg_left hd1; positivity
  have hlower : (2 : ℚ) ^ (E - 1) ≤ (n : ℚ) / d := by
    rw [zpow_sub₀ h2, hEpow, zpow_one, le_div_iff₀ hdq]
    have hpos : (0 : ℚ) < 2 ^ (Nat.log 2 d) := by positivity
    calc 2 ^ (Nat.log 2 n) / 2 ^ (Nat.log 2 d) / 2 * (d : ℚ)
        ≤ 2 ^ (Nat.log 2 n) / 2 ^ (Nat.log 2 d) / 2 * 2 ^ (Nat.log 2 d + 1) := by
          apply mul_le_mul_of_nonneg_left (le_of_lt hd2); positivity
      _ = 2 ^ (Nat.log 2 n) := by field_simp; ring
      _ ≤ n := hn1
  have htest : (d * 2 ^ E.toNat ≤ n * 2 ^ (-E).toNat) ↔ (2 : ℚ) ^ E ≤ (n : ℚ) / d := by
    rw [two_zpow_split E, div_le_div_iff₀ (by positivity) hdq]
    constructor
    · intro h
      have : ((d * 2 ^ E.toNat : ℕ) : ℚ) ≤ ((n * 2 ^ (-E).toNat : ℕ) : ℚ) := by exact_mod_cast h
      push_cast at this
      linarith
    · intro h
      have : ((d * 2 ^ E.toNat : ℕ) : ℚ) ≤ ((n * 2 ^ (-E).toNat : ℕ) : ℚ) := by
        push_cast; linarith
      exact_mod_cast this
  by_cases ht : d * 2 ^ E.toNat ≤ n * 2 ^ (-E).toNat
  · rw [hL, if_pos ht]; exact ⟨htest.mp ht, hupper⟩
  · rw [hL, if_neg ht, sub_add_cancel]
    exact ⟨hlower, lt_of_not_le (fun h => ht (htest.mpr h))⟩

theorem four_zpow_split (e : ℤ) : (2 : ℚ) ^ (2 * e) = 4 ^ e.toNat / 4 ^ (-e).toNat := by
  have h4 : (4 : ℚ) = 2 ^ 2 := by norm_num
  rcases le_total 0 e with h | h
  · obtain ⟨k, rfl⟩ := Int.eq_ofNat_of_zero_le h
    simp only [Int.toNat_ofNat, Int.toNat_neg_nat, pow_zero, div_one]
    rw [h4, ← pow_mul]
    norm_cast
  · obtain ⟨k, rfl⟩ := Int.exists_eq_neg_ofNat h
    simp only [neg_neg, Int.toNat_ofNat, Int.toNat_neg_nat, pow_zero, one_div]
    rw [h4, ← pow_mul, mul_neg, zpow_neg]
    norm_cast

theorem le_of_sq_le_sq_nonneg (a b : ℝ) (hb : 0 ≤ b) (h : a ^ 2 ≤ b ^ 2) : a ≤ b := by
  by_contra hc
  have hc' : b < a := lt_of_not_le hc
  have := mul_pos (sub_pos.mpr hc') (lt_of_le_of_lt hb hc')
  nlinarith

theorem lt_of_sq_lt_sq_nonneg (a b : ℝ) (hb : 0 ≤ b) (h : a ^ 2 < b ^ 2) : a < b := by
  by_contra hc
  have hc' : b ≤ a := not_lt.mp hc
  have := mul_le_mul hc' hc' hb (le_trans hb hc')
  nlinarith

/-- The rounding step of `binary64Sqrt`: the integer chosen by comparing squares is within
one half of the root. -/
theorem sqrtRound_spec (N D m0 : ℕ) (hD : 0 < D) (z : ℝ) (hz0 : 0 ≤ z)
    (hz2 : z ^ 2 = (N : ℝ) / (D : ℝ)) (hm0 : m0 = sqrtFloor (N / D)) :
    |(((if 4 * N < (2 * m0 + 1) ^ 2 * D then m0
        else if (2 * m0 + 1) ^ 2 * D < 4 * N then m0 + 1
        else if m0 % 2 = 0 then m0 else m0 + 1 : ℕ)) : ℝ) - z| ≤ 1 / 2 := by
  have hDR : (0 : ℝ) < (D : ℝ) := by exact_mod_cast hD
  obtain ⟨hs1, hs2⟩ := sqrtFloor_spec (N / D)
  rw [← hm0] at hs1 hs2
  have hfloor1 : ((N / D : ℕ) : ℝ) ≤ (N : ℝ) / (D : ℝ) := by
    rw [le_div_iff₀ hDR]
    exact_mod_cast Nat.div_mul_le_self N D
  have hfloor2 : (N : ℝ) / (D : ℝ) < ((N / D : ℕ) : ℝ) + 1 := by
    rw [div_lt_iff₀ hDR]
    have h2 : N < (N / D + 1) * D := by
      have h3 := Nat.div_add_mod N D
      have h4 := Nat.mod_lt N hD
      nlinarith
    exact_mod_cast h2
  have hm0R : (0 : ℝ) ≤ (m0 : ℝ) := Nat.cast_nonneg m0
  have hlow : (m0 : ℝ) ≤ z := by
    apply le_of_sq_le_sq_nonneg _ _ hz0
    rw [hz2]
    have : ((m0 ^ 2 : ℕ) : ℝ) ≤ ((N / D : ℕ) : ℝ) := by exact_mod_cast hs1
    push_cast at this
    linarith
  have hhigh : z < (m0 : ℝ) + 1 := by
    apply lt_of_sq_lt_sq_nonneg _ _ (by linarith)
    rw [hz2]
    have : ((N / D : ℕ) : ℝ) + 1 ≤ (((m0 + 1) ^ 2 : ℕ) : ℝ) := by exact_mod_cast hs2
    push_cast at this
    linarith
  have hcmp1 : 4 * N < (2 * m0 + 1) ^ 2 * D ↔ z ^ 2 < ((m0 : ℝ) + 1 / 2) ^ 2 := by
    rw [hz2, div_lt_iff₀ hDR]
    constructor
    · intro h
      have : ((4 * N : ℕ) : ℝ) < (((2 * m0 + 1) ^ 2 * D : ℕ) : ℝ) := by exact_mod_cast h
      push_cast at this
      linarith
    · intro h
      have : ((4 * N : ℕ) : ℝ) < (((2 * m0 + 1) ^ 2 * D : ℕ) : ℝ) := by
        push_cast; linarith
      exact_mod_cast this
  have hcmp2 : (2 * m0 + 1) ^ 2 * D < 4 * N ↔ ((m0 : ℝ) + 1 / 2) ^ 2 < z ^ 2 := by
    rw [hz2, lt_div_iff₀ hDR]
    constructor
    · intro h
      have : (((2 * m0 + 1) ^ 2 * D : ℕ) : ℝ) < ((4 * N : ℕ) : ℝ) := by exact_mod_cast h
      push_cast at this
      linarith
    · intro h
      have : (((2 * m0 + 1) ^ 2 * D : ℕ) : ℝ) < ((4 * N : ℕ) : ℝ) := by
        push_cast; linarith
      exact_mod_cast this
  rw [abs_le]
  by_cases c1 : 4 * N < (2 * m0 + 1) ^ 2 * D
  · rw [if_pos c1]
    have := lt_of_sq_lt_sq_nonneg _ _ (by linarith) (hcmp1.mp c1)
    constructor <;> linarith
  · by_cases c2 : (2 * m0 + 1) ^ 2 * D < 4 * N
    · rw [if_neg c1, if_pos c2]
      have := lt_of_sq_lt_sq_nonneg _ _ hz0 (hcmp2.mp c2)
      push_cast
      constructor <;> linarith
    · have hle1 : ((m0 : ℝ) + 1 / 2) ^ 2 ≤ z ^ 2 :=
        not_lt.mp (fun h => c1 (hcmp1.mpr h))
      have hle2 : z ^ 2 ≤ ((m0 : ℝ) + 1 / 2) ^ 2 :=
        not_lt.mp (fun h => c2 (hcmp2.mpr h))
      have h1 := le_of_sq_le_sq_nonneg _ _ hz0 hle1
      have h2 := le_of_sq_le_sq_nonneg _ _ (by linarith : (0 : ℝ) ≤ (m0 : ℝ) + 1 / 2) hle2
      rw [if_neg c1, if_neg c2]
      by_cases c3 : m0 % 2 = 0
      · rw [if_pos c3]; constructor <;> linarith
      · rw [if_neg c3]; push_cast; constructor <;> linarith

/-- The value of `binary64Sqrt` on a positive number: an integer `m` times `2^e`, where
`2^(e + 52)` is at most the root and `m` is within one half of the root divided by
`2^e`. -/
theorem binary64Sqrt_spec (q : ℚ) (hq : 0 < q) :
    ∃ (e : ℤ) (m : ℕ), binary64Sqrt q = (m : ℚ) * 2 ^ e ∧
      (2 : ℝ) ^ (e + 52) ≤ Real.sqrt (q : ℝ) ∧
      |(m : ℝ) - Real.sqrt (q : ℝ) / 2 ^ e| ≤ 1 / 2 := by
  have hnum : 0 < q.num := Rat.num_pos.mpr hq
  have hn : 0 < q.num.natAbs := Int.natAbs_pos.mpr (ne_of_gt hnum)
  have hd : 0 < q.den := q.den_pos
  have hcast : ((q.num.natAbs : ℕ) : ℚ) / (q.den : ℚ) = q := by
    have h1 : ((q.num.natAbs : ℕ) : ℤ) = q.num := Int.natAbs_of_nonneg (le_of_lt hnum)
    have h2 : ((q.num.natAbs : ℕ) : ℚ) = ((q.num : ℤ) : ℚ) := by
      rw [← Int.cast_natCast, h1]
    rw [h2]
    exact Rat.num_div_den q
  obtain ⟨L2, hL2⟩ : ∃ L2 : ℤ, L2 =
      if q.den * 2 ^ ((log2Floor q.num.natAbs : ℤ) - (log2Floor q.den : ℤ)).toNat
        ≤ q.num.natAbs * 2 ^ (-((log2Floor q.num.natAbs : ℤ) - (log2Floor q.den : ℤ))).toNat
      then (log2Floor q.num.natAbs : ℤ) - (log2Floor q.den : ℤ)
      else (log2Floor q.num.natAbs : ℤ) - (log2Floor q.den : ℤ) - 1 := ⟨_, rfl⟩
  obtain ⟨hq1, _⟩ := binaryExponent_spec q.num.natAbs q.den hn hd L2 hL2
  rw [hcast] at hq1
  obtain ⟨e, he⟩ : ∃ e : ℤ, e = L2 / 2 - 52 := ⟨_, rfl⟩
  obtain ⟨n, hnn⟩ : ∃ n : ℕ, n = q.num.natAbs := ⟨_, rfl⟩
  obtain ⟨d, hdd⟩ : ∃ d : ℕ, d = q.den := ⟨_, rfl⟩
  rw [← hnn, ← hdd] at hcast
  rw [← hdd] at hd
  obtain ⟨N, hN⟩ : ∃ N : ℕ, N = n * 4 ^ (-e).toNat := ⟨_, rfl⟩
  obtain ⟨D, hDd⟩ : ∃ D : ℕ, D = d * 4 ^ e.toNat := ⟨_, rfl⟩
  obtain ⟨m0, hm0⟩ : ∃ m0 : ℕ, m0 = sqrtFloor (N / D) := ⟨_, rfl⟩
  have hval : binary64Sqrt q =
      (((if 4 * N < (2 * m0 + 1) ^ 2 * D then m0
        else if (2 * m0 + 1) ^ 2 * D < 4 * N then m0 + 1
        else if m0 % 2 = 0 then m0 else m0 + 1 : ℕ)) : ℚ) * 2 ^ e := by
    unfold binary64Sqrt
    rw [if_pos hq]
    simp only
    rw [← hL2, ← he, ← hnn, ← hdd, ← hN, ← hDd, ← hm0, two_zpow_split e, mul_div_assoc]
  have hDpos : 0 < D := by rw [hDd]; exact Nat.mul_pos hd (by positivity)
  have hdq : (0 : ℚ) < (d : ℚ) := by exact_mod_cast hd
  have hquot : (N : ℚ) / (D : ℚ) = (n : ℚ) / (d : ℚ) / 2 ^ (2 * e) := by
    rw [hN, hDd, four_zpow_split e]
    push_cast
    field_simp
  rw [hcast] at hquot
  have hquotR : (N : ℝ) / (D : ℝ) = (q : ℝ) / 2 ^ (2 * e) := by
    have := congrArg (fun x : ℚ => (x : ℝ)) hquot
    simp only at this
    push_cast at this
    exact this
  have hqR : (0 : ℝ) < (q : ℝ) := by exact_mod_cast hq
  have hy : Real.sqrt (q : ℝ) ^ 2 = (q : ℝ) := Real.sq_sqrt (le_of_lt hqR)
  have hy0 : 0 < Real.sqrt (q : ℝ) := Real.sqrt_pos.mpr hqR
  have hc : (0 : ℝ) < 2 ^ e := by positivity
  have hz0 : 0 ≤ Real.sqrt (q : ℝ) / 2 ^ e := le_of_lt (div_pos hy0 hc)
  have hz2 : (Real.sqrt (q : ℝ) / 2 ^ e) ^ 2 = (N : ℝ) / (D : ℝ) := by
    rw [div_pow, hy, hquotR]
    congr 1
    rw [← zpow_natCast, ← zpow_mul]
    congr 1
    ring
  have hround := sqrtRound_spec N D m0 hDpos _ hz0 hz2 hm0
  have hexp : (2 : ℝ) ^ (e + 52) ≤ Real.sqrt (q : ℝ) := by
    have h2L : 2 * (e + 52) ≤ L2 := by rw [he]; omega
    have hq1R : (2 : ℝ) ^ L2 ≤ (q : ℝ) := by
      have := (Rat.cast_le (K := ℝ)).mpr hq1
      push_cast at this
      exact this
    have hsq : ((2 : ℝ) ^ (e + 52)) ^ 2 ≤ (q : ℝ) := by
      have h1 : ((2 : ℝ) ^ (e + 52)) ^ 2 = 2 ^ (2 * (e + 52)) := by
        rw [← zpow_natCast, ← zpow_mul]; congr 1; ring
      rw [h1]
      exact le_trans (zpow_le_zpow_right₀ (by norm_num) h2L) hq1R
    exact Real.le_sqrt_of_sq_le hsq
  exact ⟨e, _, hval, hexp, hround⟩

theorem binary64Sqrt_zero : binary64Sqrt 0 = 0 := by
  unfold binary64Sqrt
  rw [if_neg (lt_irrefl 0)]

/-- The relative error of the rounded square root is at most `2^-53`. -/
theorem binary64Sqrt_error (q : ℚ) (hq : 0 ≤ q) :
    |((binary64Sqrt q : ℚ) : ℝ) - Real.sqrt (q : ℝ)| ≤ Real.sqrt (q : ℝ) / 2 ^ 53 := by
  rcases eq_or_lt_of_le hq with h0 | h0
  · rw [← h0, binary64Sqrt_zero]
    simp
  · obtain ⟨e, m, hv, hexp, hr⟩ := binary64Sqrt_spec q h0
    have hc : (0 : ℝ) < 2 ^ e := by positivity
    have h2 : (2 : ℝ) ≠ 0 := by norm_num
    have hsub : ((binary64Sqrt q : ℚ) : ℝ) - Real.sqrt (q : ℝ)
        = ((m : ℝ) - Real.sqrt (q : ℝ) / 2 ^ e) * 2 ^ e := by
      rw [hv]
      push_cast
      field_simp
    have hsplit : (2 : ℝ) ^ (e + 52) = 2 ^ e * 2 ^ (52 : ℕ) := by
      rw [zpow_add₀ h2]; norm_cast
    rw [hsub, abs_mul, abs_of_pos hc]
    calc |(m : ℝ) - Real.sqrt (q : ℝ) / 2 ^ e| * 2 ^ e
        ≤ 1 / 2 * 2 ^ e := mul_le_mul_of_nonneg_right hr (le_of_lt hc)
      _ = 2 ^ (e + 52) / 2 ^ 53 := by rw [hsplit]; field_simp; ring
      _ ≤ Real.sqrt (q : ℝ) / 2 ^ 53 := div_le_div_of_nonneg_right hexp (by positivity)

theorem binary64Sqrt_pos (q : ℚ) (hq : 0 < q) : 0 < binary64Sqrt q := by
  have h := binary64Sqrt_error q (le_of_lt hq)
  have hy : 0 < Real.sqrt (q : ℝ) := Real.sqrt_pos.mpr (by exact_mod_cast hq)
  have hlow := (abs_le.mp h).1
  have hfrac : Real.sqrt (q : ℝ) / 2 ^ 53 < Real.sqrt (q : ℝ) := by
    rw [div_lt_iff₀ (by positivity)]
    have : (1 : ℝ) < 2 ^ 53 := by norm_num
    nlinarith
  have : (0 : ℝ) < ((binary64Sqrt q : ℚ) : ℝ) := by linarith
  exact_mod_cast this

/-- The rounded square root on known values: the roots of 2, 3 and 5 are
`0x3FF6A09E667F3BCD`, `0x3FFBB67AE8584CAA` and `0x4001E3779B97F4A8`, the roots of squares
are exact, and the root of the double one third is `0x3FE279A74590331C`. -/
theorem binary64Sqrt_samples :
    binary64Sqrt 2 = 6369051672525773 / 4503599627370496 ∧
    binary64Sqrt 3 = 3900231685776981 / 2251799813685248 ∧
    binary64Sqrt 5 = 629397181890197 / 281474976710656 ∧
    binary64Sqrt 10000000000000000 = 100000000 ∧ binary64Sqrt (1 / 4) = 1 / 2 ∧
    binary64Sqrt 0 = 0 ∧
    binary64Sqrt (6004799503160661 / 18014398509481984)
      = 1300077228592327 / 2251799813685248 := by
  decide!

/-! ## Claim on `Line::point_at` -/

theorem squaredNormRounded_pos (v : Vec2d) (h : v.x ≠ 0 ∨ v.y ≠ 0) :
    0 < v.squaredNormRounded := by
  unfold Vec2d.squaredNormRounded
  apply binary64_pos
  have hx : 0 ≤ binary64 (v.x * v.x) := (binary64_nonneg_iff _).mpr (mul_self_nonneg _)
  have hy : 0 ≤ binary64 (v.y * v.y) := (binary64_nonneg_iff _).mpr (mul_self_nonneg _)
  rcases h with h | h
  · have : 0 < binary64 (v.x * v.x) := binary64_pos _ (mul_self_pos.mpr h)
    linarith
  · have : 0 < binary64 (v.y * v.y) := binary64_pos _ (mul_self_pos.mpr h)
    linarith

/-- The computed length of a segment with distinct endpoints is positive. -/
theorem lengthRounded_pos (l : Line) (h : l.a ≠ l.b) : 0 < l.lengthRounded := by
  unfold Line.lengthRounded Vec2d.normRounded
  apply binary64Sqrt_pos
  apply squaredNormRounded_pos
  by_contra hc
  push_neg at hc
  obtain ⟨hx, hy⟩ := hc
  have hx' : binary64 (((l.b - l.a).x : ℤ) : ℚ) = 0 := hx
  have hy' : binary64 (((l.b - l.a).y : ℤ) : ℚ) = 0 := hy
  rw [binary64_eq_zero_iff] at hx' hy'
  have hx0 : l.b.x - l.a.x = 0 := by exact_mod_cast hx'
  have hy0 : l.b.y - l.a.y = 0 := by exact_mod_cast hy'
  exact h (Point.eq_of_coords _ _ (by omega) (by omega))

theorem castCoordChecked_eq_some (COORD_MAX : ℤ) (q : ℚ) (z : ℤ)
    (h : castCoordChecked COORD_MAX q = some z) :
    z = castCoord q ∧ -COORD_MAX - 1 ≤ z ∧ z ≤ COORD_MAX := by
  unfold castCoordChecked at h
  split_ifs at h with hr
  · have hz : castCoord q = z := by simpa using h
    rw [← hz]
    exact ⟨rfl, hr.1, hr.2⟩

theorem castCoordChecked_eq_none (COORD_MAX : ℤ) (q : ℚ) :
    castCoordChecked COORD_MAX q = none ↔
      ¬ (-COORD_MAX - 1 ≤ castCoord q ∧ castCoord q ≤ COORD_MAX) := by
  unfold castCoordChecked
  split_ifs with hr
  · simp [hr]
  · exact ⟨fun _ => hr, fun _ => rfl⟩

/-- Counterexample to C23: on the segment (0,0)-(1,0) the point at distance `2^64` has
the `x` coordinate `2^64`, outside the range of a 64-bit `coord_t`, and its conversion is
undefined, as is that of the point at distance `2^32` with a 32-bit `coord_t`; and on a
segment that starts at `x = 2^53 + 1`, a value that is no double, the point at distance 0
has `x = 2^53`. -/
theorem point_at_not_for_every_input :
    Line.point_atRounded (2 ^ 63 - 1) ⟨⟨0, 0⟩, ⟨1, 0⟩⟩ (2 ^ 64) = .undefined ∧
    Line.point_atRounded (2 ^ 31 - 1) ⟨⟨0, 0⟩, ⟨1, 0⟩⟩ (2 ^ 32) = .undefined ∧
    Line.point_atRounded (2 ^ 63 - 1) ⟨⟨2 ^ 53 + 1, 0⟩, ⟨0, 0⟩⟩ 0 = .value ⟨2 ^ 53, 0⟩ := by
  refine ⟨by decide!, by decide!, by decide!⟩

/-- The function on the segment (0,0)-(2,3): its computed length is the double nearest to
the square root of 13, and the point at that distance is the end (2,3). -/
theorem point_at_samples :
    Line.lengthRounded ⟨⟨0, 0⟩, ⟨2, 3⟩⟩ = 8118979690322419 / 2 ^ 51 ∧
    Line.point_atRounded (2 ^ 63 - 1) ⟨⟨0, 0⟩, ⟨2, 3⟩⟩ (Line.lengthRounded ⟨⟨0, 0⟩, ⟨2, 3⟩⟩)
      = .value ⟨2, 3⟩ ∧
    Line.point_atRounded (2 ^ 63 - 1) ⟨⟨0, 0⟩, ⟨2, 3⟩⟩ 1 = .value ⟨0, 0⟩ := by
  refine ⟨by decide!, by decide!, by decide!⟩

/-- C23, amended: for every segment `(a, b)` and every distance `d`, `point_at(d)`, as
computed in doubles, is either undefined, which happens exactly when an interpolated
coordinate leaves the range of `coord_t`, or a point with `x = a.x` when `a.x = b.x` and
`y = a.y` when `a.y = b.y`, every other coordinate being the double
`a + (b - a) * d / length`, with a length that is not zero, truncated toward zero. A
segment of zero length yields `a`, and `point_at(0) = a` when the coordinates of `a` are
below `2^53` in magnitude, where a coordinate is a double. -/
theorem point_at_spec (COORD_MAX : ℤ) (l : Line) (d : ℚ) :
    (l.a = l.b → l.point_atRounded COORD_MAX d = .value l.a) ∧
    (∀ P : Point, l.point_atRounded COORD_MAX d = .value P →
      (l.a.x = l.b.x → P.x = l.a.x) ∧ (l.a.y = l.b.y → P.y = l.a.y) ∧
      (l.a.x ≠ l.b.x → l.lengthRounded ≠ 0 ∧
        P.x = castCoord (binary64 (binary64 l.a.x
          + binary64 (binary64 (binary64 ((l.b.x - l.a.x : ℤ) : ℚ) * d) / l.lengthRounded)))) ∧
      (l.a.y ≠ l.b.y → l.lengthRounded ≠ 0 ∧
        P.y = castCoord (binary64 (binary64 l.a.y
          + binary64 (binary64 (binary64 ((l.b.y - l.a.y : ℤ) : ℚ) * d) / l.lengthRounded))))) ∧
    (l.point_atRounded COORD_MAX d = .undefined ↔
      (l.a.x ≠ l.b.x ∧ castCoordChecked COORD_MAX (binary64 (binary64 l.a.x
          + binary64 (binary64 (binary64 ((l.b.x - l.a.x : ℤ) : ℚ) * d) / l.lengthRounded)))
          = none) ∨
      (l.a.y ≠ l.b.y ∧ castCoordChecked COORD_MAX (binary64 (binary64 l.a.y
          + binary64 (binary64 (binary64 ((l.b.y - l.a.y : ℤ) : ℚ) * d) / l.lengthRounded)))
          = none)) ∧
    (|l.a.x| < 2 ^ 53 → |l.a.y| < 2 ^ 53 →
      (-COORD_MAX - 1 ≤ l.a.x ∧ l.a.x ≤ COORD_MAX) →
      (-COORD_MAX - 1 ≤ l.a.y ∧ l.a.y ≤ COORD_MAX) →
      l.point_atRounded COORD_MAX 0 = .value l.a) := by
  have hlen : ∀ {c e : ℤ}, c ≠ e → (l.a.x = c ∧ l.b.x = e ∨ l.a.y = c ∧ l.b.y = e) →
      l.lengthRounded ≠ 0 := by
    intro c e hce h
    apply ne_of_gt
    apply lengthRounded_pos
    intro hab
    rcases h with ⟨h1, h2⟩ | ⟨h1, h2⟩
    · exact hce (by rw [← h1, ← h2, hab])
    · exact hce (by rw [← h1, ← h2, hab])
  refine ⟨?_, ?_, ?_, ?_⟩
  · intro hab
    have hx : l.a.x = l.b.x := by rw [hab]
    have hy : l.a.y = l.b.y := by rw [hab]
    unfold Line.point_atRounded Outcome.ofCoords
    simp only [hx, hy, ne_eq, not_true_eq_false, if_false]
    rw [hab]
  · intro P hP
    unfold Line.point_atRounded Outcome.ofCoords at hP
    by_cases hx : l.a.x = l.b.x <;> by_cases hy : l.a.y = l.b.y
    · simp only [hx, hy, ne_eq, not_true_eq_false, if_false, Outcome.value.injEq] at hP
      subst hP
      simp [hx, hy]
    · simp only [hx, hy, ne_eq, not_true_eq_false, not_false_eq_true, if_false, if_true] at hP
      cases hcy : castCoordChecked COORD_MAX (binary64 (binary64 (l.a.y : ℚ)
          + binary64 (binary64 (binary64 ((l.b.y - l.a.y : ℤ) : ℚ) * d) / l.lengthRounded)))
        with
      | none => rw [hcy] at hP; simp at hP
      | some z =>
        rw [hcy] at hP
        simp only [Outcome.value.injEq] at hP
        subst hP
        obtain ⟨hz, _, _⟩ := castCoordChecked_eq_some _ _ _ hcy
        refine ⟨fun _ => hx.symm ▸ rfl, fun h => absurd h hy, fun h => absurd hx h, fun _ => ?_⟩
        exact ⟨hlen hy (Or.inr ⟨rfl, rfl⟩), hz⟩
    · simp only [hx, hy, ne_eq, not_true_eq_false, not_false_eq_true, if_false, if_true] at hP
      cases hcx : castCoordChecked COORD_MAX (binary64 (binary64 (l.a.x : ℚ)
          + binary64 (binary64 (binary64 ((l.b.x - l.a.x : ℤ) : ℚ) * d) / l.lengthRounded)))
        with
      | none => rw [hcx] at hP; simp at hP
      | some z =>
        rw [hcx] at hP
        simp only [Outcome.value.injEq] at hP
        subst hP
        obtain ⟨hz, _, _⟩ := castCoordChecked_eq_some _ _ _ hcx
        refine ⟨fun h => absurd h hx, fun _ => hy.symm ▸ rfl, fun _ => ?_, fun h => absurd hy h⟩
        exact ⟨hlen hx (Or.inl ⟨rfl, rfl⟩), hz⟩
    · simp only [hx, hy, ne_eq, not_false_eq_true, if_true] at hP
      cases hcx : castCoordChecked COORD_MAX (binary64 (binary64 (l.a.x : ℚ)
          + binary64 (binary64 (binary64 ((l.b.x - l.a.x : ℤ) : ℚ) * d) / l.lengthRounded)))
        with
      | none => rw [hcx] at hP; simp at hP
      | some zx =>
        cases hcy : castCoordChecked COORD_MAX (binary64 (binary64 (l.a.y : ℚ)
            + binary64 (binary64 (binary64 ((l.b.y - l.a.y : ℤ) : ℚ) * d) / l.lengthRounded)))
          with
        | none => rw [hcx, hcy] at hP; simp at hP
        | some zy =>
          rw [hcx, hcy] at hP
          simp only [Outcome.value.injEq] at hP
          subst hP
          obtain ⟨hzx, _, _⟩ := castCoordChecked_eq_some _ _ _ hcx
          obtain ⟨hzy, _, _⟩ := castCoordChecked_eq_some _ _ _ hcy
          exact ⟨fun h => absurd h hx, fun h => absurd h hy,
            fun _ => ⟨hlen hx (Or.inl ⟨rfl, rfl⟩), hzx⟩,
            fun _ => ⟨hlen hy (Or.inr ⟨rfl, rfl⟩), hzy⟩⟩
  · unfold Line.point_atRounded Outcome.ofCoords
    by_cases hx : l.a.x = l.b.x <;> by_cases hy : l.a.y = l.b.y
    · simp [hx, hy]
    · simp only [hx, hy, ne_eq, not_true_eq_false, not_false_eq_true, if_false, if_true,
        false_and, true_and, false_or]
      cases castCoordChecked COORD_MAX (binary64 (binary64 (l.a.y : ℚ)
          + binary64 (binary64 (binary64 ((l.b.y - l.a.y : ℤ) : ℚ) * d) / l.lengthRounded)))
        <;> simp
    · simp only [hx, hy, ne_eq, not_true_eq_false, not_false_eq_true, if_false, if_true,
        false_and, true_and, or_false]
      cases castCoordChecked COORD_MAX (binary64 (binary64 (l.a.x : ℚ)
          + binary64 (binary64 (binary64 ((l.b.x - l.a.x : ℤ) : ℚ) * d) / l.lengthRounded)))
        <;> simp
    · simp only [hx, hy, ne_eq, not_false_eq_true, if_true, true_and]
      cases castCoordChecked COORD_MAX (binary64 (binary64 (l.a.x : ℚ)
          + binary64 (binary64 (binary64 ((l.b.x - l.a.x : ℤ) : ℚ) * d) / l.lengthRounded)))
        <;>
      cases castCoordChecked COORD_MAX (binary64 (binary64 (l.a.y : ℚ)
          + binary64 (binary64 (binary64 ((l.b.y - l.a.y : ℤ) : ℚ) * d) / l.lengthRounded)))
        <;> simp
  · intro hax hay hrx hry
    have hfx : binary64 ((l.a.x : ℤ) : ℚ) = l.a.x := binary64_intCast _ hax
    have hfy : binary64 ((l.a.y : ℤ) : ℚ) = l.a.y := binary64_intCast _ hay
    have hcx : castCoordChecked COORD_MAX ((l.a.x : ℤ) : ℚ) = some l.a.x := by
      unfold castCoordChecked
      rw [castCoord_intCast, if_pos hrx]
    have hcy : castCoordChecked COORD_MAX ((l.a.y : ℤ) : ℚ) = some l.a.y := by
      unfold castCoordChecked
      rw [castCoord_intCast, if_pos hry]
    unfold Line.point_atRounded Outcome.ofCoords
    simp only [mul_zero, binary64_zero, zero_div, add_zero, hfx, hfy, hcx, hcy, ite_self]

/-! ## The distances as computed in doubles, on coordinates below `2^25` -/

/-- The difference of two points below the bound is converted without error. -/
theorem castDoubleRounded_sub (p a : Point) (hp : p.within (2 ^ 25)) (ha : a.within (2 ^ 25)) :
    (p - a).castDoubleRounded = ⟨((p.x - a.x : ℤ) : ℚ), ((p.y - a.y : ℤ) : ℚ)⟩ ∧
    |p.x - a.x| < 2 ^ 26 ∧ |p.y - a.y| < 2 ^ 26 := by
  obtain ⟨hpx, hpy⟩ := hp
  obtain ⟨hax, hay⟩ := ha
  refine ⟨?_, abs_sub_lt_of_within _ _ hpx hax, abs_sub_lt_of_within _ _ hpy hay⟩
  show Vec2d.mk (binary64 ((p.x - a.x : ℤ) : ℚ)) (binary64 ((p.y - a.y : ℤ) : ℚ)) = _
  rw [binary64_diff_exact _ _ hpx hax, binary64_diff_exact _ _ hpy hay]

/-- The squared norm of the difference of two points below the bound is computed without
error. -/
theorem squaredNormRounded_sub (p a : Point) (hp : p.within (2 ^ 25))
    (ha : a.within (2 ^ 25)) :
    (p - a).castDoubleRounded.squaredNormRounded = ((p.distSq a : ℤ) : ℚ) := by
  obtain ⟨hc, hx, hy⟩ := castDoubleRounded_sub p a hp ha
  rw [hc]
  unfold Vec2d.squaredNormRounded
  simp only []
  rw [(binary64_add_mul_exact _ _ _ _ hx hx hy hy).1]
  simp only [Point.distSq]
  congr 1
  ring

/-- The dot product of two differences of points below the bound is computed without
error, and is below `2^53`. -/
theorem dotRounded_sub (p a b : Point) (hp : p.within (2 ^ 25)) (ha : a.within (2 ^ 25))
    (hb : b.within (2 ^ 25)) :
    (p - a).castDoubleRounded.dotRounded (b - a).castDoubleRounded
      = ((dotAt p a b : ℤ) : ℚ) := by
  obtain ⟨hc, hx, hy⟩ := castDoubleRounded_sub p a hp ha
  obtain ⟨hd, hvx, hvy⟩ := castDoubleRounded_sub b a hb ha
  rw [hc, hd]
  unfold Vec2d.dotRounded
  simp only []
  rw [(binary64_add_mul_exact _ _ _ _ hx hvx hy hvy).1]
  rfl

/-- The cross product of two differences of points below the bound is computed without
error. -/
theorem cross2Rounded_sub (p a b : Point) (hp : p.within (2 ^ 25)) (ha : a.within (2 ^ 25))
    (hb : b.within (2 ^ 25)) :
    cross2Rounded (b - a).castDoubleRounded (p - a).castDoubleRounded
      = ((crossAt p a b : ℤ) : ℚ) := by
  obtain ⟨hc, hx, hy⟩ := castDoubleRounded_sub p a hp ha
  obtain ⟨hd, hvx, hvy⟩ := castDoubleRounded_sub b a hb ha
  rw [hc, hd]
  unfold cross2Rounded
  simp only []
  rw [(binary64_sub_mul_exact _ _ _ _ hvx hy hvy hx).1]
  rfl

theorem distSq_lt_of_within (p a : Point) (hp : p.within (2 ^ 25)) (ha : a.within (2 ^ 25)) :
    p.distSq a < 2 ^ 53 := by
  obtain ⟨hpx, hpy⟩ := hp
  obtain ⟨hax, hay⟩ := ha
  have hx := abs_sub_lt_of_within _ _ hpx hax
  have hy := abs_sub_lt_of_within _ _ hpy hay
  have h1 := abs_mul_lt_of_lt _ _ hx hx
  have h2 := abs_mul_lt_of_lt _ _ hy hy
  simp only [Point.distSq]
  have e1 : (p.x - a.x) ^ 2 = |(p.x - a.x) * (p.x - a.x)| := by
    rw [abs_mul_self]; ring
  have e2 : (p.y - a.y) ^ 2 = |(p.y - a.y) * (p.y - a.y)| := by
    rw [abs_mul_self]; ring
  rw [e1, e2]
  linarith

/-- On coordinates below `2^25` the computed `perp_distance_to` is the rounded square root
of the exact `|p - a|^2` when `a = b`, and otherwise the rounded quotient of the exact
`|cross(b - a, p - a)|` by the rounded square root of the exact `|b - a|^2`. -/
theorem perp_distance_toRounded_eq (line : Line) (p : Point) (hl : line.within (2 ^ 25))
    (hp : p.within (2 ^ 25)) :
    line.perp_distance_toRounded p =
      if line.a = line.b then binary64Sqrt ((p.distSq line.a : ℤ) : ℚ)
      else binary64 (|((crossAt p line.a line.b : ℤ) : ℚ)|
        / binary64Sqrt ((line.b.distSq line.a : ℤ) : ℚ)) := by
  have ha : line.a.within (2 ^ 25) := ⟨hl.1, hl.2.1⟩
  have hb : line.b.within (2 ^ 25) := ⟨hl.2.2.1, hl.2.2.2⟩
  unfold Line.perp_distance_toRounded Vec2d.normRounded
  simp only []
  rw [squaredNormRounded_sub p line.a hp ha, squaredNormRounded_sub line.b line.a hb ha,
    cross2Rounded_sub p line.a line.b hp ha hb]

/-- A rounded quotient by a rounded square root: the relative error is at most `2^-51`. -/
theorem rounded_quotient_error (A L : ℚ) (hA : 0 ≤ A) (hL : 0 < L) :
    |((binary64 (A / binary64Sqrt L) : ℚ) : ℝ) - (A : ℝ) / Real.sqrt (L : ℝ)|
      ≤ (A : ℝ) / Real.sqrt (L : ℝ) / 2 ^ 51 := by
  have hs : 0 < Real.sqrt (L : ℝ) := Real.sqrt_pos.mpr (by exact_mod_cast hL)
  have hn := binary64Sqrt_error L (le_of_lt hL)
  have hnpos : (0 : ℝ) < ((binary64Sqrt L : ℚ) : ℝ) := by
    exact_mod_cast binary64Sqrt_pos L hL
  obtain ⟨hn1, hn2⟩ := abs_le.mp hn
  set s := Real.sqrt (L : ℝ) with hsdef
  set n := ((binary64Sqrt L : ℚ) : ℝ) with hndef
  have hAr : (0 : ℝ) ≤ (A : ℝ) := by exact_mod_cast hA
  set D := (A : ℝ) / s with hDdef
  set w := (A : ℝ) / n with hwdef
  have hD0 : 0 ≤ D := div_nonneg hAr (le_of_lt hs)
  have hw0 : 0 ≤ w := div_nonneg hAr (le_of_lt hnpos)
  have hDs : D * s = (A : ℝ) := by rw [hDdef]; field_simp
  have hwn : w * n = (A : ℝ) := by rw [hwdef]; field_simp
  have hr := abs_sub_le_real _ _ _ (binary64_error (A / binary64Sqrt L))
  have hcast : (((A / binary64Sqrt L : ℚ)) : ℝ) = w := by
    rw [hwdef, hndef]; push_cast; rfl
  have hr2 : |((binary64 (A / binary64Sqrt L) : ℚ) : ℝ) - w| ≤ w / 2 ^ 53 := by
    have : ((|A / binary64Sqrt L| / 2 ^ 53 : ℚ) : ℝ) = w / 2 ^ 53 := by
      rw [abs_of_nonneg (div_nonneg hA (le_of_lt (binary64Sqrt_pos L hL)))]
      rw [← hcast]; push_cast; rfl
    rw [hcast, this] at hr
    exact hr
  -- the quotient by the rounded root against the quotient by the root
  have hwu : w ≤ D * (1 + 2 / 2 ^ 53) := by
    by_contra hc
    push_neg at hc
    have h1 : D * (1 + 2 / 2 ^ 53) * n < w * n := mul_lt_mul_of_pos_right hc hnpos
    have h2 : s ≤ (1 + 2 / 2 ^ 53) * n := by nlinarith
    have h3 : D * s ≤ D * ((1 + 2 / 2 ^ 53) * n) := mul_le_mul_of_nonneg_left h2 hD0
    nlinarith
  have hwl : D * (1 - 1 / 2 ^ 53) ≤ w := by
    by_contra hc
    push_neg at hc
    have h1 : w * n < D * (1 - 1 / 2 ^ 53) * n := mul_lt_mul_of_pos_right hc hnpos
    have h2 : (1 - 1 / 2 ^ 53) * n ≤ s := by nlinarith
    have h3 : D * ((1 - 1 / 2 ^ 53) * n) ≤ D * s := mul_le_mul_of_nonneg_left h2 hD0
    nlinarith
  obtain ⟨hr3, hr4⟩ := abs_le.mp hr2
  rw [abs_le]
  constructor
  · have : w / 2 ^ 53 ≤ D * (1 + 2 / 2 ^ 53) / 2 ^ 53 :=
      div_le_div_of_nonneg_right hwu (by positivity)
    nlinarith
  · have : w / 2 ^ 53 ≤ D * (1 + 2 / 2 ^ 53) / 2 ^ 53 :=
      div_le_div_of_nonneg_right hwu (by positivity)
    nlinarith

/-! ## Claim on `Line::perp_distance_to` -/

/-- C7, counterexample: for `a = (0, 0)`, `b = (200000001, 200000000)` and
`p = (200000002, 200000001)` the cross product `cross(b - a, p - a)` is 1, so that `p` is
not on the line through `a` and `b`, and `perp_distance_to(p)` is 0 in doubles: the two
products of the cross product are rounded to the same double. For `a = (0, 0)`,
`b = (1, 1)` and `p = (0, 1)`, where `|cross| / |b - a|` is `1 / sqrt 2`, twice the square
of the result is not 1. -/
theorem perp_distance_to_cancels :
    crossAt ⟨200000002, 200000001⟩ ⟨0, 0⟩ ⟨200000001, 200000000⟩ = 1 ∧
    Line.perp_distance_toRounded ⟨⟨0, 0⟩, ⟨200000001, 200000000⟩⟩ ⟨200000002, 200000001⟩ = 0 ∧
    crossAt ⟨0, 1⟩ ⟨0, 0⟩ ⟨1, 1⟩ = 1 ∧ Point.distSq ⟨1, 1⟩ ⟨0, 0⟩ = 2 ∧
    2 * (Line.perp_distance_toRounded ⟨⟨0, 0⟩, ⟨1, 1⟩⟩ ⟨0, 1⟩) ^ 2 ≠ 1 := by
  decide!

/-- C7, amended: on every input, `perp_distance_to(p)` in doubles is the norm of `p - a`
when `a = b`, and otherwise the quotient of `|cross2(b - a, p - a)|` by the norm of
`b - a`, which is not zero: no division by zero occurs. When the coordinates of `a`, `b`
and `p` are below `2^25` in magnitude, the result is within the relative error `2^-53` of
the Euclidean distance `|p - a|` when `a = b`, and otherwise within the relative error
`2^-51` of `|cross(b - a, p - a)| / |b - a|`, the distance from `p` to the line through `a`
and `b`, and it is zero exactly when `p` is on that line. -/
theorem perp_distance_to_spec (line : Line) (p : Point) :
    (line.a = line.b →
      line.perp_distance_toRounded p = (p - line.a).castDoubleRounded.normRounded) ∧
    (line.a ≠ line.b →
      (line.b - line.a).castDoubleRounded.normRounded ≠ 0 ∧
      line.perp_distance_toRounded p =
        binary64 (|cross2Rounded (line.b - line.a).castDoubleRounded
            (p - line.a).castDoubleRounded|
          / (line.b - line.a).castDoubleRounded.normRounded)) ∧
    (line.within (2 ^ 25) → p.within (2 ^ 25) →
      (line.a = line.b →
        |((line.perp_distance_toRounded p : ℚ) : ℝ)
            - Real.sqrt ((p.distSq line.a : ℤ) : ℝ)|
          ≤ Real.sqrt ((p.distSq line.a : ℤ) : ℝ) / 2 ^ 53) ∧
      (line.a ≠ line.b →
        |((line.perp_distance_toRounded p : ℚ) : ℝ)
            - |((crossAt p line.a line.b : ℤ) : ℝ)|
              / Real.sqrt ((line.b.distSq line.a : ℤ) : ℝ)|
          ≤ |((crossAt p line.a line.b : ℤ) : ℝ)|
              / Real.sqrt ((line.b.distSq line.a : ℤ) : ℝ) / 2 ^ 51 ∧
        (line.perp_distance_toRounded p = 0 ↔ crossAt p line.a line.b = 0))) := by
  refine ⟨?_, ?_, ?_⟩
  · intro hab
    unfold Line.perp_distance_toRounded
    simp only []
    rw [if_pos hab]
  · intro hab
    refine ⟨ne_of_gt (lengthRounded_pos line hab), ?_⟩
    unfold Line.perp_distance_toRounded
    simp only []
    rw [if_neg hab]
  · intro hl hp
    rw [perp_distance_toRounded_eq line p hl hp]
    constructor
    · intro hab
      rw [if_pos hab]
      have h := binary64Sqrt_error ((p.distSq line.a : ℤ) : ℚ)
        (by exact_mod_cast distSq_nonneg line.a p)
      rw [Rat.cast_intCast] at h
      exact h
    · intro hab
      rw [if_neg hab]
      have hL : 0 < line.b.distSq line.a := by
        rcases lt_or_eq_of_le (distSq_nonneg line.a line.b) with h | h
        · exact h
        · exact absurd ((distSq_eq_zero_iff line.a line.b).mp h.symm) hab
      have hLq : (0 : ℚ) < ((line.b.distSq line.a : ℤ) : ℚ) := by exact_mod_cast hL
      constructor
      · have h := rounded_quotient_error |((crossAt p line.a line.b : ℤ) : ℚ)|
          ((line.b.distSq line.a : ℤ) : ℚ) (abs_nonneg _) hLq
        rw [Rat.cast_abs, Rat.cast_intCast, Rat.cast_intCast] at h
        exact h
      · rw [binary64_eq_zero_iff, div_eq_zero_iff, abs_eq_zero]
        constructor
        · rintro (h | h)
          · exact_mod_cast h
          · exact absurd h (ne_of_gt (binary64Sqrt_pos _ hLq))
        · intro h
          left
          exact_mod_cast h

/-- Witness of C7, amended: on the segment (0,0)-(3,4) the point (5,0) has the cross product
-20 and the computed distance 4. -/
theorem perp_distance_to_spec_witness :
    (Line.mk ⟨0, 0⟩ ⟨3, 4⟩).within (2 ^ 25) ∧ (Point.mk 5 0).within (2 ^ 25) ∧
    Line.perp_distance_toRounded ⟨⟨0, 0⟩, ⟨3, 4⟩⟩ ⟨5, 0⟩ = 4 ∧
    (Line.perp_distance_toRounded ⟨⟨0, 0⟩, ⟨3, 4⟩⟩ ⟨5, 0⟩ = 0
      ↔ crossAt ⟨5, 0⟩ ⟨0, 0⟩ ⟨3, 4⟩ = 0) :=
  ⟨by decide, by decide, by decide!,
    (((perp_distance_to_spec ⟨⟨0, 0⟩, ⟨3, 4⟩⟩ ⟨5, 0⟩).2.2 (by decide) (by decide)).2
      (by decide)).2⟩

/-- On coordinates below `2^25` the computed `distance_to_squared` takes the branches of
the exact projection parameter: the two squared distances to the endpoints are computed
without error, and the last branch is computed with the rounded parameter. -/
theorem distance_to_squaredRounded_eq (p a b : Point) (hp : p.within (2 ^ 25))
    (ha : a.within (2 ^ 25)) (hb : b.within (2 ^ 25)) :
    Line.distance_to_squaredRounded p a b =
      if a = b then ((p.distSq a : ℤ) : ℚ)
      else if dotAt p a b < 0 then ((p.distSq a : ℤ) : ℚ)
      else if b.distSq a < dotAt p a b then ((p.distSq b : ℤ) : ℚ)
      else (Vec2d.mk
        (binary64 (binary64 (binary64 (projParam p a b) * ((b.x - a.x : ℤ) : ℚ))
          - ((p.x - a.x : ℤ) : ℚ)))
        (binary64 (binary64 (binary64 (projParam p a b) * ((b.y - a.y : ℤ) : ℚ))
          - ((p.y - a.y : ℤ) : ℚ)))).squaredNormRounded := by
  unfold Line.distance_to_squaredRounded
  simp only []
  rw [squaredNormRounded_sub b a hb ha, squaredNormRounded_sub p a hp ha,
    squaredNormRounded_sub p b hp hb, dotRounded_sub p a b hp ha hb,
    (castDoubleRounded_sub b a hb ha).1, (castDoubleRounded_sub p a hp ha).1]
  by_cases hab : a = b
  · have h0 : ((b.distSq a : ℤ) : ℚ) = 0 := by
      have := (distSq_eq_zero_iff a b).mpr hab
      exact_mod_cast this
    rw [if_pos h0, if_pos hab]
  · have hL : 0 < b.distSq a := by
      rcases lt_or_eq_of_le (distSq_nonneg a b) with h | h
      · exact h
      · exact absurd ((distSq_eq_zero_iff a b).mp h.symm) hab
    have hLq : ((b.distSq a : ℤ) : ℚ) ≠ 0 := by
      have : (0 : ℚ) < ((b.distSq a : ℤ) : ℚ) := by exact_mod_cast hL
      exact ne_of_gt this
    have hLb : |b.distSq a| < 2 ^ 53 := by
      rw [abs_of_pos hL]
      exact distSq_lt_of_within b a hb ha
    rw [if_neg hLq, if_neg hab]
    have hproj : ((dotAt p a b : ℤ) : ℚ) / ((b.distSq a : ℤ) : ℚ) = projParam p a b := rfl
    rw [hproj]
    have hneg : binary64 (projParam p a b) < 0 ↔ dotAt p a b < 0 := by
      rw [← projParam_neg_iff p a b hL, ← not_le, ← not_le, binary64_nonneg_iff]
    have hgt : binary64 (projParam p a b) > 1 ↔ b.distSq a < dotAt p a b := by
      rw [← one_lt_projParam_iff p a b hL, gt_iff_lt, ← not_le, ← not_le]
      exact not_congr (binary64_quotient_unit (dotAt p a b) (b.distSq a) hLb).2
    by_cases h1 : dotAt p a b < 0
    · rw [if_pos (hneg.mpr h1), if_pos h1]
    · rw [if_neg (fun h => h1 (hneg.mp h)), if_neg h1]
      by_cases h2 : b.distSq a < dotAt p a b
      · rw [if_pos (hgt.mpr h2), if_pos h2]
      · rw [if_neg (fun h => h2 (hgt.mp h)), if_neg h2]

/-- A component `t v - w` of the vector from the point to its projection, computed with
the rounded parameter, a rounded product and a rounded difference, is within `2^-24` of
the exact value when `t` is in `[0, 1]` and `|v|`, `|w|` are below `2^26`. -/
theorem proj_component_error (v w : ℤ) (t : ℚ) (hv : |v| < 2 ^ 26) (hw : |w| < 2 ^ 26)
    (ht0 : 0 ≤ t) (ht1 : t ≤ 1) :
    |binary64 (binary64 (binary64 t * (v : ℚ)) - (w : ℚ)) - (t * (v : ℚ) - (w : ℚ))|
      ≤ 1 / 2 ^ 24 := by
  have hA : |(w : ℚ)| ≤ 2 ^ 26 := by
    have : |(w : ℚ)| < 2 ^ 26 := by exact_mod_cast hw
    exact le_of_lt this
  have hV : |(v : ℚ)| ≤ 2 ^ 26 := by
    have : |(v : ℚ)| < 2 ^ 26 := by exact_mod_cast hv
    exact le_of_lt this
  have hV0 : 0 ≤ |(v : ℚ)| := abs_nonneg _
  have ht' : |binary64 t - t| ≤ 1 / 2 ^ 53 := by
    have h := binary64_error t
    rw [abs_of_nonneg ht0] at h
    have : t / 2 ^ 53 ≤ 1 / 2 ^ 53 := div_le_div_of_nonneg_right ht1 (by positivity)
    linarith
  have htb0 : 0 ≤ binary64 t := (binary64_nonneg_iff t).mpr ht0
  have htb1 : binary64 t ≤ 1 := binary64_le_one t ht1
  have htabs : |binary64 t| ≤ 1 := by rw [abs_of_nonneg htb0]; exact htb1
  have hp : |binary64 t * (v : ℚ)| ≤ |(v : ℚ)| := by
    rw [abs_mul]
    calc |binary64 t| * |(v : ℚ)| ≤ 1 * |(v : ℚ)| := mul_le_mul_of_nonneg_right htabs hV0
      _ = |(v : ℚ)| := one_mul _
  have hp2 : |binary64 (binary64 t * (v : ℚ)) - binary64 t * (v : ℚ)| ≤ |(v : ℚ)| / 2 ^ 53 := by
    have h := binary64_error (binary64 t * (v : ℚ))
    have : |binary64 t * (v : ℚ)| / 2 ^ 53 ≤ |(v : ℚ)| / 2 ^ 53 :=
      div_le_div_of_nonneg_right hp (by positivity)
    linarith
  have hpt : |binary64 t * (v : ℚ) - t * (v : ℚ)| ≤ |(v : ℚ)| / 2 ^ 53 := by
    rw [← sub_mul, abs_mul]
    calc |binary64 t - t| * |(v : ℚ)| ≤ 1 / 2 ^ 53 * |(v : ℚ)| :=
          mul_le_mul_of_nonneg_right ht' hV0
      _ = |(v : ℚ)| / 2 ^ 53 := by ring
  have hpb : |binary64 (binary64 t * (v : ℚ))| ≤ |(v : ℚ)| + |(v : ℚ)| / 2 ^ 53 := by
    have h := abs_sub_abs_le_abs_sub (binary64 (binary64 t * (v : ℚ))) (binary64 t * (v : ℚ))
    linarith
  have hs : |binary64 (binary64 t * (v : ℚ)) - (w : ℚ)|
      ≤ |(w : ℚ)| + (|(v : ℚ)| + |(v : ℚ)| / 2 ^ 53) := by
    have h := abs_sub (binary64 (binary64 t * (v : ℚ))) (w : ℚ)
    linarith
  have hs2 : |binary64 (binary64 (binary64 t * (v : ℚ)) - (w : ℚ))
      - (binary64 (binary64 t * (v : ℚ)) - (w : ℚ))|
      ≤ (|(w : ℚ)| + (|(v : ℚ)| + |(v : ℚ)| / 2 ^ 53)) / 2 ^ 53 := by
    have h := binary64_error (binary64 (binary64 t * (v : ℚ)) - (w : ℚ))
    have : |binary64 (binary64 t * (v : ℚ)) - (w : ℚ)| / 2 ^ 53
        ≤ (|(w : ℚ)| + (|(v : ℚ)| + |(v : ℚ)| / 2 ^ 53)) / 2 ^ 53 :=
      div_le_div_of_nonneg_right hs (by positivity)
    linarith
  have hsplit : binary64 (binary64 (binary64 t * (v : ℚ)) - (w : ℚ)) - (t * (v : ℚ) - (w : ℚ))
      = (binary64 (binary64 (binary64 t * (v : ℚ)) - (w : ℚ))
          - (binary64 (binary64 t * (v : ℚ)) - (w : ℚ)))
        + (binary64 (binary64 t * (v : ℚ)) - binary64 t * (v : ℚ))
        + (binary64 t * (v : ℚ) - t * (v : ℚ)) := by ring
  rw [hsplit]
  have h3 := abs_add_three
    (binary64 (binary64 (binary64 t * (v : ℚ)) - (w : ℚ))
      - (binary64 (binary64 t * (v : ℚ)) - (w : ℚ)))
    (binary64 (binary64 t * (v : ℚ)) - binary64 t * (v : ℚ))
    (binary64 t * (v : ℚ) - t * (v : ℚ))
  have hnum : (2 ^ 26 + (2 ^ 26 + 2 ^ 26 / 2 ^ 53)) / 2 ^ 53 + 2 ^ 26 / 2 ^ 53 + 2 ^ 26 / 2 ^ 53
      < (1 : ℚ) / 2 ^ 24 := by norm_num
  have hb1 : (|(w : ℚ)| + (|(v : ℚ)| + |(v : ℚ)| / 2 ^ 53)) / 2 ^ 53
      ≤ (2 ^ 26 + (2 ^ 26 + 2 ^ 26 / 2 ^ 53)) / 2 ^ 53 := by
    apply div_le_div_of_nonneg_right _ (by positivity)
    have : |(v : ℚ)| / 2 ^ 53 ≤ 2 ^ 26 / 2 ^ 53 := div_le_div_of_nonneg_right hV (by positivity)
    linarith
  have hb2 : |(v : ℚ)| / 2 ^ 53 ≤ 2 ^ 26 / 2 ^ 53 :=
    div_le_div_of_nonneg_right hV (by positivity)
  linarith

/-- A square computed from a number within `d` of `e` is within `d (1 + e^2 + d)` of
`e^2`. -/
theorem sq_near (c e d : ℚ) (h : |c - e| ≤ d) : |c * c - e * e| ≤ d * (1 + e * e + d) := by
  have hd : 0 ≤ d := le_trans (abs_nonneg _) h
  obtain ⟨h1, h2⟩ := abs_le.mp h
  have hsq : (c - e) * (c - e) ≤ d * d := by nlinarith
  have he : c * c - e * e = 2 * e * (c - e) + (c - e) * (c - e) := by ring
  have hcross : |2 * e * (c - e)| ≤ d * (1 + e * e) := by
    rw [abs_le]
    constructor
    · rcases le_or_lt 0 e with h0 | h0
      · nlinarith [mul_nonneg h0 (by linarith : (0 : ℚ) ≤ c - e + d),
          mul_nonneg hd (mul_self_nonneg (1 - e))]
      · nlinarith [mul_nonneg (le_of_lt (neg_pos.mpr h0)) (by linarith : (0 : ℚ) ≤ d - (c - e)),
          mul_nonneg hd (mul_self_nonneg (1 + e))]
    · rcases le_or_lt 0 e with h0 | h0
      · nlinarith [mul_nonneg h0 (by linarith : (0 : ℚ) ≤ d - (c - e)),
          mul_nonneg hd (mul_self_nonneg (1 - e))]
      · nlinarith [mul_nonneg (le_of_lt (neg_pos.mpr h0)) (by linarith : (0 : ℚ) ≤ c - e + d),
          mul_nonneg hd (mul_self_nonneg (1 + e))]
  rw [he]
  have h3 := abs_add (2 * e * (c - e)) ((c - e) * (c - e))
  rw [abs_of_nonneg (mul_self_nonneg (c - e))] at h3
  nlinarith

/-- The squared norm computed from two components within `2^-24` of `ex` and `ey` is
within `(1 + m) / 2^22` of `m = ex^2 + ey^2`. -/
theorem squaredNormRounded_near (cx cy ex ey : ℚ) (hx : |cx - ex| ≤ 1 / 2 ^ 24)
    (hy : |cy - ey| ≤ 1 / 2 ^ 24) :
    |(Vec2d.mk cx cy).squaredNormRounded - (ex * ex + ey * ey)|
      ≤ (1 + (ex * ex + ey * ey)) / 2 ^ 22 := by
  unfold Vec2d.squaredNormRounded
  simp only []
  have hcx := abs_le.mp (sq_near cx ex _ hx)
  have hcy := abs_le.mp (sq_near cy ey _ hy)
  have hex : 0 ≤ ex * ex := mul_self_nonneg _
  have hey : 0 ≤ ey * ey := mul_self_nonneg _
  have hcx0 : 0 ≤ cx * cx := mul_self_nonneg _
  have hcy0 : 0 ≤ cy * cy := mul_self_nonneg _
  have hA := binary64_error (cx * cx)
  have hB := binary64_error (cy * cy)
  rw [abs_of_nonneg hcx0] at hA
  rw [abs_of_nonneg hcy0] at hB
  have hA0 : 0 ≤ binary64 (cx * cx) := (binary64_nonneg_iff _).mpr hcx0
  have hB0 : 0 ≤ binary64 (cy * cy) := (binary64_nonneg_iff _).mpr hcy0
  have hR := binary64_error (binary64 (cx * cx) + binary64 (cy * cy))
  rw [abs_of_nonneg (add_nonneg hA0 hB0)] at hR
  obtain ⟨hA1, hA2⟩ := abs_le.mp hA
  obtain ⟨hB1, hB2⟩ := abs_le.mp hB
  obtain ⟨hR1, hR2⟩ := abs_le.mp hR
  rw [abs_le]
  constructor <;> norm_num at * <;> linarith

/-- On coordinates below `2^25` the computed `distance_to_squared` is within
`(1 + m) / 2^22` of the value `m` of exact arithmetic, and equal to it when `a = b` or the
projection parameter is outside `[0, 1]` or zero. -/
theorem distance_to_squaredRounded_near (p a b : Point) (hp : p.within (2 ^ 25))
    (ha : a.within (2 ^ 25)) (hb : b.within (2 ^ 25)) :
    |Line.distance_to_squaredRounded p a b - Line.distance_to_squared p a b|
      ≤ (1 + Line.distance_to_squared p a b) / 2 ^ 22 ∧
    (a = b ∨ dotAt p a b < 0 ∨ b.distSq a < dotAt p a b →
      Line.distance_to_squaredRounded p a b = Line.distance_to_squared p a b) := by
  rw [distance_to_squaredRounded_eq p a b hp ha hb, distance_to_squared_eq]
  have hnn : ∀ q : Point, (0 : ℚ) ≤ ((p.distSq q : ℤ) : ℚ) := by
    intro q
    exact_mod_cast distSq_nonneg q p
  have hexact : ∀ m : ℚ, 0 ≤ m → |m - m| ≤ (1 + m) / 2 ^ 22 := by
    intro m hm
    rw [sub_self, abs_zero]
    positivity
  by_cases hab : a = b
  · have h0 : b.distSq a = 0 := (distSq_eq_zero_iff a b).mpr hab
    rw [if_pos hab, if_pos h0]
    exact ⟨hexact _ (hnn a), fun _ => rfl⟩
  have hL : 0 < b.distSq a := distSq_pos_of_ne a b hab
  rw [if_neg hab, if_neg (ne_of_gt hL)]
  by_cases h1 : dotAt p a b < 0
  · rw [if_pos h1, if_pos ((projParam_neg_iff p a b hL).mpr h1)]
    exact ⟨hexact _ (hnn a), fun _ => rfl⟩
  have h1q : ¬ projParam p a b < 0 := fun h => h1 ((projParam_neg_iff p a b hL).mp h)
  rw [if_neg h1, if_neg h1q]
  by_cases h2 : b.distSq a < dotAt p a b
  · rw [if_pos h2, if_pos ((one_lt_projParam_iff p a b hL).mpr h2)]
    exact ⟨hexact _ (hnn b), fun _ => rfl⟩
  have h2q : ¬ 1 < projParam p a b := fun h => h2 ((one_lt_projParam_iff p a b hL).mp h)
  rw [if_neg h2, if_neg h2q]
  obtain ⟨_, hwx, hwy⟩ := castDoubleRounded_sub p a hp ha
  obtain ⟨_, hvx, hvy⟩ := castDoubleRounded_sub b a hb ha
  have hx := proj_component_error (b.x - a.x) (p.x - a.x) (projParam p a b) hvx hwx
    (not_lt.mp h1q) (not_lt.mp h2q)
  have hy := proj_component_error (b.y - a.y) (p.y - a.y) (projParam p a b) hvy hwy
    (not_lt.mp h1q) (not_lt.mp h2q)
  have h := squaredNormRounded_near _ _ _ _ hx hy
  constructor
  · rw [sq, sq]
    exact h
  · rintro (h3 | h3 | h3)
    · exact absurd h3 hab
    · exact absurd h3 h1
    · exact absurd h3 h2

/-! ## Claim on `Line::distance_to_squared` as computed in doubles -/

/-- C5, counterexample: the point `p = (0, 15)` is on the segment from `a = (0, 0)` to
`b = (0, 22)`, at the parameter `15 / 22`, so that the minimum of the squared distance is
0; the code returns `2^-98` in doubles: the rounded parameter times 22 is not 15. -/
theorem distance_to_squared_on_segment_nonzero :
    distSqAt ⟨0, 15⟩ ⟨0, 0⟩ ⟨0, 22⟩ (15 / 22) = 0 ∧
    Line.distance_to_squaredRounded ⟨0, 15⟩ ⟨0, 0⟩ ⟨0, 22⟩ = 1 / 2 ^ 98 := by
  constructor
  · simp only [distSqAt, Point.distSqTo]
    norm_num
  · decide!

/-- C5, amended: for a point `p` and endpoints `a`, `b` with coordinates below `2^25` in
magnitude, `distance_to_squared(p, a, b)` in doubles is within `(1 + m) / 2^22` of the
minimum `m` over `t` in `[0, 1]` of the squared distance from `p` to `a + t (b - a)`. It
is the minimum itself when the projection of `p` is not inside the segment: it is
`|p - a|^2` when `a = b` or `(p - a) . (b - a) < 0`, and `|p - b|^2` when
`(p - a) . (b - a) > |b - a|^2`. -/
theorem distance_to_squared_near_min (p a b : Point) (hp : p.within (2 ^ 25))
    (ha : a.within (2 ^ 25)) (hb : b.within (2 ^ 25)) :
    (∀ m : ℝ, (∃ t : ℝ, 0 ≤ t ∧ t ≤ 1 ∧ m = distSqAt p a b t) →
      (∀ t : ℝ, 0 ≤ t → t ≤ 1 → m ≤ distSqAt p a b t) →
      |((Line.distance_to_squaredRounded p a b : ℚ) : ℝ) - m| ≤ (1 + m) / 2 ^ 22 ∧
      (a = b ∨ dotAt p a b < 0 ∨ b.distSq a < dotAt p a b →
        ((Line.distance_to_squaredRounded p a b : ℚ) : ℝ) = m)) ∧
    (∃ m : ℚ, (∃ t : ℝ, 0 ≤ t ∧ t ≤ 1 ∧ (m : ℝ) = distSqAt p a b t) ∧
      (∀ t : ℝ, 0 ≤ t → t ≤ 1 → (m : ℝ) ≤ distSqAt p a b t)) ∧
    (a = b ∨ dotAt p a b < 0 →
      Line.distance_to_squaredRounded p a b = ((p.distSq a : ℤ) : ℚ)) ∧
    (a ≠ b → b.distSq a < dotAt p a b →
      Line.distance_to_squaredRounded p a b = ((p.distSq b : ℤ) : ℚ)) := by
  obtain ⟨⟨t0, ht0, ht1, hat⟩, hmin, _⟩ := distance_to_squared_is_min p a b
  obtain ⟨hnear, heq⟩ := distance_to_squaredRounded_near p a b hp ha hb
  refine ⟨?_, ⟨Line.distance_to_squared p a b, ⟨(t0 : ℝ), ?_, ?_, hat⟩, hmin⟩, ?_, ?_⟩
  · rintro m ⟨t, h0, h1, hm⟩ hle
    have hm1 : m ≤ ((Line.distance_to_squared p a b : ℚ) : ℝ) := by
      rw [hat]
      exact hle _ (by exact_mod_cast ht0) (by exact_mod_cast ht1)
    have hm2 : ((Line.distance_to_squared p a b : ℚ) : ℝ) ≤ m := by
      rw [hm]
      exact hmin t h0 h1
    have hmeq : m = ((Line.distance_to_squared p a b : ℚ) : ℝ) := le_antisymm hm1 hm2
    rw [hmeq]
    constructor
    · have h := abs_sub_le_real _ _ _ hnear
      push_cast at h
      exact h
    · intro hc
      rw [heq hc]
  · exact_mod_cast ht0
  · exact_mod_cast ht1
  · intro hc
    rw [distance_to_squaredRounded_eq p a b hp ha hb]
    rcases hc with hc | hc
    · rw [if_pos hc]
    · by_cases hab : a = b
      · rw [if_pos hab]
      · rw [if_neg hab, if_pos hc]
  · intro hab hc
    rw [distance_to_squaredRounded_eq p a b hp ha hb, if_neg hab]
    have hL : 0 < b.distSq a := distSq_pos_of_ne a b hab
    rw [if_neg (by omega), if_pos hc]

/-- Witness of C5, amended: the point (0,15) of the segment (0,0)-(0,22), where the minimum
is 0 and the computed value `2^-98`. -/
theorem distance_to_squared_near_min_witness :
    (Point.mk 0 15).within (2 ^ 25) ∧ (Point.mk 0 0).within (2 ^ 25) ∧
    (Point.mk 0 22).within (2 ^ 25) ∧
    |((Line.distance_to_squaredRounded ⟨0, 15⟩ ⟨0, 0⟩ ⟨0, 22⟩ : ℚ) : ℝ) - 0|
      ≤ (1 + 0) / 2 ^ 22 :=
  ⟨by decide, by decide, by decide,
    ((distance_to_squared_near_min ⟨0, 15⟩ ⟨0, 0⟩ ⟨0, 22⟩ (by decide) (by decide)
      (by decide)).1 0
      ⟨15 / 22, by norm_num, by norm_num, by simp only [distSqAt, Point.distSqTo]; norm_num⟩
      (fun t _ _ => by simp only [distSqAt, Point.distSqTo]; positivity)).1⟩

/-- A square computed from a number within the relative error `r` of `y` is within the
relative error `3 r` of `y^2`. -/
theorem sq_rel_error (x y r : ℝ) (hy : 0 ≤ y) (hr1 : r ≤ 1)
    (h : |x - y| ≤ y * r) : |x ^ 2 - y ^ 2| ≤ y ^ 2 * (3 * r) := by
  have hr0 : 0 ≤ y * r := le_trans (abs_nonneg _) h
  obtain ⟨h1, h2⟩ := abs_le.mp h
  have hyr : y * r ≤ y := by nlinarith
  rw [abs_le]
  constructor
  · nlinarith [mul_nonneg hy hr0, mul_nonneg hr0 hr0]
  · nlinarith [mul_nonneg hy hr0, mul_nonneg hr0 hr0]

/-- On coordinates below `2^25` the square of the computed `perp_distance_to` is within
the relative error `2^-51` of `|p - a|^2` when `a = b`, and otherwise within the relative
error `2^-49` of `cross^2 / |b - a|^2`, the squared distance to the line. -/
theorem perp_distance_toRounded_sq (line : Line) (p : Point) (hl : line.within (2 ^ 25))
    (hp : p.within (2 ^ 25)) :
    (line.a = line.b →
      |(line.perp_distance_toRounded p) ^ 2 - ((p.distSq line.a : ℤ) : ℚ)|
        ≤ ((p.distSq line.a : ℤ) : ℚ) / 2 ^ 51) ∧
    (line.a ≠ line.b →
      |(line.perp_distance_toRounded p) ^ 2
          - ((crossAt p line.a line.b ^ 2 : ℤ) : ℚ) / ((line.b.distSq line.a : ℤ) : ℚ)|
        ≤ ((crossAt p line.a line.b ^ 2 : ℤ) : ℚ) / ((line.b.distSq line.a : ℤ) : ℚ)
          / 2 ^ 49) := by
  rw [perp_distance_toRounded_eq line p hl hp]
  constructor
  · intro hab
    rw [if_pos hab]
    have hM : (0 : ℝ) ≤ ((p.distSq line.a : ℤ) : ℝ) := by
      exact_mod_cast distSq_nonneg line.a p
    have h := binary64Sqrt_error ((p.distSq line.a : ℤ) : ℚ)
      (by exact_mod_cast distSq_nonneg line.a p)
    rw [Rat.cast_intCast] at h
    have h2 := sq_rel_error _ _ (1 / 2 ^ 53) (Real.sqrt_nonneg _) (by norm_num)
      (by rw [mul_one_div]; exact h)
    rw [Real.sq_sqrt hM] at h2
    have h3 : |((binary64Sqrt ((p.distSq line.a : ℤ) : ℚ) : ℚ) : ℝ) ^ 2
        - ((p.distSq line.a : ℤ) : ℝ)| ≤ ((p.distSq line.a : ℤ) : ℝ) / 2 ^ 51 := by
      refine le_trans h2 ?_
      rw [div_eq_mul_one_div]
      apply mul_le_mul_of_nonneg_left _ hM
      norm_num
    have h4 : ((|(binary64Sqrt ((p.distSq line.a : ℤ) : ℚ)) ^ 2
        - ((p.distSq line.a : ℤ) : ℚ)| : ℚ) : ℝ)
        ≤ ((((p.distSq line.a : ℤ) : ℚ) / 2 ^ 51 : ℚ) : ℝ) := by
      push_cast
      exact h3
    exact_mod_cast h4
  · intro hab
    rw [if_neg hab]
    have hL : 0 < line.b.distSq line.a := distSq_pos_of_ne line.a line.b hab
    have hLq : (0 : ℚ) < ((line.b.distSq line.a : ℤ) : ℚ) := by exact_mod_cast hL
    have hLr : (0 : ℝ) ≤ ((line.b.distSq line.a : ℤ) : ℝ) := by exact_mod_cast le_of_lt hL
    have h := rounded_quotient_error |((crossAt p line.a line.b : ℤ) : ℚ)|
      ((line.b.distSq line.a : ℤ) : ℚ) (abs_nonneg _) hLq
    rw [Rat.cast_abs, Rat.cast_intCast, Rat.cast_intCast] at h
    have hD0 : 0 ≤ |((crossAt p line.a line.b : ℤ) : ℝ)|
        / Real.sqrt ((line.b.distSq line.a : ℤ) : ℝ) :=
      div_nonneg (abs_nonneg _) (Real.sqrt_nonneg _)
    have h2 := sq_rel_error _ _ (1 / 2 ^ 51) hD0 (by norm_num)
      (by rw [mul_one_div]; exact h)
    rw [div_pow, sq_abs, Real.sq_sqrt hLr] at h2
    have hD2 : 0 ≤ ((crossAt p line.a line.b : ℤ) : ℝ) ^ 2
        / ((line.b.distSq line.a : ℤ) : ℝ) := div_nonneg (sq_nonneg _) hLr
    have h3 : |((binary64 (|((crossAt p line.a line.b : ℤ) : ℚ)|
          / binary64Sqrt ((line.b.distSq line.a : ℤ) : ℚ)) : ℚ) : ℝ) ^ 2
        - ((crossAt p line.a line.b : ℤ) : ℝ) ^ 2 / ((line.b.distSq line.a : ℤ) : ℝ)|
        ≤ ((crossAt p line.a line.b : ℤ) : ℝ) ^ 2 / ((line.b.distSq line.a : ℤ) : ℝ)
          / 2 ^ 49 := by
      refine le_trans h2 ?_
      rw [div_eq_mul_one_div _ ((2 : ℝ) ^ 49)]
      apply mul_le_mul_of_nonneg_left _ hD2
      norm_num
    have h4 : ((|(binary64 (|((crossAt p line.a line.b : ℤ) : ℚ)|
          / binary64Sqrt ((line.b.distSq line.a : ℤ) : ℚ))) ^ 2
        - ((crossAt p line.a line.b ^ 2 : ℤ) : ℚ) / ((line.b.distSq line.a : ℤ) : ℚ)| : ℚ) : ℝ)
        ≤ ((((crossAt p line.a line.b ^ 2 : ℤ) : ℚ) / ((line.b.distSq line.a : ℤ) : ℚ)
          / 2 ^ 49 : ℚ) : ℝ) := by
      push_cast
      exact h3
    exact_mod_cast h4

/-- With exact arithmetic, the squared distance to the segment is the squared distance
`cross^2 / |b - a|^2` to the line when the projection parameter is in `[0, 1]`, and more
than it when the parameter is outside `[0, 1]`, where it is the smaller of the squared
distances to the endpoints. -/
theorem distance_to_squared_vs_line (p a b : Point) (hab : a ≠ b) :
    (0 ≤ dotAt p a b → dotAt p a b ≤ b.distSq a →
      Line.distance_to_squared p a b
        = ((crossAt p a b ^ 2 : ℤ) : ℚ) / ((b.distSq a : ℤ) : ℚ)) ∧
    (dotAt p a b < 0 ∨ b.distSq a < dotAt p a b →
      ((crossAt p a b ^ 2 : ℤ) : ℚ) / ((b.distSq a : ℤ) : ℚ) < Line.distance_to_squared p a b ∧
      Line.distance_to_squared p a b
        = min ((p.distSq a : ℤ) : ℚ) ((p.distSq b : ℤ) : ℚ)) := by
  have hpos : 0 < b.distSq a := distSq_pos_of_ne a b hab
  have h0 : ¬ b.distSq a = 0 := ne_of_gt hpos
  have hL : (0 : ℚ) < ((b.distSq a : ℤ) : ℚ) := by exact_mod_cast hpos
  have hba : p.distSq b = p.distSq a - 2 * dotAt p a b + b.distSq a := by
    simp only [Point.distSq, dotAt]
    ring
  rw [distance_to_squared_eq, if_neg h0]
  constructor
  · intro h1 h2
    rw [if_neg (fun h => absurd ((projParam_neg_iff p a b hpos).mp h) (not_lt.mpr h1)),
      if_neg (fun h => absurd ((one_lt_projParam_iff p a b hpos).mp h) (not_lt.mpr h2))]
    unfold projParam
    simp only [Point.distSq, dotAt, crossAt] at hL ⊢
    push_cast at hL ⊢
    field_simp
    ring
  · intro h
    rcases h with h | h
    · rw [if_pos ((projParam_neg_iff p a b hpos).mpr h)]
      constructor
      · rw [div_lt_iff₀ hL]
        have hlag := lagrange_identity p a b
        have : crossAt p a b ^ 2 < p.distSq a * b.distSq a := by nlinarith
        exact_mod_cast this
      · rw [min_eq_left]
        have : p.distSq a ≤ p.distSq b := by omega
        exact_mod_cast this
    · rw [if_neg (fun hc => by
          have := (projParam_neg_iff p a b hpos).mp hc
          omega),
        if_pos ((one_lt_projParam_iff p a b hpos).mpr h)]
      constructor
      · rw [div_lt_iff₀ hL]
        have hlag : p.distSq b * b.distSq a
            = (dotAt p a b - b.distSq a) ^ 2 + crossAt p a b ^ 2 := by
          simp only [Point.distSq, dotAt, crossAt]
          ring
        have : crossAt p a b ^ 2 < p.distSq b * b.distSq a := by nlinarith
        exact_mod_cast this
      · rw [min_eq_right]
        have : p.distSq b ≤ p.distSq a := by omega
        exact_mod_cast this

/-- With exact arithmetic, the squared distance to the segment is at most the squared
distances to the endpoints, and is not negative. -/
theorem distance_to_squared_le_ends (p a b : Point) :
    Line.distance_to_squared p a b ≤ min ((p.distSq a : ℤ) : ℚ) ((p.distSq b : ℤ) : ℚ) ∧
    0 ≤ Line.distance_to_squared p a b := by
  obtain ⟨⟨t0, _, _, hat⟩, hmin, _⟩ := distance_to_squared_is_min p a b
  have ha := hmin 0 (le_refl _) zero_le_one
  have hb := hmin 1 zero_le_one (le_refl _)
  rw [← distSq_as_distSqAt_one] at hb
  rw [distSqAt_expand] at ha
  have ha2 : ((Line.distance_to_squared p a b : ℚ) : ℝ) ≤ ((((p.distSq a : ℤ) : ℚ)) : ℝ) := by
    push_cast
    linarith
  have hb2 : ((Line.distance_to_squared p a b : ℚ) : ℝ) ≤ ((((p.distSq b : ℤ) : ℚ)) : ℝ) := by
    push_cast
    exact hb
  have h0 : (0 : ℝ) ≤ ((Line.distance_to_squared p a b : ℚ) : ℝ) := by
    rw [hat]
    simp only [distSqAt, Point.distSqTo]
    positivity
  exact ⟨le_min (by exact_mod_cast ha2) (by exact_mod_cast hb2), by exact_mod_cast h0⟩

/-! ## Claim comparing `perp_distance_to` and `distance_to_squared` -/

/-- C27, counterexample: for `a = (0, 0)`, `b = (1, 2)` and `p = (-4, 2)` the projection of
`p` is the endpoint `a`, `distance_to_squared` is 20 in doubles and the square of
`perp_distance_to` is more than 20. For `a = (0, 0)`, `b = (41382, 1)` and
`p = (1, -41380)`, `distance_to_squared` in doubles is more than `|p - a|^2`. -/
theorem perp_exceeds_distance_to_squared :
    dotAt ⟨-4, 2⟩ ⟨0, 0⟩ ⟨1, 2⟩ = 0 ∧
    Line.distance_to_squaredRounded ⟨-4, 2⟩ ⟨0, 0⟩ ⟨1, 2⟩ = 20 ∧
    20 < (Line.perp_distance_toRounded ⟨⟨0, 0⟩, ⟨1, 2⟩⟩ ⟨-4, 2⟩) ^ 2 ∧
    ((Point.distSq ⟨1, -41380⟩ ⟨0, 0⟩ : ℤ) : ℚ)
      < Line.distance_to_squaredRounded ⟨1, -41380⟩ ⟨0, 0⟩ ⟨41382, 1⟩ := by
  decide!

/-- C27, amended: for `a`, `b` and `p` with coordinates below `2^25` in magnitude, with
`perp` the result of `perp_distance_to(p)` on the segment `(a, b)` and `d` the result of
`distance_to_squared(p, a, b)`, both in doubles: `perp^2 <= d + (1 + d) / 2^21`, and
`d <= m + (1 + m) / 2^22` for `m = min(|p - a|^2, |p - b|^2)`. When `a = b` or the
projection of `p` is on the closed segment, `perp^2` and `d` differ by at most
`(1 + d) / 2^21`. When `a` and `b` differ and the projection is outside the segment, `d` is
`m` itself and exceeds the squared distance `cross^2 / |b - a|^2` to the line, of which
`perp^2` is within the relative error `2^-49`. -/
theorem perp_vs_distance_to_squared (p a b : Point) (hp : p.within (2 ^ 25))
    (ha : a.within (2 ^ 25)) (hb : b.within (2 ^ 25)) :
    ((Line.mk a b).perp_distance_toRounded p) ^ 2
      ≤ Line.distance_to_squaredRounded p a b
        + (1 + Line.distance_to_squaredRounded p a b) / 2 ^ 21 ∧
    Line.distance_to_squaredRounded p a b
      ≤ min ((p.distSq a : ℤ) : ℚ) ((p.distSq b : ℤ) : ℚ)
        + (1 + min ((p.distSq a : ℤ) : ℚ) ((p.distSq b : ℤ) : ℚ)) / 2 ^ 22 ∧
    (a = b ∨ (0 ≤ dotAt p a b ∧ dotAt p a b ≤ b.distSq a) →
      |((Line.mk a b).perp_distance_toRounded p) ^ 2 - Line.distance_to_squaredRounded p a b|
        ≤ (1 + Line.distance_to_squaredRounded p a b) / 2 ^ 21) ∧
    (a ≠ b → dotAt p a b < 0 ∨ b.distSq a < dotAt p a b →
      Line.distance_to_squaredRounded p a b
        = min ((p.distSq a : ℤ) : ℚ) ((p.distSq b : ℤ) : ℚ) ∧
      ((crossAt p a b ^ 2 : ℤ) : ℚ) / ((b.distSq a : ℤ) : ℚ)
        < Line.distance_to_squaredRounded p a b ∧
      |((Line.mk a b).perp_distance_toRounded p) ^ 2
          - ((crossAt p a b ^ 2 : ℤ) : ℚ) / ((b.distSq a : ℤ) : ℚ)|
        ≤ ((crossAt p a b ^ 2 : ℤ) : ℚ) / ((b.distSq a : ℤ) : ℚ) / 2 ^ 49) := by
  have hl : (Line.mk a b).within (2 ^ 25) := ⟨ha.1, ha.2, hb.1, hb.2⟩
  obtain ⟨hperp1, hperp2⟩ := perp_distance_toRounded_sq (Line.mk a b) p hl hp
  obtain ⟨hnear, heq⟩ := distance_to_squaredRounded_near p a b hp ha hb
  obtain ⟨hends, hnn⟩ := distance_to_squared_le_ends p a b
  obtain ⟨hn1, hn2⟩ := abs_le.mp hnear
  -- the case of a segment of zero length
  have hzero : a = b →
      |((Line.mk a b).perp_distance_toRounded p) ^ 2 - Line.distance_to_squaredRounded p a b|
        ≤ (1 + Line.distance_to_squaredRounded p a b) / 2 ^ 21 := by
    intro hab
    have h1 := hperp1 hab
    have h2 := heq (Or.inl hab)
    have h3 : Line.distance_to_squared p a b = ((p.distSq a : ℤ) : ℚ) := by
      rw [distance_to_squared_eq, if_pos ((distSq_eq_zero_iff a b).mpr hab)]
    rw [h2, h3]
    rw [h3] at hnn
    refine le_trans h1 ?_
    have : ((p.distSq a : ℤ) : ℚ) / 2 ^ 51 ≤ ((p.distSq a : ℤ) : ℚ) / 2 ^ 21 :=
      div_le_div_of_nonneg_left hnn (by positivity) (by norm_num)
    have e : (1 + ((p.distSq a : ℤ) : ℚ)) / 2 ^ 21
        = 1 / 2 ^ 21 + ((p.distSq a : ℤ) : ℚ) / 2 ^ 21 := by ring
    rw [e]
    have : (0 : ℚ) < 1 / 2 ^ 21 := by positivity
    linarith
  -- the case of a projection on the segment
  have hproj : a ≠ b → 0 ≤ dotAt p a b → dotAt p a b ≤ b.distSq a →
      |((Line.mk a b).perp_distance_toRounded p) ^ 2 - Line.distance_to_squaredRounded p a b|
        ≤ (1 + Line.distance_to_squaredRounded p a b) / 2 ^ 21 := by
    intro hab h0 h1
    have hline := (distance_to_squared_vs_line p a b hab).1 h0 h1
    have hp2 := abs_le.mp (hperp2 hab)
    rw [← hline] at hp2
    obtain ⟨hp3, hp4⟩ := hp2
    rw [abs_le]
    constructor <;> norm_num at * <;> linarith
  -- the case of a projection outside the segment
  have hout : a ≠ b → dotAt p a b < 0 ∨ b.distSq a < dotAt p a b →
      Line.distance_to_squaredRounded p a b
        = min ((p.distSq a : ℤ) : ℚ) ((p.distSq b : ℤ) : ℚ) ∧
      ((crossAt p a b ^ 2 : ℤ) : ℚ) / ((b.distSq a : ℤ) : ℚ)
        < Line.distance_to_squaredRounded p a b ∧
      |((Line.mk a b).perp_distance_toRounded p) ^ 2
          - ((crossAt p a b ^ 2 : ℤ) : ℚ) / ((b.distSq a : ℤ) : ℚ)|
        ≤ ((crossAt p a b ^ 2 : ℤ) : ℚ) / ((b.distSq a : ℤ) : ℚ) / 2 ^ 49 := by
    intro hab hc
    obtain ⟨hlt, hmin⟩ := (distance_to_squared_vs_line p a b hab).2 hc
    have h2 := heq (Or.inr hc)
    rw [h2]
    exact ⟨hmin, hlt, hperp2 hab⟩
  refine ⟨?_, ?_, ?_, hout⟩
  · by_cases hab : a = b
    · have h := (abs_le.mp (hzero hab)).2
      linarith
    by_cases hc : dotAt p a b < 0 ∨ b.distSq a < dotAt p a b
    · obtain ⟨_, hlt, hpp⟩ := hout hab hc
      have hpos : (0 : ℚ) ≤ ((crossAt p a b ^ 2 : ℤ) : ℚ) / ((b.distSq a : ℤ) : ℚ) := by
        apply div_nonneg
        · exact_mod_cast sq_nonneg (crossAt p a b)
        · exact_mod_cast distSq_nonneg a b
      obtain ⟨_, hp4⟩ := abs_le.mp hpp
      norm_num at *
      linarith
    · push_neg at hc
      have h := (abs_le.mp (hproj hab hc.1 hc.2)).2
      linarith
  · have e : ∀ x y : ℚ, x ≤ y → x + (1 + x) / 2 ^ 22 ≤ y + (1 + y) / 2 ^ 22 := by
      intro x y hxy
      have : (1 + x) / 2 ^ 22 ≤ (1 + y) / 2 ^ 22 :=
        div_le_div_of_nonneg_right (by linarith) (by positivity)
      linarith
    have := e _ _ hends
    linarith
  · rintro (hab | ⟨h0, h1⟩)
    · exact hzero hab
    · by_cases hab : a = b
      · exact hzero hab
      · exact hproj hab h0 h1

/-- Witness of C27, amended: the point (-4,2) and the segment (0,0)-(1,2), where the square
of the computed `perp_distance_to` exceeds the computed `distance_to_squared` by less than
the tolerance. -/
theorem perp_vs_distance_to_squared_witness :
    (Point.mk (-4) 2).within (2 ^ 25) ∧ (Point.mk 0 0).within (2 ^ 25) ∧
    (Point.mk 1 2).within (2 ^ 25) ∧
    (Line.perp_distance_toRounded ⟨⟨0, 0⟩, ⟨1, 2⟩⟩ ⟨-4, 2⟩) ^ 2
      ≤ Line.distance_to_squaredRounded ⟨-4, 2⟩ ⟨0, 0⟩ ⟨1, 2⟩
        + (1 + Line.distance_to_squaredRounded ⟨-4, 2⟩ ⟨0, 0⟩ ⟨1, 2⟩) / 2 ^ 21 :=
  ⟨by decide, by decide, by decide,
    (perp_vs_distance_to_squared ⟨-4, 2⟩ ⟨0, 0⟩ ⟨1, 2⟩ (by decide) (by decide) (by decide)).1⟩

/-! ## The exact readings against the doubles

What is stated above on the readings with exact arithmetic (no report for parallel
segments or a segment of zero length, the value 0 of `distance_to_squared` at the two
endpoints) holds of the functions as computed in doubles as well, on coordinates below
`2^25`. -/

/-- On coordinates below `2^25`, two segments whose direction vectors have zero cross
product are reported as not intersecting by `intersection` and by `intersection_infinite`
as computed in doubles, and the output point is left as it was. -/
theorem intersectionRounded_parallel_none (EPSILON : ℚ) (hpos : 0 < EPSILON)
    (hle : EPSILON ≤ 1) (COORD_MAX : ℤ) (l1 l2 : Line) (out : Point)
    (h1 : l1.within (2 ^ 25)) (h2 : l2.within (2 ^ 25)) (hpar : l1.dirCross l2 = 0) :
    l1.intersectionRounded binary64 EPSILON l2 out = (false, out) ∧
    l1.intersection_infiniteRounded binary64 EPSILON COORD_MAX l2 out = .value (false, out) := by
  rw [intersectionRounded_bounded_eq EPSILON hpos hle l1 l2 out h1 h2,
    intersection_infiniteRounded_bounded_eq EPSILON hpos hle COORD_MAX l1 l2 out h1 h2,
    if_pos hpar, if_pos hpar]
  exact ⟨rfl, rfl⟩

/-- On coordinates below `2^25`, a segment of zero length is reported as intersecting
nothing by `intersection` and by `intersection_infinite` as computed in doubles. -/
theorem intersectionRounded_zero_length_none (EPSILON : ℚ) (hpos : 0 < EPSILON)
    (hle : EPSILON ≤ 1) (COORD_MAX : ℤ) (l1 l2 : Line) (out : Point)
    (h1 : l1.within (2 ^ 25)) (h2 : l2.within (2 ^ 25)) (hz : l1.a = l1.b ∨ l2.a = l2.b) :
    l1.intersectionRounded binary64 EPSILON l2 out = (false, out) ∧
    l1.intersection_infiniteRounded binary64 EPSILON COORD_MAX l2 out = .value (false, out) :=
  intersectionRounded_parallel_none EPSILON hpos hle COORD_MAX l1 l2 out h1 h2
    (dirCross_zero_length l1 l2 hz)

theorem squaredNormRounded_zero : (Vec2d.mk 0 0).squaredNormRounded = 0 := by
  unfold Vec2d.squaredNormRounded
  simp only [mul_zero, binary64_zero, add_zero]

/-- On coordinates below `2^25`, `distance_to_squared` as computed in doubles is 0 at the
two endpoints of the segment. -/
theorem distance_to_squaredRounded_ends (a b : Point) (ha : a.within (2 ^ 25))
    (hb : b.within (2 ^ 25)) :
    Line.distance_to_squaredRounded a a b = 0 ∧ Line.distance_to_squaredRounded b a b = 0 := by
  rw [distance_to_squaredRounded_eq a a b ha ha hb, distance_to_squaredRounded_eq b a b hb ha hb]
  by_cases hab : a = b
  · rw [if_pos hab, if_pos hab]
    have h1 : a.distSq a = 0 := by simp [Point.distSq]
    have h2 : b.distSq a = 0 := (distSq_eq_zero_iff a b).mpr hab
    rw [h1, h2]
    exact ⟨by norm_num, by norm_num⟩
  · have hL : 0 < b.distSq a := distSq_pos_of_ne a b hab
    have hLq : ((b.distSq a : ℤ) : ℚ) ≠ 0 := by
      have : (0 : ℚ) < ((b.distSq a : ℤ) : ℚ) := by exact_mod_cast hL
      exact ne_of_gt this
    have hda : dotAt a a b = 0 := by simp [dotAt]
    have hdb : dotAt b a b = b.distSq a := by
      simp only [dotAt, Point.distSq]
      ring
    have hpa : projParam a a b = 0 := by
      unfold projParam
      rw [hda]
      simp
    have hpb : projParam b a b = 1 := by
      unfold projParam
      rw [hdb]
      exact div_self hLq
    have hone : binary64 1 = 1 := by
      have := binary64_intCast 1 (by norm_num)
      simpa using this
    simp only [if_neg hab, hda, hdb, lt_self_iff_false, if_false,
      if_neg (not_lt.mpr (le_of_lt hL)), hpa, hpb, binary64_zero, hone]
    constructor
    · simp only [zero_mul, binary64_zero, sub_self, Int.cast_zero]
      exact squaredNormRounded_zero
    · simp only [one_mul]
      rw [binary64_diff_exact _ _ hb.1 ha.1, binary64_diff_exact _ _ hb.2 ha.2]
      simp only [sub_self, binary64_zero]
      exact squaredNormRounded_zero

end Slic3r
